import Mathlib

/-!
The WAV container, the mixing engine, the normalizer and the compressor of
go-mixer: a shallow embedding of `src/dsp.go`.

* A `byte` is a `Fin 256`; the unsigned header fields are natural numbers and
  every wrap-around of the Go arithmetic is written out (`% 2 ^ 16`,
  `% 2 ^ 32`).
* An `io.Reader` is the list of bytes it has not yet delivered.  A
  `binary.Read` of `n` bytes goes through `io.ReadFull`: with `n` bytes left
  it delivers them; with fewer it consumes what is left, returns an error
  and leaves its destination untouched.  `read` discards every such error.
* A run-time panic of the Go program is a `Fault`.
* `float64` arithmetic is taken through an interface of total operations
  (`Float64Ops`): the gc compiler evaluates `float64` division by IEEE-754,
  a division by zero yields an infinity or a NaN and does not panic, and a
  conversion of a `float64` to an integer type always yields some value.
  `ieeeOps` is binary64 arithmetic on integer fractions, which evaluates on
  concrete tracks; `exactOps` is exact rational arithmetic; `Float64Laws`
  states what the general theorems use of IEEE-754 and of the gc compiler,
  and `Float64KneeLaws` adds the rounding of the operations of the soft knee.
-/

set_option linter.unusedVariables false

namespace GoMixer

/-- One byte. -/
abbrev Byte := Fin 256

/-- A frame: the `[]byte` stored in one slot of `WAV.data`. -/
abbrev Frame := List Byte

/-- The byte with value `n % 256` (the conversion `byte(n)` of Go). -/
def byte (n : Nat) : Byte := ⟨n % 256, Nat.mod_lt n (by decide)⟩

/-- A `[4]byte` array. -/
structure Tag where
  b0 : Byte
  b1 : Byte
  b2 : Byte
  b3 : Byte
  deriving DecidableEq, Repr

/-- The zero value of `[4]byte`. -/
def Tag.zero : Tag := ⟨0, 0, 0, 0⟩

/-- The four bytes of a tag in array order (how `binary.Write` emits a byte
array, whatever the byte order passed to it). -/
def Tag.bytes (t : Tag) : List Byte := [t.b0, t.b1, t.b2, t.b3]

/-- The run-time panics the modelled functions can raise. -/
inductive Fault where
  | integerDivideByZero
  | indexOutOfRange
  deriving DecidableEq, Repr

/-- The `float64` stored in `WAV.Duration`.  No modelled function computes
with it, so it is carried as what it was computed from: `zero` is the zero
value of a fresh `WAV`, `quot n d` is `float64(n) / float64(d)`. -/
inductive DurationValue where
  | zero
  | quot (num den : Nat)
  deriving DecidableEq, Repr

/-- The struct `WAV` (dsp.go, lines 26-45), field by field.  `data` is the
sequence of frames the slice `data` holds. -/
structure WAV where
  chunkID : Tag
  chunkSize : Nat
  format : Tag
  subchunk1ID : Tag
  subchunk1Size : Nat
  audioFormat : Nat
  numChannels : Nat
  sampleRate : Nat
  byteRate : Nat
  blockAlign : Nat
  bitsPerSample : Nat
  subchunk2ID : Tag
  subchunk2Size : Nat
  data : List Frame
  NumSamples : Nat
  SampleSize : Nat
  Duration : DurationValue
  deriving DecidableEq, Repr

/-- `NewWAV()`: the zero value of the struct. -/
def NewWAV : WAV :=
  { chunkID := Tag.zero, chunkSize := 0, format := Tag.zero, subchunk1ID := Tag.zero,
    subchunk1Size := 0, audioFormat := 0, numChannels := 0, sampleRate := 0, byteRate := 0,
    blockAlign := 0, bitsPerSample := 0, subchunk2ID := Tag.zero, subchunk2Size := 0,
    data := [], NumSamples := 0, SampleSize := 0, Duration := DurationValue.zero }

/-- An `io.Reader` over a byte buffer: the bytes not yet delivered. -/
abbrev Reader := List Byte

/-- `binary.Read(r, order, &tag)` for a `[4]byte` destination: four bytes
in array order.  On a short stream the destination keeps its old value and
the stream is exhausted. -/
def readTag (old : Tag) : Reader → Tag × Reader
  | a :: b :: c :: d :: r => (⟨a, b, c, d⟩, r)
  | _ => (old, [])

/-- `binary.Read(r, binary.LittleEndian, &v)` for a `uint32` destination. -/
def readUint32 (old : Nat) : Reader → Nat × Reader
  | a :: b :: c :: d :: r => (a.val + 256 * b.val + 65536 * c.val + 16777216 * d.val, r)
  | _ => (old, [])

/-- `binary.Read(r, binary.LittleEndian, &v)` for a `uint16` destination. -/
def readUint16 (old : Nat) : Reader → Nat × Reader
  | a :: b :: r => (a.val + 256 * b.val, r)
  | _ => (old, [])

/-- One pass of the body of the frame loop of `read` (lines 70-71):
`x := make([]byte, n)` then `binary.Read(r, binary.LittleEndian, &x)`.  On a
short stream `x` keeps the zero bytes `make` gave it. -/
def readFrame (n : Nat) (r : Reader) : Frame × Reader :=
  if n ≤ r.length then (r.take n, r.drop n) else (List.replicate n 0, [])

/-- The frame loop of `read` (lines 69-73) with `n` passes left: each pass
appends the frame it read to `data`. -/
def readFrames (sampleSize : Nat) : Nat → List Frame → Reader → List Frame
  | 0, data, _ => data
  | n + 1, data, r =>
    readFrames sampleSize n (data ++ [(readFrame sampleSize r).1]) (readFrame sampleSize r).2

/-- The thirteen header reads of `read` (lines 53-65): `*object` with the
header fields read so far, and the reader after them. -/
def readHeader (object : WAV) (r : Reader) : WAV × Reader :=
  let c1 := readTag object.chunkID r
  let c2 := readUint32 object.chunkSize c1.2
  let c3 := readTag object.format c2.2
  let c4 := readTag object.subchunk1ID c3.2
  let c5 := readUint32 object.subchunk1Size c4.2
  let c6 := readUint16 object.audioFormat c5.2
  let c7 := readUint16 object.numChannels c6.2
  let c8 := readUint32 object.sampleRate c7.2
  let c9 := readUint32 object.byteRate c8.2
  let c10 := readUint16 object.blockAlign c9.2
  let c11 := readUint16 object.bitsPerSample c10.2
  let c12 := readTag object.subchunk2ID c11.2
  let c13 := readUint32 object.subchunk2Size c12.2
  ({ object with
      chunkID := c1.1, chunkSize := c2.1, format := c3.1, subchunk1ID := c4.1,
      subchunk1Size := c5.1, audioFormat := c6.1, numChannels := c7.1, sampleRate := c8.1,
      byteRate := c9.1, blockAlign := c10.1, bitsPerSample := c11.1, subchunk2ID := c12.1,
      subchunk2Size := c13.1 }, c13.2)

/-- `WAV.read` (lines 52-74).  The result is `*object` after the call, or
the panic of the integer division of line 66.  `numChannels * bitsPerSample`
is a `uint16` product, `8 * subchunk2Size` a `uint32` product.  No error of
a `binary.Read` is looked at, so a short stream is no failure. -/
def read (object : WAV) (r : Reader) : Except Fault WAV :=
  let h := readHeader object r
  let width := (h.1.numChannels * h.1.bitsPerSample) % 2 ^ 16
  if width = 0 then
    Except.error Fault.integerDivideByZero
  else
    let numSamples := ((8 * h.1.subchunk2Size) % 2 ^ 32) / width
    let sampleSize := width / 8
    Except.ok
      { h.1 with
        NumSamples := numSamples,
        SampleSize := sampleSize,
        Duration := DurationValue.quot h.1.subchunk2Size h.1.byteRate,
        data := readFrames sampleSize numSamples h.1.data h.2 }

/-- `binary.Write(w, binary.LittleEndian, v)` for a `uint32`. -/
def putUint32 (v : Nat) : List Byte :=
  [byte v, byte (v / 256), byte (v / 65536), byte (v / 16777216)]

/-- `binary.Write(w, binary.LittleEndian, v)` for a `uint16`. -/
def putUint16 (v : Nat) : List Byte :=
  [byte v, byte (v / 256)]

/-- The frame loop of `write` (lines 97-99): every frame's bytes in order. -/
def writeFrames : List Frame → List Byte
  | [] => []
  | f :: fs => f ++ writeFrames fs

/-- `WAV.write` (lines 83-100): the bytes handed to the writer, in order. -/
def write (object : WAV) : List Byte :=
  object.chunkID.bytes ++ putUint32 object.chunkSize ++ object.format.bytes
    ++ object.subchunk1ID.bytes ++ putUint32 object.subchunk1Size
    ++ putUint16 object.audioFormat ++ putUint16 object.numChannels
    ++ putUint32 object.sampleRate ++ putUint32 object.byteRate
    ++ putUint16 object.blockAlign ++ putUint16 object.bitsPerSample
    ++ object.subchunk2ID.bytes ++ putUint32 object.subchunk2Size
    ++ writeFrames object.data

/-- `binary.LittleEndian.Uint16(b)`: the first two bytes, little-endian; it
panics on a slice shorter than two bytes. -/
def Uint16 : List Byte → Except Fault Nat
  | a :: b :: _ => Except.ok (a.val + 256 * b.val)
  | _ => Except.error Fault.indexOutOfRange

/-- `binary.LittleEndian.PutUint16(b, v)`: overwrites the first two bytes of
`b`; it panics on a slice shorter than two bytes. -/
def PutUint16 (b : List Byte) (v : Nat) : Except Fault (List Byte) :=
  match b with
  | _ :: _ :: rest => Except.ok (byte v :: byte (v / 256) :: rest)
  | _ => Except.error Fault.indexOutOfRange

/-- The conversion `int16(v)` of a `uint16`, as an integer (so also
`int32(int16(v))`): the two's-complement reading of the low 16 bits. -/
def int16 (v : Nat) : Int :=
  if v % 2 ^ 16 < 2 ^ 15 then ((v % 2 ^ 16 : Nat) : Int) else ((v % 2 ^ 16 : Nat) : Int) - 2 ^ 16

/-- The conversion `uint16(x)` of a signed integer: its low 16 bits. -/
def uint16 (x : Int) : Nat := (x % 2 ^ 16).toNat

/-- The indexing `a[i]` of a slice: a panic when `i` is out of range. -/
def index {α : Type} (a : List α) (i : Nat) : Except Fault α :=
  match a[i]? with
  | some x => Except.ok x
  | none => Except.error Fault.indexOutOfRange

/-- Lines 149-153 of `mix`: the clamp of the accumulator. -/
def clip (x : Int) : Int :=
  if x > 32767 then 32767 else if x < -32768 then -32768 else x

/-- One pass of the loop of `mix` (lines 142-155) at index `i`.  `arr` is
the backing array that `object.data` and `longerTrack.data` share after
`*object = *longerTrack`; `sampleSize` is `object.SampleSize`. -/
def mixStep (sampleSize shorterNum : Nat) (shorterData : List Frame) (i : Nat)
    (arr : List Frame) : Except Fault (List Frame) :=
  let signal : Frame := List.replicate sampleSize 0
  match index arr i with
  | Except.error e => Except.error e
  | Except.ok fl =>
    match Uint16 fl with
    | Except.error e => Except.error e
    | Except.ok vl =>
      let acc : Except Fault Int :=
        if i < shorterNum then
          match index shorterData i with
          | Except.error e => Except.error e
          | Except.ok fs =>
            match Uint16 fs with
            | Except.error e => Except.error e
            | Except.ok vs => Except.ok (int16 vl + int16 vs)
        else Except.ok (int16 vl)
      match acc with
      | Except.error e => Except.error e
      | Except.ok x =>
        match PutUint16 signal (uint16 (clip x)) with
        | Except.error e => Except.error e
        | Except.ok signal => Except.ok (arr.set i signal)

/-- The loop of `mix` (lines 141-156) with `n` passes left, at index `i`. -/
def mixLoop (sampleSize shorterNum : Nat) (shorterData : List Frame) :
    Nat → Nat → List Frame → Except Fault (List Frame)
  | 0, _, arr => Except.ok arr
  | n + 1, i, arr =>
    match mixStep sampleSize shorterNum shorterData i arr with
    | Except.error e => Except.error e
    | Except.ok arr => mixLoop sampleSize shorterNum shorterData n (i + 1) arr

/-- The three structs `mix` can touch, after the call. -/
structure MixState where
  object : WAV
  t1 : WAV
  t2 : WAV
  deriving DecidableEq, Repr

/-- `WAV.mix` (lines 131-157), for three distinct structs whose `data`
slices share no backing array before the call.  The struct assignment
`*object = *longerTrack` copies the slice header of `longerTrack.data`, not
the frames it points to: from then on `object.data` and `longerTrack.data`
are one backing array, and every store `object.data[i] = signal` is a store
into `longerTrack.data[i]` as well.  The old value of `*object` is
overwritten unread. -/
def mix (object t1 t2 : WAV) : Except Fault MixState :=
  if t1.NumSamples ≥ t2.NumSamples then
    match mixLoop t1.SampleSize t2.NumSamples t2.data t1.NumSamples 0 t1.data with
    | Except.error e => Except.error e
    | Except.ok arr =>
      Except.ok { object := { t1 with data := arr }, t1 := { t1 with data := arr }, t2 := t2 }
  else
    match mixLoop t2.SampleSize t1.NumSamples t1.data t2.NumSamples 0 t2.data with
    | Except.error e => Except.error e
    | Except.ok arr =>
      Except.ok { object := { t2 with data := arr }, t1 := t1, t2 := { t2 with data := arr } }

/-- The `float64` operations `normalize` and `compress` use.  Each is
total: IEEE-754 arithmetic yields an infinity or a NaN where the real
operation has no value, and the conversion to `uint16` yields some value for
every operand. -/
structure Float64Ops (F : Type) where
  /-- The conversion `float64(n)` of an integer. -/
  ofInt : Int → F
  /-- The sum `x + y`. -/
  add : F → F → F
  /-- The difference `x - y`. -/
  sub : F → F → F
  /-- The negation `-x`. -/
  neg : F → F
  /-- The comparison `x <= y`. -/
  le : F → F → Bool
  /-- The comparison `x != y`. -/
  ne : F → F → Bool
  /-- The product `x * y`. -/
  mul : F → F → F
  /-- The quotient `x / y`. -/
  div : F → F → F
  /-- The call `math.Pow(x, y)`. -/
  pow : F → F → F
  /-- The call `math.Abs(x)`. -/
  abs : F → F
  /-- The comparison `x < y`. -/
  lt : F → F → Bool
  /-- The conversion `uint16(x)`. -/
  toUint16 : F → Nat

/-- The first loop of `normalize` (lines 162-167) with `n` passes left, at
index `i`: the running maximum of the absolute samples. -/
def peakLoop {F : Type} (ops : Float64Ops F) (data : List Frame) : Nat → Nat → F → Except Fault F
  | 0, _, peak => Except.ok peak
  | n + 1, i, peak =>
    match index data i with
    | Except.error e => Except.error e
    | Except.ok f =>
      match Uint16 f with
      | Except.error e => Except.error e
      | Except.ok v =>
        let x := ops.abs (ops.ofInt (int16 v))
        peakLoop ops data n (i + 1) (if ops.lt peak x then x else peak)

/-- The second loop of `normalize` (lines 169-175) with `n` passes left, at
index `i`: every frame is replaced by a fresh frame holding the scaled sample. -/
def scaleLoop {F : Type} (ops : Float64Ops F) (sampleSize : Nat) (normNum : F) :
    Nat → Nat → List Frame → Except Fault (List Frame)
  | 0, _, arr => Except.ok arr
  | n + 1, i, arr =>
    let signal : Frame := List.replicate sampleSize 0
    match index arr i with
    | Except.error e => Except.error e
    | Except.ok f =>
      match Uint16 f with
      | Except.error e => Except.error e
      | Except.ok v =>
        let x := ops.mul (ops.ofInt (int16 v)) normNum
        match PutUint16 signal (ops.toUint16 x % 2 ^ 16) with
        | Except.error e => Except.error e
        | Except.ok signal => scaleLoop ops sampleSize normNum n (i + 1) (arr.set i signal)

/-- `WAV.normalize` (lines 159-176): `*object` after the call, or the panic
of an indexing.  `object.bitsPerSample-1` is a `uint16` difference.  The
division `base / peak` is a `float64` division: it raises nothing. -/
def normalize {F : Type} (ops : Float64Ops F) (object : WAV) (desiredPeak : F) :
    Except Fault WAV :=
  let base := ops.mul
    (ops.pow (ops.ofInt 2) (ops.ofInt (((object.bitsPerSample + (2 ^ 16 - 1)) % 2 ^ 16 : Nat) : Int)))
    (ops.pow (ops.ofInt 10) (ops.div desiredPeak (ops.ofInt 20)))
  match peakLoop ops object.data object.NumSamples 0 (ops.ofInt 0) with
  | Except.error e => Except.error e
  | Except.ok peak =>
    let normNum := ops.div base peak
    match scaleLoop ops object.SampleSize normNum object.NumSamples 0 object.data with
    | Except.error e => Except.error e
    | Except.ok arr => Except.ok { object with data := arr }

/-- Lines 185-189 of `compress`: the magnitude of the sample `x`, taken
with `math.Abs` when the sample compares below zero. -/
def magnitude {F : Type} (ops : Float64Ops F) (x : Int) : F :=
  if ops.lt (ops.ofInt x) (ops.ofInt 0) then ops.abs (ops.ofInt x) else ops.ofInt x

/-- Lines 214-219 of `compress`: the soft-knee curve applied to the
magnitude `x`.  `-W/2` is `(-W)/2`, `x-T+W/2` is `(x-T)+(W/2)` and
`1/float64(R)-1` is `(1/float64(R))-1`, as Go groups them. -/
def smoothPeak {F : Type} (ops : Float64Ops F) (T W : F) (R : Int) (x : F) : F :=
  if ops.lt (ops.sub x T) (ops.div (ops.neg W) (ops.ofInt 2)) then x
  else if ops.le (ops.abs (ops.sub x T)) (ops.div W (ops.ofInt 2)) then
    ops.add x
      (ops.div
        (ops.mul (ops.sub (ops.div (ops.ofInt 1) (ops.ofInt R)) (ops.ofInt 1))
          (ops.pow (ops.add (ops.sub x T) (ops.div W (ops.ofInt 2))) (ops.ofInt 2)))
        (ops.mul W (ops.ofInt 2)))
  else if ops.lt (ops.div W (ops.ofInt 2)) (ops.sub x T) then
    ops.add T (ops.div (ops.sub x T) (ops.ofInt R))
  else x

/-- Lines 183-224 of `compress` for one sample `x`: the `float64` handed to
`uint16(x)`, the compressed magnitude times -1 when the sample compared
below zero. -/
def compressSample {F : Type} (ops : Float64Ops F) (T W : F) (R : Int) (x : Int) : F :=
  if ops.lt (ops.ofInt x) (ops.ofInt 0)
  then ops.mul (smoothPeak ops T W R (magnitude ops x)) (ops.ofInt (-1))
  else smoothPeak ops T W R (magnitude ops x)

/-- The loop of `compress` (lines 182-226) with `n` passes left, at index
`i`: every frame is replaced by a fresh frame holding the compressed sample. -/
def compressLoop {F : Type} (ops : Float64Ops F) (sampleSize : Nat) (T W : F) (R : Int) :
    Nat → Nat → List Frame → Except Fault (List Frame)
  | 0, _, arr => Except.ok arr
  | n + 1, i, arr =>
    let signal : Frame := List.replicate sampleSize 0
    match index arr i with
    | Except.error e => Except.error e
    | Except.ok f =>
      match Uint16 f with
      | Except.error e => Except.error e
      | Except.ok v =>
        match PutUint16 signal (ops.toUint16 (compressSample ops T W R (int16 v)) % 2 ^ 16) with
        | Except.error e => Except.error e
        | Except.ok signal => compressLoop ops sampleSize T W R n (i + 1) (arr.set i signal)

/-- `WAV.compress` (lines 178-231): `*object` after the call, or the panic
of an indexing.  `R` is a Go `int`; with `makeup != 1.0` the call ends in
`object.normalize(makeup)`.  The `Printf` of line 228 is left out. -/
def compress {F : Type} (ops : Float64Ops F) (object : WAV) (thresh : F) (R : Int)
    (makeup kneeWidth : F) : Except Fault WAV :=
  let T := ops.mul
    (ops.pow (ops.ofInt 2) (ops.ofInt (((object.bitsPerSample + (2 ^ 16 - 1)) % 2 ^ 16 : Nat) : Int)))
    (ops.pow (ops.ofInt 10) (ops.div thresh (ops.ofInt 20)))
  let W := ops.mul
    (ops.pow (ops.ofInt 2) (ops.ofInt (((object.bitsPerSample + (2 ^ 16 - 1)) % 2 ^ 16 : Nat) : Int)))
    (ops.pow (ops.ofInt 10) (ops.div kneeWidth (ops.ofInt 20)))
  match compressLoop ops object.SampleSize T W R object.NumSamples 0 object.data with
  | Except.error e => Except.error e
  | Except.ok arr =>
    if ops.ne makeup (ops.ofInt 1) then normalize ops { object with data := arr } makeup
    else Except.ok { object with data := arr }

/-- One conversion `uint16(x)` of a `float64`; Go leaves the result open
when `x` is not an integer of the `uint16` range.  Here, as in the amd64 code
of the gc compiler: a truncating conversion to `int32`, of which the low 16
bits are kept, and 0 for a NaN or a value outside the `int32` range. -/
def float64ToUint16 (x : Float) : Nat :=
  if x.isNaN || x.abs ≥ 2147483648 then 0
  else if x < 0 then (2 ^ 16 - (Float.toUInt32 (-x)).toNat % 2 ^ 16) % 2 ^ 16
  else (Float.toUInt32 x).toNat % 2 ^ 16

/-- The `float64` operations on the binary64 numbers of the host. -/
def float64 : Float64Ops Float :=
  { ofInt := Float.ofInt
    add := fun x y => x + y
    sub := fun x y => x - y
    neg := fun x => -x
    le := fun x y => decide (x ≤ y)
    ne := fun x y => x != y
    mul := fun x y => x * y
    div := fun x y => x / y
    pow := Float.pow
    abs := Float.abs
    lt := fun x y => decide (x < y)
    toUint16 := float64ToUint16 }

/-- The integer part of a rational, toward zero. -/
def truncQ (a : ℚ) : Int := if 0 ≤ a then ⌊a⌋ else -⌊-a⌋

/-- The low 16 bits of an integer, as the `uint16` they are. -/
def low16 (t : Int) : Nat := (t % 2 ^ 16).toNat

/-- Exact rational arithmetic behind the `float64` operations: no result is
rounded, so it is what `float64` arithmetic yields as long as every result is
a binary64 number.  `none` stands for every value that is no finite number
(an infinity, a NaN).  `math.Pow` is given for an integer exponent only, and
`uint16(x)` is the truncation of `x` to an `int32` of which the low 16 bits
are kept, with 0 outside the `int32` range. -/
def exactOps : Float64Ops (Option ℚ) :=
  { ofInt := fun n => some (n : ℚ)
    add := fun x y =>
      match x, y with
      | some a, some b => some (a + b)
      | _, _ => none
    sub := fun x y =>
      match x, y with
      | some a, some b => some (a - b)
      | _, _ => none
    neg := fun x =>
      match x with
      | some a => some (-a)
      | none => none
    le := fun x y =>
      match x, y with
      | some a, some b => decide (a ≤ b)
      | _, _ => false
    ne := fun x y =>
      match x, y with
      | some a, some b => decide (a ≠ b)
      | _, _ => true
    mul := fun x y =>
      match x, y with
      | some a, some b => some (a * b)
      | _, _ => none
    div := fun x y =>
      match x, y with
      | some a, some b => if b = 0 then none else some (a / b)
      | _, _ => none
    pow := fun x y =>
      match x, y with
      | some a, some b =>
        if b.den = 1 then
          if 0 ≤ b.num then some (a ^ b.num.toNat)
          else if a = 0 then none else some (1 / a ^ (-b.num).toNat)
        else none
      | _, _ => none
    abs := fun x =>
      match x with
      | some a => some |a|
      | none => none
    lt := fun x y =>
      match x, y with
      | some a, some b => decide (a < b)
      | _, _ => false
    toUint16 := fun x =>
      match x with
      | some a => if |a| < 2147483648 then low16 (truncQ a) else 0
      | none => 0 }

/-- A finite binary64 number, or a result before it is rounded to one: the
fraction `num / den` of two integers, `den > 0`. -/
structure Frac where
  num : Int
  den : Nat
  deriving DecidableEq, Repr

/-- The binary logarithm of `n`, rounded down (0 for `n < 2`), by halving;
`fuel` bounds the number of halvings. -/
def log2Fuel : Nat → Nat → Nat
  | 0, _ => 0
  | fuel + 1, n => if n < 2 then 0 else 1 + log2Fuel fuel (n / 2)

/-- The binary64 number nearest to a fraction, ties to the even significand,
as IEEE-754 rounds a result; for fractions in the range of the normal
binary64 numbers.  `e` is the binary exponent of the fraction and `m` its
significand of 53 bits after rounding; the result is `± m * 2 ^ (e - 52)`. -/
def Frac.round (a : Frac) : Frac :=
  if a.num = 0 ∨ a.den = 0 then ⟨0, 1⟩
  else
    let n : Nat := a.num.natAbs
    let d : Nat := a.den
    let t : Int := (log2Fuel n n : Int) - (log2Fuel d d : Int)
    let e : Int := if d * 2 ^ t.toNat ≤ n * 2 ^ (-t).toNat then t else t - 1
    let s : Int := 52 - e
    let top : Nat := n * 2 ^ s.toNat
    let bot : Nat := d * 2 ^ (-s).toNat
    let q : Nat := top / bot
    let r : Nat := top % bot
    let m : Nat :=
      if 2 * r < bot then q
      else if bot < 2 * r then q + 1
      else if q % 2 = 0 then q else q + 1
    ⟨(if a.num < 0 then -1 else 1) * ((m * 2 ^ (-s).toNat : Nat) : Int), 2 ^ s.toNat⟩

/-- IEEE-754 binary64 arithmetic on the finite normal numbers: every
operation is the exact operation on fractions followed by `Frac.round`, and
`none` stands for every value that is no finite number.  `math.Pow` is given
for an integer exponent only, as the rounded exact power, which is what Go
returns wherever that power is a binary64 number.  `uint16(x)` is what the gc
compiler makes of it: the truncation of `x` to an `int32` of which the low 16
bits are kept, and 0 outside the `int32` range. -/
def ieeeOps : Float64Ops (Option Frac) :=
  { ofInt := fun n => some (Frac.round ⟨n, 1⟩)
    add := fun x y =>
      match x, y with
      | some a, some b => some (Frac.round ⟨a.num * b.den + b.num * a.den, a.den * b.den⟩)
      | _, _ => none
    sub := fun x y =>
      match x, y with
      | some a, some b => some (Frac.round ⟨a.num * b.den - b.num * a.den, a.den * b.den⟩)
      | _, _ => none
    neg := fun x =>
      match x with
      | some a => some ⟨-a.num, a.den⟩
      | none => none
    le := fun x y =>
      match x, y with
      | some a, some b => decide (a.num * b.den ≤ b.num * a.den)
      | _, _ => false
    ne := fun x y =>
      match x, y with
      | some a, some b => decide (a.num * b.den ≠ b.num * a.den)
      | _, _ => true
    mul := fun x y =>
      match x, y with
      | some a, some b => some (Frac.round ⟨a.num * b.num, a.den * b.den⟩)
      | _, _ => none
    div := fun x y =>
      match x, y with
      | some a, some b =>
        if b.num = 0 then none
        else some (Frac.round ⟨a.num * b.den * (if b.num < 0 then -1 else 1),
          a.den * b.num.natAbs⟩)
      | _, _ => none
    pow := fun x y =>
      match x, y with
      | some a, some b =>
        if b.num % b.den = 0 then
          if 0 ≤ b.num then
            some (Frac.round ⟨a.num ^ (b.num / b.den).toNat, a.den ^ (b.num / b.den).toNat⟩)
          else if a.num = 0 then none
          else some (Frac.round
            ⟨(if a.num < 0 then -1 else 1) ^ (-(b.num / b.den)).toNat
                * ((a.den ^ (-(b.num / b.den)).toNat : Nat) : Int),
              a.num.natAbs ^ (-(b.num / b.den)).toNat⟩)
        else none
      | _, _ => none
    abs := fun x =>
      match x with
      | some a => some ⟨(a.num.natAbs : Int), a.den⟩
      | none => none
    lt := fun x y =>
      match x, y with
      | some a, some b => decide (a.num * b.den < b.num * a.den)
      | _, _ => false
    toUint16 := fun x =>
      match x with
      | some a =>
        if (Int.tdiv a.num a.den).natAbs < 2147483648 then low16 (Int.tdiv a.num a.den) else 0
      | none => 0 }

deriving instance DecidableEq for Except

/-- The signed 16-bit little-endian sample a frame starts with; a frame of
fewer than two bytes has none. -/
def sampleOf : Frame → Option Int
  | a :: b :: _ => some (int16 (a.val + 256 * b.val))
  | _ => none

/-- The frame one pass of the loop of `mix` stores when no indexing fails
(lines 142-154): a fresh frame of `sampleSize` bytes whose first two bytes
are the clamped sum of the leading sample of `fl` and, when there is one, of
`fs`.  A frame without a leading sample counts as 0 here; the loop itself
panics on it. -/
def mixedFrame (sampleSize : Nat) (fl : Frame) (fs : Option Frame) : Frame :=
  let x : Int := (sampleOf fl).getD 0
    + (match fs with
       | some f => (sampleOf f).getD 0
       | none => 0)
  byte (uint16 (clip x)) :: byte (uint16 (clip x) / 256) :: List.replicate (sampleSize - 2) 0

/-! ### Example inputs -/

/-- The tag made of four ASCII codes. -/
def tagOf (a b c d : Nat) : Tag := ⟨byte a, byte b, byte c, byte d⟩

/-- A canonical PCM header (tags "RIFF", "WAVE", "fmt ", "data") with no
frames and the derived fields unset. -/
def pcmHeader (numChannels sampleRate bitsPerSample dataSize : Nat) : WAV :=
  { NewWAV with
    chunkID := tagOf 0x52 0x49 0x46 0x46, chunkSize := 36 + dataSize,
    format := tagOf 0x57 0x41 0x56 0x45, subchunk1ID := tagOf 0x66 0x6d 0x74 0x20,
    subchunk1Size := 16, audioFormat := 1, numChannels := numChannels,
    sampleRate := sampleRate, byteRate := sampleRate * numChannels * bitsPerSample / 8,
    blockAlign := numChannels * bitsPerSample / 8, bitsPerSample := bitsPerSample,
    subchunk2ID := tagOf 0x64 0x61 0x74 0x61, subchunk2Size := dataSize }

/-- The byte stream of a canonical PCM header followed by `payload`. -/
def pcmStream (numChannels sampleRate bitsPerSample dataSize : Nat) (payload : List Byte) :
    Reader :=
  write (pcmHeader numChannels sampleRate bitsPerSample dataSize) ++ payload

/-- The track with a canonical PCM header, the derived fields of that
header and the given frames. -/
def pcmTrack (numChannels sampleRate bitsPerSample dataSize : Nat) (frames : List Frame) : WAV :=
  { pcmHeader numChannels sampleRate bitsPerSample dataSize with
    data := frames
    NumSamples := 8 * dataSize / (numChannels * bitsPerSample)
    SampleSize := numChannels * bitsPerSample / 8
    Duration := DurationValue.quot dataSize (sampleRate * numChannels * bitsPerSample / 8) }

/-- A 16-bit mono track of five frames, with samples 1, 2, 3, 4, 5. -/
def trackFive : WAV := pcmTrack 1 44100 16 10 [[1, 0], [2, 0], [3, 0], [4, 0], [5, 0]]

/-- A 16-bit mono track of two frames, with samples 10 and 20. -/
def trackTwo : WAV := pcmTrack 1 44100 16 4 [[10, 0], [20, 0]]

/-- The header of `trackFive` over the frames `mix` makes of `trackFive`
and `trackTwo`: the samples 11, 22, 3, 4, 5. -/
def trackFiveTwo : WAV := { trackFive with data := [[11, 0], [22, 0], [3, 0], [4, 0], [5, 0]] }

/-- The track `mix` makes of a frame with sample 30000 and a frame with
sample 10000: one frame with sample 32767. -/
def trackClipped : WAV := pcmTrack 1 44100 16 2 [[0xff, 0x7f]]

/-- The track `mix` produces: `*object` after the call. -/
def mixOutput (object t1 t2 : WAV) : Except Fault WAV :=
  match mix object t1 t2 with
  | Except.ok st => Except.ok st.object
  | Except.error e => Except.error e

/-- A silent 16-bit mono track: two frames, both with sample 0. -/
def silentTrack : WAV := pcmTrack 1 44100 16 4 [[0, 0], [0, 0]]

/-- Line 160 of `normalize`, and lines 179 and 180 of `compress`: the
amplitude `2^(bitsPerSample-1) * 10^(db/20)` of a level in decibels. -/
def amplitude {F : Type} (ops : Float64Ops F) (object : WAV) (db : F) : F :=
  ops.mul
    (ops.pow (ops.ofInt 2) (ops.ofInt (((object.bitsPerSample + (2 ^ 16 - 1)) % 2 ^ 16 : Nat) : Int)))
    (ops.pow (ops.ofInt 10) (ops.div db (ops.ofInt 20)))

/-- The largest absolute value among the leading samples of the frames (0
for no frame): the observed peak of `normalize`. -/
def peakOf : List Frame → Int
  | [] => 0
  | f :: fs => max |(sampleOf f).getD 0| (peakOf fs)

/-- The frame `PutUint16` makes of a fresh frame of `sampleSize` bytes and
the `uint16` value `v`. -/
def storedFrame (sampleSize v : Nat) : Frame :=
  byte v :: byte (v / 256) :: List.replicate (sampleSize - 2) 0

/-- What IEEE-754 and the gc compiler guarantee of the `float64`
operations, as far as the proofs below use it.  `val x = some a` says that
`x` is the finite binary64 number with the rational value `a`.
* Integers up to `2^53` convert exactly; `math.Abs`, the comparisons and the
  product with -1 are exact.
* A product or quotient whose exact value is an integer up to `2^53` is that
  integer; any other product or quotient of the normal range is rounded with
  a relative error of at most `2^-53`.
* `math.Pow(2, n)` is the exact power, and `math.Pow(x, 0)` is 1.
* `uint16(x)` truncates `x` toward zero and keeps the low 16 bits, for
  `|x| < 2^31`.

Binary64 arithmetic (`ieeeOps`) and exact rational arithmetic (`exactOps`)
both obey these laws. -/
structure Float64Laws {F : Type} (ops : Float64Ops F) (val : F → Option ℚ) : Prop where
  ofInt_val : ∀ n : Int, |n| ≤ 2 ^ 53 → val (ops.ofInt n) = some (n : ℚ)
  abs_val : ∀ x a, val x = some a → val (ops.abs x) = some |a|
  lt_iff : ∀ x y a b, val x = some a → val y = some b → (ops.lt x y = true ↔ a < b)
  ne_iff : ∀ x y a b, val x = some a → val y = some b → (ops.ne x y = true ↔ a ≠ b)
  mul_neg_one : ∀ x a, val x = some a → val (ops.mul x (ops.ofInt (-1))) = some (-a)
  mul_exact : ∀ x y a b (n : Int), val x = some a → val y = some b → a * b = (n : ℚ) →
    |n| ≤ 2 ^ 53 → val (ops.mul x y) = some (n : ℚ)
  div_exact : ∀ x y a b (n : Int), val x = some a → val y = some b → b ≠ 0 → a / b = (n : ℚ) →
    |n| ≤ 2 ^ 53 → val (ops.div x y) = some (n : ℚ)
  mul_round : ∀ x y a b, val x = some a → val y = some b → 1 / 2 ^ 1000 ≤ |a * b| →
    |a * b| ≤ 2 ^ 1000 → ∃ c, val (ops.mul x y) = some c ∧ |c - a * b| ≤ |a * b| / 2 ^ 53
  div_round : ∀ x y a b, val x = some a → val y = some b → b ≠ 0 → 1 / 2 ^ 1000 ≤ |a / b| →
    |a / b| ≤ 2 ^ 1000 → ∃ c, val (ops.div x y) = some c ∧ |c - a / b| ≤ |a / b| / 2 ^ 53
  pow_two : ∀ n : Nat, n ≤ 1000 →
    val (ops.pow (ops.ofInt 2) (ops.ofInt (n : Int))) = some ((2 : ℚ) ^ n)
  pow_zero : ∀ x y a, val x = some a → val y = some 0 → val (ops.pow x y) = some 1
  toUint16_val : ∀ x a, val x = some a → |a| < 2 ^ 31 →
    ops.toUint16 x % 2 ^ 16 = low16 (truncQ a)

/-- The rational value of a fraction. -/
def Frac.val (a : Frac) : ℚ := (a.num : ℚ) / (a.den : ℚ)

/-- The rational value of a number of `ieeeOps` that is a binary64 number: a
fraction that rounding leaves at its value. -/
def ieeeVal : Option Frac → Option ℚ
  | some a => if a.den ≠ 0 ∧ (Frac.round a).val = a.val then some a.val else none
  | none => none

/-- What IEEE-754 and the Go library guarantee of the operations of the soft
knee (lines 214-219), beyond `Float64Laws`.  No result here overflows: the
operands are bounded by `2^200`, a divisor is at least `2^-200`.
* `float64(n)` of a 64-bit integer is rounded with a relative error of at
  most `2^-53`; the negation and the comparison `<=` are exact, and so is a
  product with 2.
* A sum or a difference is rounded with a relative error of at most `2^-53`
  (a sum in the subnormal range is exact).
* A product, a quotient and `math.Pow(x, 2)` are rounded with a relative
  error of at most `2^-53`, or, where the result underflows, with an absolute
  error of at most `2^-1074`, which is below the `2^-200` allowed here.

Binary64 arithmetic (`ieeeOps`) and exact rational arithmetic (`exactOps`)
both obey these laws. -/
structure Float64KneeLaws {F : Type} (ops : Float64Ops F) (val : F → Option ℚ) : Prop where
  base : Float64Laws ops val
  ofInt_round : ∀ n : Int, |n| ≤ 2 ^ 63 →
    ∃ c, val (ops.ofInt n) = some c ∧ |c - (n : ℚ)| ≤ |(n : ℚ)| / 2 ^ 53
  neg_val : ∀ x a, val x = some a → val (ops.neg x) = some (-a)
  le_iff : ∀ x y a b, val x = some a → val y = some b → (ops.le x y = true ↔ a ≤ b)
  mul_two : ∀ x a, val x = some a → |a| ≤ 2 ^ 200 →
    val (ops.mul x (ops.ofInt 2)) = some (a * 2)
  add_round : ∀ x y a b, val x = some a → val y = some b → |a| ≤ 2 ^ 200 → |b| ≤ 2 ^ 200 →
    ∃ c, val (ops.add x y) = some c ∧ |c - (a + b)| ≤ |a + b| / 2 ^ 53
  sub_round : ∀ x y a b, val x = some a → val y = some b → |a| ≤ 2 ^ 200 → |b| ≤ 2 ^ 200 →
    ∃ c, val (ops.sub x y) = some c ∧ |c - (a - b)| ≤ |a - b| / 2 ^ 53
  mul_under : ∀ x y a b, val x = some a → val y = some b → |a| ≤ 2 ^ 200 → |b| ≤ 2 ^ 200 →
    ∃ c, val (ops.mul x y) = some c ∧ |c - a * b| ≤ |a * b| / 2 ^ 53 + 1 / 2 ^ 200
  div_under : ∀ x y a b, val x = some a → val y = some b → |a| ≤ 2 ^ 200 →
    1 / 2 ^ 200 ≤ |b| →
    ∃ c, val (ops.div x y) = some c ∧ |c - a / b| ≤ |a / b| / 2 ^ 53 + 1 / 2 ^ 200
  sq_under : ∀ x a, val x = some a → |a| ≤ 2 ^ 200 →
    ∃ c, val (ops.pow x (ops.ofInt 2)) = some c ∧ |c - a ^ 2| ≤ a ^ 2 / 2 ^ 53 + 1 / 2 ^ 200

/-- What `read` establishes of the track it returns: every header field is
in the range of its Go type, the product `numChannels * bitsPerSample` is
not zero as a `uint16`, the derived fields are those of lines 66-68, and
`data` holds `NumSamples` frames of `SampleSize` bytes. -/
structure Decoded (t : WAV) : Prop where
  chunkSize_lt : t.chunkSize < 2 ^ 32
  subchunk1Size_lt : t.subchunk1Size < 2 ^ 32
  audioFormat_lt : t.audioFormat < 2 ^ 16
  numChannels_lt : t.numChannels < 2 ^ 16
  sampleRate_lt : t.sampleRate < 2 ^ 32
  byteRate_lt : t.byteRate < 2 ^ 32
  blockAlign_lt : t.blockAlign < 2 ^ 16
  bitsPerSample_lt : t.bitsPerSample < 2 ^ 16
  subchunk2Size_lt : t.subchunk2Size < 2 ^ 32
  width_ne : (t.numChannels * t.bitsPerSample) % 2 ^ 16 ≠ 0
  numSamples_eq : t.NumSamples
    = ((8 * t.subchunk2Size) % 2 ^ 32) / ((t.numChannels * t.bitsPerSample) % 2 ^ 16)
  sampleSize_eq : t.SampleSize = ((t.numChannels * t.bitsPerSample) % 2 ^ 16) / 8
  duration_eq : t.Duration = DurationValue.quot t.subchunk2Size t.byteRate
  data_length : t.data.length = t.NumSamples
  frame_length : ∀ f ∈ t.data, f.length = t.SampleSize

/-- The thirteen header fields of two tracks are equal. -/
def SameHeader (a b : WAV) : Prop :=
  a.chunkID = b.chunkID ∧ a.chunkSize = b.chunkSize ∧ a.format = b.format
    ∧ a.subchunk1ID = b.subchunk1ID ∧ a.subchunk1Size = b.subchunk1Size
    ∧ a.audioFormat = b.audioFormat ∧ a.numChannels = b.numChannels
    ∧ a.sampleRate = b.sampleRate ∧ a.byteRate = b.byteRate
    ∧ a.blockAlign = b.blockAlign ∧ a.bitsPerSample = b.bitsPerSample
    ∧ a.subchunk2ID = b.subchunk2ID ∧ a.subchunk2Size = b.subchunk2Size

/-! ## The container: `read` and `write` -/

@[simp] theorem byte_val (n : Nat) : (byte n).val = n % 256 := rfl

theorem readUint32_lt (old : Nat) (r : Reader) (h : old < 2 ^ 32) :
    (readUint32 old r).1 < 2 ^ 32 := by
  unfold readUint32
  split
  · rename_i a b c d _
    have ha := a.isLt
    have hb := b.isLt
    have hc := c.isLt
    have hd := d.isLt
    simp only
    omega
  · exact h

theorem readUint16_lt (old : Nat) (r : Reader) (h : old < 2 ^ 16) :
    (readUint16 old r).1 < 2 ^ 16 := by
  unfold readUint16
  split
  · rename_i a b _
    have ha := a.isLt
    have hb := b.isLt
    simp only
    omega
  · exact h

theorem readTag_bytes (old : Tag) (t : Tag) (r : Reader) :
    readTag old (t.bytes ++ r) = (t, r) := by
  simp [readTag, Tag.bytes]

theorem readUint32_put (old v : Nat) (r : Reader) (h : v < 2 ^ 32) :
    readUint32 old (putUint32 v ++ r) = (v, r) := by
  simp only [readUint32, putUint32, List.cons_append, List.nil_append, byte_val, Prod.mk.injEq,
    and_true]
  omega

theorem readUint16_put (old v : Nat) (r : Reader) (h : v < 2 ^ 16) :
    readUint16 old (putUint16 v ++ r) = (v, r) := by
  simp only [readUint16, putUint16, List.cons_append, List.nil_append, byte_val, Prod.mk.injEq,
    and_true]
  omega

theorem readFrame_length (n : Nat) (r : Reader) : (readFrame n r).1.length = n := by
  unfold readFrame
  split
  · simpa using ‹n ≤ r.length›
  · simp

theorem readFrame_append (f : Frame) (r : Reader) :
    readFrame f.length (f ++ r) = (f, r) := by
  simp [readFrame]

theorem readFrames_acc (ss : Nat) (n : Nat) (data : List Frame) (r : Reader) :
    readFrames ss n data r = data ++ readFrames ss n [] r := by
  induction n generalizing data r with
  | zero => simp [readFrames]
  | succ n ih =>
    simp only [readFrames, List.nil_append]
    rw [ih (data ++ [(readFrame ss r).1]), ih [(readFrame ss r).1]]
    simp

theorem readFrames_succ (ss n : Nat) (r : Reader) :
    readFrames ss (n + 1) [] r = (readFrame ss r).1 :: readFrames ss n [] (readFrame ss r).2 := by
  simp only [readFrames, List.nil_append]
  rw [readFrames_acc]
  simp

theorem readFrames_length (ss n : Nat) (r : Reader) : (readFrames ss n [] r).length = n := by
  induction n generalizing r with
  | zero => simp [readFrames]
  | succ n ih => rw [readFrames_succ]; simp [ih]

theorem readFrames_frame_length (ss n : Nat) (r : Reader) :
    ∀ f ∈ readFrames ss n [] r, f.length = ss := by
  induction n generalizing r with
  | zero => simp [readFrames]
  | succ n ih =>
    rw [readFrames_succ]
    intro f hf
    rcases List.mem_cons.mp hf with h | h
    · rw [h]; exact readFrame_length ss r
    · exact ih _ f h

theorem readFrames_writeFrames (ss : Nat) (fs : List Frame) (hfs : ∀ f ∈ fs, f.length = ss) :
    readFrames ss fs.length [] (writeFrames fs) = fs := by
  induction fs with
  | nil => simp [readFrames]
  | cons f fs ih =>
    have hf : f.length = ss := hfs f (List.mem_cons_self f fs)
    have hrest : ∀ g ∈ fs, g.length = ss := fun g hg => hfs g (List.mem_cons_of_mem f hg)
    simp only [List.length_cons, writeFrames]
    rw [readFrames_succ, ← hf, readFrame_append]
    simp only
    rw [hf, ih hrest]

theorem readHeader_write (object t : WAV) (ht : Decoded t) :
    readHeader object (write t) =
      ({ object with
          chunkID := t.chunkID, chunkSize := t.chunkSize, format := t.format,
          subchunk1ID := t.subchunk1ID, subchunk1Size := t.subchunk1Size,
          audioFormat := t.audioFormat, numChannels := t.numChannels,
          sampleRate := t.sampleRate, byteRate := t.byteRate, blockAlign := t.blockAlign,
          bitsPerSample := t.bitsPerSample, subchunk2ID := t.subchunk2ID,
          subchunk2Size := t.subchunk2Size }, writeFrames t.data) := by
  simp only [readHeader, write, List.append_assoc, readTag_bytes,
    readUint32_put _ _ _ ht.chunkSize_lt, readUint32_put _ _ _ ht.subchunk1Size_lt,
    readUint16_put _ _ _ ht.audioFormat_lt, readUint16_put _ _ _ ht.numChannels_lt,
    readUint32_put _ _ _ ht.sampleRate_lt, readUint32_put _ _ _ ht.byteRate_lt,
    readUint16_put _ _ _ ht.blockAlign_lt, readUint16_put _ _ _ ht.bitsPerSample_lt,
    readUint32_put _ _ _ ht.subchunk2Size_lt]

theorem readHeader_data (object : WAV) (r : Reader) :
    (readHeader object r).1.data = object.data := rfl

theorem read_decoded (s : Reader) (t : WAV) (h : read NewWAV s = Except.ok t) : Decoded t := by
  unfold read at h
  simp only at h
  split at h
  · exact absurd h (by simp)
  · rename_i hw
    injection h with h
    subst h
    simp only [readHeader, NewWAV] at hw ⊢
    constructor
    · exact readUint32_lt _ _ (by decide)
    · exact readUint32_lt _ _ (by decide)
    · exact readUint16_lt _ _ (by decide)
    · exact readUint16_lt _ _ (by decide)
    · exact readUint32_lt _ _ (by decide)
    · exact readUint32_lt _ _ (by decide)
    · exact readUint16_lt _ _ (by decide)
    · exact readUint16_lt _ _ (by decide)
    · exact readUint32_lt _ _ (by decide)
    · exact hw
    · rfl
    · rfl
    · rfl
    · exact readFrames_length _ _ _
    · exact readFrames_frame_length _ _ _

theorem read_write_of_decoded (t : WAV) (ht : Decoded t) :
    read NewWAV (write t) = Except.ok t := by
  unfold read
  rw [readHeader_write NewWAV t ht]
  simp only [NewWAV]
  rw [if_neg ht.width_ne]
  have hlen : ((8 * t.subchunk2Size) % 2 ^ 32) / ((t.numChannels * t.bitsPerSample) % 2 ^ 16)
      = t.data.length := by rw [ht.data_length, ht.numSamples_eq]
  have hfl : ∀ f ∈ t.data, f.length = ((t.numChannels * t.bitsPerSample) % 2 ^ 16) / 8 := by
    intro f hf
    rw [ht.frame_length f hf, ht.sampleSize_eq]
  rw [hlen, readFrames_writeFrames _ _ hfl, ht.data_length, ← ht.sampleSize_eq,
    ← ht.duration_eq]

theorem readTag_rest (old : Tag) (r : Reader) (h : 4 ≤ r.length) :
    (readTag old r).2 = r.drop 4 := by
  match r, h with
  | _ :: _ :: _ :: _ :: _, _ => rfl

theorem readUint32_rest (old : Nat) (r : Reader) (h : 4 ≤ r.length) :
    (readUint32 old r).2 = r.drop 4 := by
  match r, h with
  | _ :: _ :: _ :: _ :: _, _ => rfl

theorem readUint16_rest (old : Nat) (r : Reader) (h : 2 ≤ r.length) :
    (readUint16 old r).2 = r.drop 2 := by
  match r, h with
  | _ :: _ :: _, _ => rfl

theorem readHeader_rest (object : WAV) (s : Reader) (hs : 44 ≤ s.length) :
    (readHeader object s).2 = s.drop 44 := by
  have h1 := readTag_rest object.chunkID s (by omega)
  have h2 := readUint32_rest object.chunkSize (s.drop 4) (by rw [List.length_drop]; omega)
  have h3 := readTag_rest object.format (s.drop 8) (by rw [List.length_drop]; omega)
  have h4 := readTag_rest object.subchunk1ID (s.drop 12) (by rw [List.length_drop]; omega)
  have h5 := readUint32_rest object.subchunk1Size (s.drop 16) (by rw [List.length_drop]; omega)
  have h6 := readUint16_rest object.audioFormat (s.drop 20) (by rw [List.length_drop]; omega)
  have h7 := readUint16_rest object.numChannels (s.drop 22) (by rw [List.length_drop]; omega)
  have h8 := readUint32_rest object.sampleRate (s.drop 24) (by rw [List.length_drop]; omega)
  have h9 := readUint32_rest object.byteRate (s.drop 28) (by rw [List.length_drop]; omega)
  have h10 := readUint16_rest object.blockAlign (s.drop 32) (by rw [List.length_drop]; omega)
  have h11 := readUint16_rest object.bitsPerSample (s.drop 34) (by rw [List.length_drop]; omega)
  have h12 := readTag_rest object.subchunk2ID (s.drop 36) (by rw [List.length_drop]; omega)
  have h13 := readUint32_rest object.subchunk2Size (s.drop 40) (by rw [List.length_drop]; omega)
  simp only [List.drop_drop, Nat.reduceAdd] at h2 h3 h4 h5 h6 h7 h8 h9 h10 h11 h12 h13
  simp only [readHeader, h1, h2, h3, h4, h5, h6, h7, h8, h9, h10, h11, h12, h13]

theorem readFrames_getElem (ss n : Nat) (r : Reader) (i : Nat) (hi : i < n) :
    (readFrames ss n [] r)[i]? =
      some (if (i + 1) * ss ≤ r.length then (r.drop (i * ss)).take ss
            else List.replicate ss 0) := by
  induction n generalizing r i with
  | zero => omega
  | succ n ih =>
    rw [readFrames_succ]
    cases i with
    | zero =>
      simp only [List.getElem?_cons_zero, readFrame, Nat.zero_add, Nat.one_mul, Nat.zero_mul,
        List.drop_zero]
      split <;> rfl
    | succ j =>
      rw [List.getElem?_cons_succ, ih _ j (by omega)]
      have hmul : (j + 1 + 1) * ss = (j + 1) * ss + ss := Nat.succ_mul (j + 1) ss
      have hmul2 : (j + 1) * ss = j * ss + ss := Nat.succ_mul j ss
      unfold readFrame
      by_cases hle : ss ≤ r.length
      · simp only [if_pos hle, List.length_drop, List.drop_drop]
        by_cases h2 : (j + 1 + 1) * ss ≤ r.length
        · rw [if_pos h2, if_pos (by omega)]
          rw [hmul2, Nat.add_comm ss (j * ss)]
        · rw [if_neg h2, if_neg (by omega)]
      · have hpos : ss ≤ (j + 1) * ss := Nat.le_mul_of_pos_left ss (Nat.succ_pos j)
        simp only [if_neg hle, List.length_nil]
        rw [if_neg (by omega), if_neg (by omega)]

/-! ## The mixing engine -/

theorem mixStep_ok (ss sn : Nat) (sd : List Frame) (i : Nat) (arr : List Frame) (fl : Frame)
    (hss : 2 ≤ ss) (hfl : arr[i]? = some fl) (hlen : 2 ≤ fl.length)
    (hs : i < sn → ∃ fs, sd[i]? = some fs ∧ 2 ≤ fs.length) :
    mixStep ss sn sd i arr
      = Except.ok (arr.set i (mixedFrame ss fl (if i < sn then sd[i]? else none))) := by
  obtain ⟨k, rfl⟩ : ∃ k, ss = k + 2 := ⟨ss - 2, by omega⟩
  match fl, hlen with
  | a :: b :: rest, _ =>
    by_cases h : i < sn
    · obtain ⟨fs, hfs, hfslen⟩ := hs h
      match fs, hfslen with
      | c :: d :: rest2, _ =>
        simp [mixStep, index, hfl, Uint16, List.replicate_succ, PutUint16, h, hfs, mixedFrame,
          sampleOf]
    · simp [mixStep, index, hfl, Uint16, List.replicate_succ, PutUint16, h, mixedFrame, sampleOf]

theorem mixLoop_ok (ss sn : Nat) (sd : List Frame) (hss : 2 ≤ ss)
    (hsd : ∀ j, j < sn → ∃ f, sd[j]? = some f ∧ 2 ≤ f.length) (n i : Nat) (arr : List Frame)
    (harr : ∀ j, i ≤ j → j < i + n → ∃ f, arr[j]? = some f ∧ 2 ≤ f.length) :
    ∃ out, mixLoop ss sn sd n i arr = Except.ok out ∧ out.length = arr.length
      ∧ ∀ j, out[j]? = if i ≤ j ∧ j < i + n
          then (arr[j]?).map (fun fl => mixedFrame ss fl (if j < sn then sd[j]? else none))
          else arr[j]? := by
  induction n generalizing i arr with
  | zero =>
    refine ⟨arr, rfl, rfl, ?_⟩
    intro j
    rw [if_neg (by omega)]
  | succ n ih =>
    obtain ⟨fl, hfl, hlen⟩ := harr i (Nat.le_refl i) (by omega)
    have hstep := mixStep_ok ss sn sd i arr fl hss hfl hlen (hsd i)
    have hi : i < arr.length := (List.getElem?_eq_some.mp hfl).1
    have harr1 : ∀ j, i + 1 ≤ j → j < i + 1 + n →
        ∃ f, (arr.set i (mixedFrame ss fl (if i < sn then sd[i]? else none)))[j]? = some f
          ∧ 2 ≤ f.length := by
      intro j h1 h2
      rw [List.getElem?_set_ne (by omega)]
      exact harr j (by omega) (by omega)
    obtain ⟨out, hout, hlenout, hget⟩ := ih (i + 1) _ harr1
    refine ⟨out, ?_, ?_, ?_⟩
    · simp only [mixLoop, hstep]
      exact hout
    · rw [hlenout, List.length_set]
    · intro j
      rw [hget j]
      by_cases hji : j = i
      · subst hji
        rw [if_neg (show ¬ (j + 1 ≤ j ∧ j < j + 1 + n) by omega), List.getElem?_set_self hi,
          if_pos (show j ≤ j ∧ j < j + (n + 1) by omega), hfl]
        rfl
      · rw [List.getElem?_set_ne (fun h => hji h.symm)]
        by_cases hr : i ≤ j ∧ j < i + (n + 1)
        · rw [if_pos hr, if_pos (show i + 1 ≤ j ∧ j < i + 1 + n by omega)]
        · rw [if_neg hr, if_neg (show ¬ (i + 1 ≤ j ∧ j < i + 1 + n) by omega)]

theorem mixStep_inv (ss sn : Nat) (sd : List Frame) (i : Nat) (arr out : List Frame)
    (h : mixStep ss sn sd i arr = Except.ok out) :
    ∃ fl, arr[i]? = some fl ∧ 2 ≤ fl.length ∧ 2 ≤ ss
      ∧ (i < sn → ∃ fs, sd[i]? = some fs ∧ 2 ≤ fs.length)
      ∧ out = arr.set i (mixedFrame ss fl (if i < sn then sd[i]? else none)) := by
  cases hfl : arr[i]? with
  | none => simp [mixStep, index, hfl] at h
  | some fl =>
    match fl, hfl with
    | [], hfl => simp [mixStep, index, hfl, Uint16] at h
    | [_], hfl => simp [mixStep, index, hfl, Uint16] at h
    | a :: b :: rest, hfl =>
      match ss, h with
      | 0, h =>
        simp only [mixStep, index, hfl, Uint16, List.replicate_zero, PutUint16] at h
        split at h <;> simp at h
      | 1, h =>
        simp only [mixStep, index, hfl, Uint16, List.replicate_one, PutUint16] at h
        split at h <;> simp at h
      | k + 2, h =>
        refine ⟨a :: b :: rest, rfl, by simp, by omega, ?_, ?_⟩
        · intro hlt
          cases hfs : sd[i]? with
          | none => simp [mixStep, index, hfl, Uint16, hlt, hfs] at h
          | some fs =>
            match fs, hfs with
            | [], hfs => simp [mixStep, index, hfl, Uint16, hlt, hfs] at h
            | [_], hfs => simp [mixStep, index, hfl, Uint16, hlt, hfs] at h
            | c :: d :: rest2, hfs => exact ⟨_, rfl, by simp⟩
        · by_cases hlt : i < sn
          · cases hfs : sd[i]? with
            | none => simp [mixStep, index, hfl, Uint16, hlt, hfs] at h
            | some fs =>
              match fs, hfs with
              | [], hfs => simp [mixStep, index, hfl, Uint16, hlt, hfs] at h
              | [_], hfs => simp [mixStep, index, hfl, Uint16, hlt, hfs] at h
              | c :: d :: rest2, hfs =>
                simp [mixStep, index, hfl, Uint16, hlt, hfs, List.replicate_succ, PutUint16,
                  mixedFrame, sampleOf] at h ⊢
                exact h.symm
          · simp [mixStep, index, hfl, Uint16, hlt, List.replicate_succ, PutUint16,
              mixedFrame, sampleOf] at h ⊢
            exact h.symm

theorem mixLoop_spec (ss sn : Nat) (sd : List Frame) (n i : Nat) (arr out : List Frame)
    (h : mixLoop ss sn sd n i arr = Except.ok out) :
    out.length = arr.length
      ∧ (∀ j, ¬ (i ≤ j ∧ j < i + n) → out[j]? = arr[j]?)
      ∧ ∀ j, i ≤ j → j < i + n → ∃ fl, arr[j]? = some fl ∧ 2 ≤ fl.length ∧ 2 ≤ ss
          ∧ (j < sn → ∃ fs, sd[j]? = some fs ∧ 2 ≤ fs.length)
          ∧ out[j]? = some (mixedFrame ss fl (if j < sn then sd[j]? else none)) := by
  induction n generalizing i arr with
  | zero =>
    simp only [mixLoop, Except.ok.injEq] at h
    subst h
    exact ⟨rfl, fun _ _ => rfl, fun j h1 h2 => absurd h2 (by omega)⟩
  | succ n ih =>
    simp only [mixLoop] at h
    split at h
    · exact absurd h (by simp)
    · rename_i arr1 hstep
      obtain ⟨fl, hfl, hlen, hss, hsh, harr1⟩ := mixStep_inv ss sn sd i arr arr1 hstep
      obtain ⟨hl, hout, hin⟩ := ih (i + 1) arr1 h
      have hi : i < arr.length := (List.getElem?_eq_some.mp hfl).1
      subst harr1
      refine ⟨by rw [hl, List.length_set], ?_, ?_⟩
      · intro j hj
        rw [hout j (by omega), List.getElem?_set_ne (by omega)]
      · intro j h1 h2
        by_cases hji : j = i
        · subst hji
          refine ⟨fl, hfl, hlen, hss, hsh, ?_⟩
          rw [hout j (by omega), List.getElem?_set_self hi]
        · obtain ⟨f, hf, hflen, _, hfsh, hfo⟩ := hin j (by omega) (by omega)
          rw [List.getElem?_set_ne (fun h => hji h.symm)] at hf
          exact ⟨f, hf, hflen, hss, hfsh, hfo⟩

theorem clip_eq (x : Int) : clip x = max (-32768) (min 32767 x) := by
  unfold clip
  split_ifs <;> omega

theorem sampleOf_stored (z : Int) (h1 : -32768 ≤ z) (h2 : z ≤ 32767) (rest : List Byte) :
    sampleOf (byte (uint16 z) :: byte (uint16 z / 256) :: rest) = some z := by
  simp only [sampleOf, byte_val, uint16, int16, Option.some.injEq]
  split_ifs <;> omega

theorem sampleOf_mixedFrame (ss : Nat) (fl : Frame) (fs : Option Frame) :
    sampleOf (mixedFrame ss fl fs) = some (clip ((sampleOf fl).getD 0
      + (match fs with
         | some f => (sampleOf f).getD 0
         | none => 0))) := by
  unfold mixedFrame
  simp only
  apply sampleOf_stored
  · rw [clip_eq]; omega
  · rw [clip_eq]; omega

theorem mixedFrame_comm (ss : Nat) (fa fb : Frame) :
    mixedFrame ss fa (some fb) = mixedFrame ss fb (some fa) := by
  simp only [mixedFrame, Int.add_comm]

theorem stored_bytes (a b : Byte) :
    byte (uint16 (clip (int16 (a.val + 256 * b.val)))) = a
      ∧ byte (uint16 (clip (int16 (a.val + 256 * b.val))) / 256) = b := by
  have ha := a.isLt
  have hb := b.isLt
  constructor
  · apply Fin.ext
    simp only [byte_val, uint16, clip, int16]
    split_ifs <;> omega
  · apply Fin.ext
    simp only [byte_val, uint16, clip, int16]
    split_ifs <;> omega

theorem mixedFrame_none (ss : Nat) (fl : Frame) (h : 2 ≤ fl.length) :
    mixedFrame ss fl none = fl.take 2 ++ List.replicate (ss - 2) 0 := by
  match fl, h with
  | a :: b :: rest, _ =>
    simp only [mixedFrame, sampleOf, Option.getD_some, Int.add_zero, List.take_succ_cons,
      List.take_zero, List.cons_append, List.nil_append]
    rw [(stored_bytes a b).1, (stored_bytes a b).2]

theorem decoded_frame (t : WAV) (ht : Decoded t) (j : Nat) (hj : j < t.NumSamples) :
    ∃ f, t.data[j]? = some f ∧ f.length = t.SampleSize := by
  have hlt : j < t.data.length := by rw [ht.data_length]; exact hj
  refine ⟨t.data[j], List.getElem?_eq_getElem hlt, ?_⟩
  exact ht.frame_length _ (List.getElem_mem hlt)

theorem sampleOf_of_length (f : Frame) (h : 2 ≤ f.length) : ∃ x, sampleOf f = some x := by
  match f, h with
  | a :: b :: rest, _ => exact ⟨_, rfl⟩

theorem mixLoop_tracks_ok (l s : WAV) (hl : Decoded l) (hs : Decoded s)
    (h2l : 2 ≤ l.SampleSize) (h2s : 2 ≤ s.SampleSize) :
    ∃ out, mixLoop l.SampleSize s.NumSamples s.data l.NumSamples 0 l.data = Except.ok out := by
  have hsd : ∀ j, j < s.NumSamples → ∃ f, s.data[j]? = some f ∧ 2 ≤ f.length := by
    intro j hj
    obtain ⟨f, hf, hlen⟩ := decoded_frame s hs j hj
    exact ⟨f, hf, by omega⟩
  have harr : ∀ j, 0 ≤ j → j < 0 + l.NumSamples → ∃ f, l.data[j]? = some f ∧ 2 ≤ f.length := by
    intro j _ hj
    obtain ⟨f, hf, hlen⟩ := decoded_frame l hl j (by omega)
    exact ⟨f, hf, by omega⟩
  obtain ⟨out, hout, _, _⟩ := mixLoop_ok l.SampleSize s.NumSamples s.data h2l hsd l.NumSamples 0
    l.data harr
  exact ⟨out, hout⟩

theorem mix_of_ge (object t1 t2 : WAV) (h : t1.NumSamples ≥ t2.NumSamples) :
    mix object t1 t2 =
      match mixLoop t1.SampleSize t2.NumSamples t2.data t1.NumSamples 0 t1.data with
      | Except.error e => Except.error e
      | Except.ok arr =>
        Except.ok { object := { t1 with data := arr }, t1 := { t1 with data := arr }, t2 := t2 } := by
  unfold mix
  rw [if_pos h]

theorem mix_of_lt (object t1 t2 : WAV) (h : t1.NumSamples < t2.NumSamples) :
    mix object t1 t2 =
      match mixLoop t2.SampleSize t1.NumSamples t1.data t2.NumSamples 0 t2.data with
      | Except.error e => Except.error e
      | Except.ok arr =>
        Except.ok { object := { t2 with data := arr }, t1 := t1, t2 := { t2 with data := arr } } := by
  unfold mix
  rw [if_neg (by omega)]

theorem mix_total (object a b : WAV) (ha : Decoded a) (hb : Decoded b)
    (h2a : 2 ≤ a.SampleSize) (h2b : 2 ≤ b.SampleSize) : ∃ st, mix object a b = Except.ok st := by
  by_cases hge : a.NumSamples ≥ b.NumSamples
  · obtain ⟨out, hout⟩ := mixLoop_tracks_ok a b ha hb h2a h2b
    rw [mix_of_ge object a b hge, hout]
    exact ⟨_, rfl⟩
  · obtain ⟨out, hout⟩ := mixLoop_tracks_ok b a hb ha h2b h2a
    rw [mix_of_lt object a b (by omega), hout]
    exact ⟨_, rfl⟩

/-- What `mix` returns, in terms of the longer track `l` and the shorter
track `s` it chose: the result has the header and derived fields of `l`,
and `l.NumSamples` frames, frame `j` being the frame the loop stores for
frame `j` of `l` and, below `s.NumSamples`, frame `j` of `s`. -/
theorem mix_result (object a b : WAV) (ha : Decoded a) (hb : Decoded b) (st : MixState)
    (h : mix object a b = Except.ok st) :
    ∃ l s, ((a.NumSamples ≥ b.NumSamples ∧ l = a ∧ s = b)
        ∨ (a.NumSamples < b.NumSamples ∧ l = b ∧ s = a))
      ∧ st.object = { l with data := st.object.data }
      ∧ st.object.data.length = l.NumSamples
      ∧ ∀ j, j < l.NumSamples → ∃ fl, l.data[j]? = some fl ∧ 2 ≤ fl.length
          ∧ 2 ≤ l.SampleSize
          ∧ (j < s.NumSamples → ∃ fs, s.data[j]? = some fs ∧ 2 ≤ fs.length)
          ∧ st.object.data[j]?
            = some (mixedFrame l.SampleSize fl (if j < s.NumSamples then s.data[j]? else none)) := by
  by_cases hge : a.NumSamples ≥ b.NumSamples
  · rw [mix_of_ge object a b hge] at h
    split at h
    · exact absurd h (by simp)
    · rename_i out hout
      injection h with h
      subst h
      obtain ⟨hlen, _, hin⟩ := mixLoop_spec _ _ _ _ _ _ _ hout
      refine ⟨a, b, Or.inl ⟨hge, rfl, rfl⟩, rfl, by rw [hlen, ha.data_length], ?_⟩
      intro j hj
      exact hin j (Nat.zero_le j) (by omega)
  · rw [mix_of_lt object a b (by omega)] at h
    split at h
    · exact absurd h (by simp)
    · rename_i out hout
      injection h with h
      subst h
      obtain ⟨hlen, _, hin⟩ := mixLoop_spec _ _ _ _ _ _ _ hout
      refine ⟨b, a, Or.inr ⟨by omega, rfl, rfl⟩, rfl, by rw [hlen, hb.data_length], ?_⟩
      intro j hj
      exact hin j (Nat.zero_le j) (by omega)

theorem sampleSize_of_sixteen (t : WAV) (ht : Decoded t) (h16 : t.bitsPerSample = 16) :
    2 ≤ t.SampleSize := by
  have hw := ht.width_ne
  rw [ht.sampleSize_eq]
  rw [h16] at hw ⊢
  omega

theorem mixStep_error (ss sn : Nat) (sd : List Frame) (i : Nat) (arr : List Frame) (e : Fault)
    (h : mixStep ss sn sd i arr = Except.error e) : e = Fault.indexOutOfRange := by
  cases hfl : arr[i]? with
  | none =>
    simp [mixStep, index, hfl] at h
    exact h.symm
  | some fl =>
    match fl, hfl with
    | [], hfl =>
      simp [mixStep, index, hfl, Uint16] at h
      exact h.symm
    | [_], hfl =>
      simp [mixStep, index, hfl, Uint16] at h
      exact h.symm
    | a :: b :: rest, hfl =>
      by_cases hlt : i < sn
      · cases hfs : sd[i]? with
        | none =>
          simp [mixStep, index, hfl, Uint16, hlt, hfs] at h
          exact h.symm
        | some fs =>
          match fs, hfs with
          | [], hfs =>
            simp [mixStep, index, hfl, Uint16, hlt, hfs] at h
            exact h.symm
          | [_], hfs =>
            simp [mixStep, index, hfl, Uint16, hlt, hfs] at h
            exact h.symm
          | c :: d :: rest2, hfs =>
            match ss, h with
            | 0, h =>
              simp [mixStep, index, hfl, Uint16, hlt, hfs, PutUint16] at h
              exact h.symm
            | 1, h =>
              simp [mixStep, index, hfl, Uint16, hlt, hfs, PutUint16] at h
              exact h.symm
            | k + 2, h =>
              simp [mixStep, index, hfl, Uint16, hlt, hfs, PutUint16, List.replicate_succ] at h
      · match ss, h with
        | 0, h =>
          simp [mixStep, index, hfl, Uint16, hlt, PutUint16] at h
          exact h.symm
        | 1, h =>
          simp [mixStep, index, hfl, Uint16, hlt, PutUint16] at h
          exact h.symm
        | k + 2, h =>
          simp [mixStep, index, hfl, Uint16, hlt, PutUint16, List.replicate_succ] at h

theorem mixLoop_error (ss sn : Nat) (sd : List Frame) (n i : Nat) (arr : List Frame) (e : Fault)
    (h : mixLoop ss sn sd n i arr = Except.error e) : e = Fault.indexOutOfRange := by
  induction n generalizing i arr with
  | zero => simp [mixLoop] at h
  | succ n ih =>
    simp only [mixLoop] at h
    split at h
    · rename_i e1 hstep
      injection h with h
      rw [← h]
      exact mixStep_error _ _ _ _ _ _ hstep
    · exact ih _ _ h

theorem mixLoop_short_frames (ss sn : Nat) (sd : List Frame) (n : Nat) (arr : List Frame)
    (hss : ss < 2) (hn : 0 < n) :
    mixLoop ss sn sd n 0 arr = Except.error Fault.indexOutOfRange := by
  cases h : mixLoop ss sn sd n 0 arr with
  | error e => rw [mixLoop_error _ _ _ _ _ _ _ h]
  | ok out =>
    obtain ⟨_, _, hin⟩ := mixLoop_spec _ _ _ _ _ _ _ h
    obtain ⟨_, _, _, h2, _⟩ := hin 0 (Nat.le_refl 0) (by omega)
    omega

theorem mixLoop_comm (ss n : Nat) (da db : List Frame) (hss : 2 ≤ ss)
    (hla : da.length = n) (hlb : db.length = n)
    (hfa : ∀ f ∈ da, 2 ≤ f.length) (hfb : ∀ f ∈ db, 2 ≤ f.length) :
    mixLoop ss n db n 0 da = mixLoop ss n da n 0 db := by
  have hget : ∀ (d : List Frame), d.length = n → (∀ f ∈ d, 2 ≤ f.length) →
      ∀ j, j < n → ∃ f, d[j]? = some f ∧ 2 ≤ f.length := by
    intro d hd hf j hj
    have hlt : j < d.length := by omega
    exact ⟨d[j], List.getElem?_eq_getElem hlt, hf _ (List.getElem_mem hlt)⟩
  obtain ⟨o1, h1, hl1, hg1⟩ := mixLoop_ok ss n db hss (hget db hlb hfb) n 0 da
    (fun j _ hj => hget da hla hfa j (by omega))
  obtain ⟨o2, h2, hl2, hg2⟩ := mixLoop_ok ss n da hss (hget da hla hfa) n 0 db
    (fun j _ hj => hget db hlb hfb j (by omega))
  rw [h1, h2]
  congr 1
  apply List.ext_getElem?
  intro j
  rw [hg1 j, hg2 j]
  by_cases hj : j < n
  · obtain ⟨fa, hfa1, _⟩ := hget da hla hfa j hj
    obtain ⟨fb, hfb1, _⟩ := hget db hlb hfb j hj
    simp [hj, hfa1, hfb1, mixedFrame_comm ss fa fb]
  · have h1n : da[j]? = none := List.getElem?_eq_none (by omega)
    have h2n : db[j]? = none := List.getElem?_eq_none (by omega)
    simp [hj, h1n, h2n]

theorem eq_of_sameHeader (a b : WAV) (ha : Decoded a) (hb : Decoded b) (h : SameHeader a b)
    (d : List Frame) : ({ a with data := d } : WAV) = { b with data := d } := by
  have hn : a.NumSamples = b.NumSamples := by
    rw [ha.numSamples_eq, hb.numSamples_eq, h.2.2.2.2.2.2.1, h.2.2.2.2.2.2.2.2.2.2.1,
      h.2.2.2.2.2.2.2.2.2.2.2.2]
  have hs : a.SampleSize = b.SampleSize := by
    rw [ha.sampleSize_eq, hb.sampleSize_eq, h.2.2.2.2.2.2.1, h.2.2.2.2.2.2.2.2.2.2.1]
  have hd : a.Duration = b.Duration := by
    rw [ha.duration_eq, hb.duration_eq, h.2.2.2.2.2.2.2.2.1, h.2.2.2.2.2.2.2.2.2.2.2.2]
  obtain ⟨h1, h2, h3, h4, h5, h6, h7, h8, h9, h10, h11, h12, h13⟩ := h
  simp only [WAV.mk.injEq]
  exact ⟨h1, h2, h3, h4, h5, h6, h7, h8, h9, h10, h11, h12, h13, trivial, hn, hs, hd⟩

theorem mixOutput_swap (o1 o2 a b : WAV) (ha : Decoded a) (hb : Decoded b)
    (h : a.NumSamples ≠ b.NumSamples ∨ SameHeader a b) :
    mixOutput o1 a b = mixOutput o2 b a := by
  unfold mixOutput
  by_cases hgt : b.NumSamples < a.NumSamples
  · rw [mix_of_ge o1 a b (by omega), mix_of_lt o2 b a hgt]
    cases mixLoop a.SampleSize b.NumSamples b.data a.NumSamples 0 a.data <;> rfl
  · by_cases hlt : a.NumSamples < b.NumSamples
    · rw [mix_of_lt o1 a b hlt, mix_of_ge o2 b a (by omega)]
      cases mixLoop b.SampleSize a.NumSamples a.data b.NumSamples 0 b.data <;> rfl
    · have hn : a.NumSamples = b.NumSamples := by omega
      have hsame : SameHeader a b := by
        rcases h with h | h
        · exact absurd hn h
        · exact h
      have hss : a.SampleSize = b.SampleSize := by
        rw [ha.sampleSize_eq, hb.sampleSize_eq, hsame.2.2.2.2.2.2.1,
          hsame.2.2.2.2.2.2.2.2.2.2.1]
      have hloop : mixLoop b.SampleSize a.NumSamples a.data b.NumSamples 0 b.data
          = mixLoop a.SampleSize b.NumSamples b.data a.NumSamples 0 a.data := by
        rw [← hss, ← hn]
        by_cases h2 : 2 ≤ a.SampleSize
        · exact (mixLoop_comm a.SampleSize a.NumSamples a.data b.data h2 ha.data_length
            (by rw [hb.data_length, hn])
            (fun f hf => by rw [ha.frame_length f hf]; exact h2)
            (fun f hf => by rw [hb.frame_length f hf, ← hss]; exact h2)).symm
        · by_cases h0 : 0 < a.NumSamples
          · rw [mixLoop_short_frames _ _ _ _ _ (by omega) h0,
              mixLoop_short_frames _ _ _ _ _ (by omega) h0]
          · have hz : a.NumSamples = 0 := by omega
            have hda : a.data = [] := List.length_eq_zero.mp (by rw [ha.data_length, hz])
            have hdb : b.data = [] := List.length_eq_zero.mp (by rw [hb.data_length, ← hn, hz])
            rw [hz, hda, hdb]
      rw [mix_of_ge o1 a b (by omega), mix_of_ge o2 b a (by omega), hloop]
      cases mixLoop a.SampleSize b.NumSamples b.data a.NumSamples 0 a.data with
      | error e => rfl
      | ok out =>
        simp only [Except.ok.injEq]
        exact eq_of_sameHeader a b ha hb hsame out

/-! ## The normalizer -/

theorem peakLoop_ok {F : Type} (ops : Float64Ops F) (data : List Frame) (n i : Nat) (peak : F)
    (h : ∀ j, i ≤ j → j < i + n → ∃ f, data[j]? = some f ∧ 2 ≤ f.length) :
    ∃ p, peakLoop ops data n i peak = Except.ok p := by
  induction n generalizing i peak with
  | zero => exact ⟨peak, rfl⟩
  | succ n ih =>
    obtain ⟨f, hf, hlen⟩ := h i (Nat.le_refl i) (by omega)
    match f, hlen with
    | a :: b :: rest, _ =>
      simp only [peakLoop, index, hf, Uint16]
      exact ih (i + 1) _ (fun j h1 h2 => h j (by omega) (by omega))

theorem sampleOf_zero (f : Frame) (h : sampleOf f = some 0) :
    ∃ a b rest, f = a :: b :: rest ∧ int16 (a.val + 256 * b.val) = 0 := by
  match f, h with
  | a :: b :: rest, h =>
    simp only [sampleOf, Option.some.injEq] at h
    exact ⟨a, b, rest, rfl, h⟩

theorem scaleLoop_silent {F : Type} (ops : Float64Ops F) (ss : Nat) (normNum : F)
    (hss : 2 ≤ ss) (n i : Nat) (arr : List Frame)
    (harr : ∀ j, i ≤ j → j < i + n → ∃ f, arr[j]? = some f ∧ sampleOf f = some 0) :
    ∃ out, scaleLoop ops ss normNum n i arr = Except.ok out ∧ out.length = arr.length
      ∧ ∀ j, out[j]? = if i ≤ j ∧ j < i + n
          then some (byte (ops.toUint16 (ops.mul (ops.ofInt 0) normNum) % 2 ^ 16)
            :: byte (ops.toUint16 (ops.mul (ops.ofInt 0) normNum) % 2 ^ 16 / 256)
            :: List.replicate (ss - 2) 0)
          else arr[j]? := by
  induction n generalizing i arr with
  | zero =>
    refine ⟨arr, rfl, rfl, ?_⟩
    intro j
    rw [if_neg (by omega)]
  | succ n ih =>
    obtain ⟨f, hf, hzero⟩ := harr i (Nat.le_refl i) (by omega)
    obtain ⟨a, b, rest, rfl, hint⟩ := sampleOf_zero f hzero
    obtain ⟨k, rfl⟩ : ∃ k, ss = k + 2 := ⟨ss - 2, by omega⟩
    have hi : i < arr.length := (List.getElem?_eq_some.mp hf).1
    have harr1 : ∀ j, i + 1 ≤ j → j < i + 1 + n →
        ∃ f, (arr.set i (byte (ops.toUint16 (ops.mul (ops.ofInt 0) normNum) % 2 ^ 16)
            :: byte (ops.toUint16 (ops.mul (ops.ofInt 0) normNum) % 2 ^ 16 / 256)
            :: List.replicate k 0))[j]? = some f ∧ sampleOf f = some 0 := by
      intro j h1 h2
      rw [List.getElem?_set_ne (by omega)]
      exact harr j (by omega) (by omega)
    obtain ⟨out, hout, hlenout, hget⟩ := ih (i + 1) _ harr1
    refine ⟨out, ?_, ?_, ?_⟩
    · simp only [scaleLoop, index, hf, Uint16, hint, List.replicate_succ, PutUint16]
      exact hout
    · rw [hlenout, List.length_set]
    · intro j
      rw [hget j]
      by_cases hji : j = i
      · subst hji
        rw [if_neg (show ¬ (j + 1 ≤ j ∧ j < j + 1 + n) by omega), List.getElem?_set_self hi,
          if_pos (show j ≤ j ∧ j < j + (n + 1) by omega)]
        rfl
      · rw [List.getElem?_set_ne (fun h => hji h.symm)]
        by_cases hr : i ≤ j ∧ j < i + (n + 1)
        · rw [if_pos hr, if_pos (show i + 1 ≤ j ∧ j < i + 1 + n by omega)]
        · rw [if_neg hr, if_neg (show ¬ (i + 1 ≤ j ∧ j < i + 1 + n) by omega)]

theorem normalize_silent {F : Type} (ops : Float64Ops F) (t : WAV) (d : F) (ht : Decoded t)
    (hz : ∀ f ∈ t.data, sampleOf f = some 0) :
    ∃ v, normalize ops t d = Except.ok
      { t with data := (List.replicate t.NumSamples
          (byte v :: byte (v / 256) :: List.replicate (t.SampleSize - 2) 0)) } := by
  have hfr : ∀ j, j < t.NumSamples → ∃ f, t.data[j]? = some f ∧ sampleOf f = some 0
      ∧ 2 ≤ f.length ∧ 2 ≤ t.SampleSize := by
    intro j hj
    have hlt : j < t.data.length := by rw [ht.data_length]; exact hj
    have hmem := List.getElem_mem hlt
    have hzero := hz _ hmem
    obtain ⟨a, b, rest, hf, _⟩ := sampleOf_zero _ hzero
    have hlen : 2 ≤ (t.data[j]).length := by rw [hf]; simp
    refine ⟨t.data[j], List.getElem?_eq_getElem hlt, hzero, hlen, ?_⟩
    rw [← ht.frame_length _ hmem]
    exact hlen
  unfold normalize
  simp only
  obtain ⟨p, hp⟩ := peakLoop_ok ops t.data t.NumSamples 0 (ops.ofInt 0)
    (fun j _ h2 => by
      obtain ⟨f, hf, _, hlen, _⟩ := hfr j (by omega)
      exact ⟨f, hf, hlen⟩)
  rw [hp]
  simp only
  by_cases h0 : t.NumSamples = 0
  · refine ⟨0, ?_⟩
    have hd : t.data = [] := List.length_eq_zero.mp (by rw [ht.data_length, h0])
    rw [h0]
    simp only [scaleLoop, List.replicate_zero]
    rw [← hd]
  · obtain ⟨_, _, _, _, hss⟩ := hfr 0 (by omega)
    obtain ⟨out, hout, hlen, hget⟩ := scaleLoop_silent ops t.SampleSize
      (ops.div (ops.mul
        (ops.pow (ops.ofInt 2)
          (ops.ofInt (((t.bitsPerSample + (2 ^ 16 - 1)) % 2 ^ 16 : Nat) : Int)))
        (ops.pow (ops.ofInt 10) (ops.div d (ops.ofInt 20)))) p)
      hss t.NumSamples 0 t.data
      (fun j _ h2 => by
        obtain ⟨f, hf, hzero, _, _⟩ := hfr j (by omega)
        exact ⟨f, hf, hzero⟩)
    refine ⟨ops.toUint16 (ops.mul (ops.ofInt 0) (ops.div (ops.mul
        (ops.pow (ops.ofInt 2)
          (ops.ofInt (((t.bitsPerSample + (2 ^ 16 - 1)) % 2 ^ 16 : Nat) : Int)))
        (ops.pow (ops.ofInt 10) (ops.div d (ops.ofInt 20)))) p)) % 2 ^ 16, ?_⟩
    rw [hout]
    simp only [Except.ok.injEq, WAV.mk.injEq, true_and, and_true]
    apply List.ext_getElem?
    intro j
    rw [hget j, List.getElem?_replicate]
    by_cases hj : j < t.NumSamples
    · rw [if_pos ⟨Nat.zero_le j, by omega⟩, if_pos hj]
    · rw [if_neg (by omega), if_neg hj, List.getElem?_eq_none (by rw [ht.data_length]; omega)]

/-- C1. Round trip: a track `t` that `read` decoded from a byte stream
into a fresh `WAV` is decoded again from the bytes `write` produces for it:
reading `write t` into a fresh `WAV` returns `t` itself, so the thirteen header
fields, the derived fields and the frames (their number and every byte) are
those of `t`. -/
theorem read_write_roundtrip (s : Reader) (t : WAV) (h : read NewWAV s = Except.ok t) :
    read NewWAV (write t) = Except.ok t :=
  read_write_of_decoded t (read_decoded s t h)

/-- C1, at a 16-bit mono stream of two frames. -/
theorem read_write_roundtrip_witness :
    read NewWAV (write (pcmTrack 1 44100 16 4 [[1, 0], [2, 0]]))
      = Except.ok (pcmTrack 1 44100 16 4 [[1, 0], [2, 0]]) :=
  read_write_roundtrip (pcmStream 1 44100 16 4 [1, 0, 2, 0])
    (pcmTrack 1 44100 16 4 [[1, 0], [2, 0]]) (by decide)

/-- C2, refuted as stated: a stream whose first four bytes are "XIFF", not
"RIFF", is decoded without any failure into a track whose `chunkID` is
"XIFF" and whose header fields and frames are populated. -/
theorem read_bad_container_tag_returns :
    (0x58 :: (pcmStream 1 44100 16 4 [1, 0, 2, 0]).tail).take 4 ≠ [0x52, 0x49, 0x46, 0x46]
      ∧ read NewWAV (0x58 :: (pcmStream 1 44100 16 4 [1, 0, 2, 0]).tail)
        = Except.ok { pcmTrack 1 44100 16 4 [[1, 0], [2, 0]] with
                      chunkID := tagOf 0x58 0x49 0x46 0x46 } := by
  decide

/-- C2, amended: `read` does not look at the container tag.  On a stream
of at least four bytes it does what it does on the same stream with the first
four bytes replaced by "RIFF", except that the track it returns has the
stream's own four bytes as `chunkID`. -/
theorem read_ignores_container_tag (a b c d : Byte) (rest : Reader) :
    read NewWAV (a :: b :: c :: d :: rest)
      = match read NewWAV (0x52 :: 0x49 :: 0x46 :: 0x46 :: rest) with
        | Except.ok t => Except.ok { t with chunkID := ⟨a, b, c, d⟩ }
        | Except.error e => Except.error e := by
  simp only [read, readHeader, readTag]
  split <;> rfl

/-- C3, refuted as stated: a stream whose header declares four data bytes
(two frames of two bytes) but which ends after the first frame is decoded
without any failure, and the missing second frame is filled with zero
bytes. -/
theorem read_truncated_stream_returns :
    (pcmStream 1 44100 16 4 [1, 0]).length < 44 + 2 * 2
      ∧ read NewWAV (pcmStream 1 44100 16 4 [1, 0])
        = Except.ok (pcmTrack 1 44100 16 4 [[1, 0], [0, 0]]) := by
  decide

/-- C3, amended: truncation of the payload is no failure.  For a stream
that holds the 44 header bytes and whose `uint16` product
`numChannels * bitsPerSample` is not zero, `read` returns a track with
`NumSamples` frames: frame `i` is the stream's bytes
`[44 + i * SampleSize, 44 + (i + 1) * SampleSize)` when the stream has them
all, and `SampleSize` zero bytes when it ends before. -/
theorem read_truncated_zero_fills (s : Reader) (hs : 44 ≤ s.length)
    (hw : ((readHeader NewWAV s).1.numChannels * (readHeader NewWAV s).1.bitsPerSample)
      % 2 ^ 16 ≠ 0) :
    ∃ t, read NewWAV s = Except.ok t ∧ t.data.length = t.NumSamples
      ∧ ∀ i, i < t.NumSamples →
          t.data[i]? = some (if 44 + (i + 1) * t.SampleSize ≤ s.length
            then (s.drop (44 + i * t.SampleSize)).take t.SampleSize
            else List.replicate t.SampleSize 0) := by
  unfold read
  simp only [if_neg hw, readHeader_data, readHeader_rest NewWAV s hs]
  refine ⟨_, rfl, ?_, ?_⟩
  · exact readFrames_length _ _ _
  · intro i hi
    simp only [NewWAV] at hi ⊢
    rw [readFrames_getElem _ _ _ i hi, List.length_drop, List.drop_drop]
    by_cases h : 44 + (i + 1) * ((readHeader NewWAV s).1.numChannels
        * (readHeader NewWAV s).1.bitsPerSample % 2 ^ 16 / 8) ≤ s.length
    · simp only [NewWAV] at h
      rw [if_pos h, if_pos (by omega)]
    · simp only [NewWAV] at h
      rw [if_neg h, if_neg (by omega)]

/-- C3 amended, at a stream that ends after the first of its two frames. -/
theorem read_truncated_zero_fills_witness :
    ∃ t, read NewWAV (pcmStream 1 44100 16 4 [1, 0]) = Except.ok t
      ∧ t.data.length = t.NumSamples
      ∧ ∀ i, i < t.NumSamples →
          t.data[i]? = some (if 44 + (i + 1) * t.SampleSize
              ≤ (pcmStream 1 44100 16 4 [1, 0]).length
            then ((pcmStream 1 44100 16 4 [1, 0]).drop (44 + i * t.SampleSize)).take t.SampleSize
            else List.replicate t.SampleSize 0) :=
  read_truncated_zero_fills (pcmStream 1 44100 16 4 [1, 0]) (by decide) (by decide)

/-- C4. Mix length: the track `mix` produces from two decoded tracks has
`NumSamples` equal to the larger of the two frame counts, and its frame
sequence has exactly that many frames. -/
theorem mix_length (sa sb : Reader) (object a b : WAV) (st : MixState)
    (ha : read NewWAV sa = Except.ok a) (hb : read NewWAV sb = Except.ok b)
    (h : mix object a b = Except.ok st) :
    st.object.NumSamples = max a.NumSamples b.NumSamples
      ∧ st.object.data.length = max a.NumSamples b.NumSamples := by
  obtain ⟨l, s, hls, hobj, hlen, _⟩ :=
    mix_result object a b (read_decoded sa a ha) (read_decoded sb b hb) st h
  have hn : st.object.NumSamples = l.NumSamples := by rw [hobj]
  rw [hn, hlen]
  rcases hls with ⟨hge, rfl, rfl⟩ | ⟨hlt, rfl, rfl⟩
  · rw [Nat.max_eq_left hge]
    exact ⟨rfl, rfl⟩
  · rw [Nat.max_eq_right (by omega)]
    exact ⟨rfl, rfl⟩

/-- C4, at a track of five frames mixed with a track of two frames. -/
theorem mix_length_witness :
    mix NewWAV trackFive trackTwo
        = Except.ok { object := trackFiveTwo, t1 := trackFiveTwo, t2 := trackTwo }
      ∧ trackFiveTwo.NumSamples = max trackFive.NumSamples trackTwo.NumSamples
      ∧ trackFiveTwo.data.length = max trackFive.NumSamples trackTwo.NumSamples :=
  ⟨by decide,
   mix_length (pcmStream 1 44100 16 10 [1, 0, 2, 0, 3, 0, 4, 0, 5, 0])
     (pcmStream 1 44100 16 4 [10, 0, 20, 0]) NewWAV trackFive trackTwo
     { object := trackFiveTwo, t1 := trackFiveTwo, t2 := trackTwo }
     (by decide) (by decide) (by decide)⟩

/-- C5. Mix clipping: for two decoded 16-bit tracks `mix` returns, and at
every frame index below both frame counts the leading signed 16-bit
little-endian sample of the mixed frame is the exact integer sum of the two
tracks' leading samples at that index, clamped to `[-32768, 32767]`. -/
theorem mix_clips (sa sb : Reader) (object a b : WAV)
    (ha : read NewWAV sa = Except.ok a) (hb : read NewWAV sb = Except.ok b)
    (ha16 : a.bitsPerSample = 16) (hb16 : b.bitsPerSample = 16) :
    ∃ st, mix object a b = Except.ok st
      ∧ ∀ i, i < a.NumSamples → i < b.NumSamples →
          ∃ fa fb fo x y, a.data[i]? = some fa ∧ b.data[i]? = some fb
            ∧ st.object.data[i]? = some fo
            ∧ sampleOf fa = some x ∧ sampleOf fb = some y
            ∧ sampleOf fo = some (max (-32768) (min 32767 (x + y))) := by
  have da := read_decoded sa a ha
  have db := read_decoded sb b hb
  obtain ⟨st, hst⟩ := mix_total object a b da db (sampleSize_of_sixteen a da ha16)
    (sampleSize_of_sixteen b db hb16)
  refine ⟨st, hst, ?_⟩
  intro i hia hib
  obtain ⟨l, s, hls, _, _, hin⟩ := mix_result object a b da db st hst
  rcases hls with ⟨_, rfl, rfl⟩ | ⟨_, rfl, rfl⟩
  · obtain ⟨fl, hfl, hlen, _, hsh, hout⟩ := hin i hia
    obtain ⟨fs, hfs, hslen⟩ := hsh hib
    obtain ⟨x, hx⟩ := sampleOf_of_length fl hlen
    obtain ⟨y, hy⟩ := sampleOf_of_length fs hslen
    refine ⟨fl, fs, _, x, y, hfl, hfs, hout, hx, hy, ?_⟩
    rw [if_pos hib, hfs, sampleOf_mixedFrame]
    simp only [hx, hy, Option.getD_some, clip_eq]
  · obtain ⟨fl, hfl, hlen, _, hsh, hout⟩ := hin i hib
    obtain ⟨fs, hfs, hslen⟩ := hsh hia
    obtain ⟨x, hx⟩ := sampleOf_of_length fl hlen
    obtain ⟨y, hy⟩ := sampleOf_of_length fs hslen
    refine ⟨fs, fl, _, y, x, hfs, hfl, hout, hy, hx, ?_⟩
    rw [if_pos hia, hfs, sampleOf_mixedFrame]
    simp only [hx, hy, Option.getD_some, clip_eq, Int.add_comm y x]

/-- C5, at two one-frame tracks with samples 30000 and 10000: `mix` returns
and the mixed sample is 32767, not 40000. -/
theorem mix_clips_witness :
    sampleOf [0x30, 0x75] = some 30000 ∧ sampleOf [0x10, 0x27] = some 10000
      ∧ mix NewWAV (pcmTrack 1 44100 16 2 [[0x30, 0x75]]) (pcmTrack 1 44100 16 2 [[0x10, 0x27]])
        = Except.ok { object := trackClipped, t1 := trackClipped,
                      t2 := pcmTrack 1 44100 16 2 [[0x10, 0x27]] }
      ∧ sampleOf [0xff, 0x7f] = some 32767
      ∧ ∃ st, mix NewWAV (pcmTrack 1 44100 16 2 [[0x30, 0x75]])
            (pcmTrack 1 44100 16 2 [[0x10, 0x27]]) = Except.ok st
          ∧ ∀ i, i < (pcmTrack 1 44100 16 2 [[0x30, 0x75]]).NumSamples →
              i < (pcmTrack 1 44100 16 2 [[0x10, 0x27]]).NumSamples →
              ∃ fa fb fo x y, (pcmTrack 1 44100 16 2 [[0x30, 0x75]]).data[i]? = some fa
                ∧ (pcmTrack 1 44100 16 2 [[0x10, 0x27]]).data[i]? = some fb
                ∧ st.object.data[i]? = some fo
                ∧ sampleOf fa = some x ∧ sampleOf fb = some y
                ∧ sampleOf fo = some (max (-32768) (min 32767 (x + y))) :=
  ⟨by decide, by decide, by decide, by decide,
   mix_clips (pcmStream 1 44100 16 2 [0x30, 0x75]) (pcmStream 1 44100 16 2 [0x10, 0x27]) NewWAV
     (pcmTrack 1 44100 16 2 [[0x30, 0x75]]) (pcmTrack 1 44100 16 2 [[0x10, 0x27]])
     (by decide) (by decide) (by decide) (by decide)⟩

/-- C6, refuted as stated: two decoded one-frame tracks that differ in
their sample rate have equal frame counts, and `mix` of the two in one order
does not produce the track it produces in the other order (each result
carries the header of its first argument). -/
theorem mix_not_symmetric_on_tie :
    read NewWAV (pcmStream 1 44100 16 2 [1, 0]) = Except.ok (pcmTrack 1 44100 16 2 [[1, 0]])
      ∧ read NewWAV (pcmStream 1 48000 16 2 [2, 0]) = Except.ok (pcmTrack 1 48000 16 2 [[2, 0]])
      ∧ (pcmTrack 1 44100 16 2 [[1, 0]]).NumSamples = (pcmTrack 1 48000 16 2 [[2, 0]]).NumSamples
      ∧ mixOutput NewWAV (pcmTrack 1 44100 16 2 [[1, 0]]) (pcmTrack 1 48000 16 2 [[2, 0]])
        ≠ mixOutput NewWAV (pcmTrack 1 48000 16 2 [[2, 0]]) (pcmTrack 1 44100 16 2 [[1, 0]]) := by
  decide

/-- C6, amended: for two decoded tracks whose frame counts differ, or whose
thirteen header fields are equal, `mix` of the two in either order produces
the same output track (or the same fault). -/
theorem mix_symmetric (sa sb : Reader) (o1 o2 a b : WAV)
    (ha : read NewWAV sa = Except.ok a) (hb : read NewWAV sb = Except.ok b)
    (h : a.NumSamples ≠ b.NumSamples ∨ SameHeader a b) :
    mixOutput o1 a b = mixOutput o2 b a :=
  mixOutput_swap o1 o2 a b (read_decoded sa a ha) (read_decoded sb b hb) h

/-- C6 amended, at the five-frame and the two-frame track. -/
theorem mix_symmetric_witness :
    mixOutput NewWAV trackFive trackTwo = Except.ok trackFiveTwo
      ∧ mixOutput NewWAV trackFive trackTwo = mixOutput NewWAV trackTwo trackFive :=
  ⟨by decide,
   mix_symmetric (pcmStream 1 44100 16 10 [1, 0, 2, 0, 3, 0, 4, 0, 5, 0])
     (pcmStream 1 44100 16 4 [10, 0, 20, 0]) NewWAV NewWAV trackFive trackTwo
     (by decide) (by decide) (Or.inl (by decide))⟩

/-- C7, refuted as stated: a decoded 16-bit stereo track of one frame
`[1, 0, 2, 0]` mixed with a decoded track of no frames.  Frame 0 lies in the
tail, and the mixed frame is `[1, 0, 0, 0]`: the bytes after the leading
sample are zeroed, the frame is not that of the longer track. -/
theorem mix_tail_not_bytewise :
    read NewWAV (pcmStream 2 44100 16 4 [1, 0, 2, 0])
        = Except.ok (pcmTrack 2 44100 16 4 [[1, 0, 2, 0]])
      ∧ read NewWAV (pcmStream 2 44100 16 0 []) = Except.ok (pcmTrack 2 44100 16 0 [])
      ∧ (pcmTrack 2 44100 16 0 []).NumSamples < (pcmTrack 2 44100 16 4 [[1, 0, 2, 0]]).NumSamples
      ∧ mixOutput NewWAV (pcmTrack 2 44100 16 4 [[1, 0, 2, 0]]) (pcmTrack 2 44100 16 0 [])
        = Except.ok (pcmTrack 2 44100 16 4 [[1, 0, 0, 0]])
      ∧ (pcmTrack 2 44100 16 4 [[1, 0, 0, 0]]).data[0]?
        ≠ (pcmTrack 2 44100 16 4 [[1, 0, 2, 0]]).data[0]? := by
  decide

/-- C7, amended: for decoded tracks `a` and `b` with more frames in `a`, at
every index `i` from `b.NumSamples` up to `a.NumSamples`, frame `i` of the
track `mix` produces is the first two bytes of frame `i` of `a` (its leading
16-bit sample) followed by `SampleSize - 2` zero bytes; it is frame `i` of
`a` byte for byte when the frames of `a` are two bytes long. -/
theorem mix_tail_passthrough (sa sb : Reader) (object a b : WAV) (st : MixState)
    (ha : read NewWAV sa = Except.ok a) (hb : read NewWAV sb = Except.ok b)
    (hlt : b.NumSamples < a.NumSamples) (h : mix object a b = Except.ok st)
    (i : Nat) (h1 : b.NumSamples ≤ i) (h2 : i < a.NumSamples) :
    ∃ f, a.data[i]? = some f
      ∧ st.object.data[i]? = some (f.take 2 ++ List.replicate (a.SampleSize - 2) 0)
      ∧ (a.SampleSize = 2 → st.object.data[i]? = some f) := by
  have da := read_decoded sa a ha
  obtain ⟨l, s, hls, _, _, hin⟩ := mix_result object a b da (read_decoded sb b hb) st h
  rcases hls with ⟨_, rfl, rfl⟩ | ⟨hcontra, _, _⟩
  · obtain ⟨fl, hfl, hlen, _, _, hout⟩ := hin i h2
    rw [if_neg (by omega), mixedFrame_none _ fl hlen] at hout
    refine ⟨fl, hfl, hout, ?_⟩
    intro hss
    obtain ⟨f, hf, hflen⟩ := decoded_frame l da i h2
    rw [hfl] at hf
    injection hf with hf
    subst hf
    have h2len : fl.length ≤ 2 := by omega
    rw [hout, hss, List.take_of_length_le h2len]
    simp
  · omega

/-- C7 amended, at the five-frame and the two-frame track, frames 2 to 4. -/
theorem mix_tail_passthrough_witness :
    (∃ f, trackFive.data[2]? = some f
      ∧ trackFiveTwo.data[2]? = some (f.take 2 ++ List.replicate (trackFive.SampleSize - 2) 0)
      ∧ (trackFive.SampleSize = 2 → trackFiveTwo.data[2]? = some f))
    ∧ (∃ f, trackFive.data[3]? = some f
      ∧ trackFiveTwo.data[3]? = some (f.take 2 ++ List.replicate (trackFive.SampleSize - 2) 0)
      ∧ (trackFive.SampleSize = 2 → trackFiveTwo.data[3]? = some f))
    ∧ (∃ f, trackFive.data[4]? = some f
      ∧ trackFiveTwo.data[4]? = some (f.take 2 ++ List.replicate (trackFive.SampleSize - 2) 0)
      ∧ (trackFive.SampleSize = 2 → trackFiveTwo.data[4]? = some f)) :=
  ⟨mix_tail_passthrough (pcmStream 1 44100 16 10 [1, 0, 2, 0, 3, 0, 4, 0, 5, 0])
     (pcmStream 1 44100 16 4 [10, 0, 20, 0]) NewWAV trackFive trackTwo
     { object := trackFiveTwo, t1 := trackFiveTwo, t2 := trackTwo }
     (by decide) (by decide) (by decide) (by decide) 2 (by decide) (by decide),
   mix_tail_passthrough (pcmStream 1 44100 16 10 [1, 0, 2, 0, 3, 0, 4, 0, 5, 0])
     (pcmStream 1 44100 16 4 [10, 0, 20, 0]) NewWAV trackFive trackTwo
     { object := trackFiveTwo, t1 := trackFiveTwo, t2 := trackTwo }
     (by decide) (by decide) (by decide) (by decide) 3 (by decide) (by decide),
   mix_tail_passthrough (pcmStream 1 44100 16 10 [1, 0, 2, 0, 3, 0, 4, 0, 5, 0])
     (pcmStream 1 44100 16 4 [10, 0, 20, 0]) NewWAV trackFive trackTwo
     { object := trackFiveTwo, t1 := trackFiveTwo, t2 := trackTwo }
     (by decide) (by decide) (by decide) (by decide) 4 (by decide) (by decide)⟩

/-- C8, refuted as stated: two decoded 8-bit mono tracks of one frame each
(`channel_count = 1`, `bits_per_sample = 8`, frames of `block_align = 1`
byte) make `mix` panic with an index out of range: the two-byte read of a
one-byte frame. -/
theorem mix_faults_on_eight_bit_mono :
    read NewWAV (pcmStream 1 8000 8 1 [5]) = Except.ok (pcmTrack 1 8000 8 1 [[5]])
      ∧ read NewWAV (pcmStream 1 8000 8 1 [7]) = Except.ok (pcmTrack 1 8000 8 1 [[7]])
      ∧ (pcmTrack 1 8000 8 1 [[5]]).SampleSize = 1
      ∧ mix NewWAV (pcmTrack 1 8000 8 1 [[5]]) (pcmTrack 1 8000 8 1 [[7]])
        = Except.error Fault.indexOutOfRange := by
  decide

/-- C8, amended: for every pair of decoded tracks whose frames are at least
two bytes long (`SampleSize ≥ 2`), with any frame counts, zero included,
`mix` returns a result: no indexing faults. -/
theorem mix_total_of_two_byte_frames (sa sb : Reader) (object a b : WAV)
    (ha : read NewWAV sa = Except.ok a) (hb : read NewWAV sb = Except.ok b)
    (h2a : 2 ≤ a.SampleSize) (h2b : 2 ≤ b.SampleSize) :
    ∃ st, mix object a b = Except.ok st :=
  mix_total object a b (read_decoded sa a ha) (read_decoded sb b hb) h2a h2b

/-- C8 amended, at a 16-bit track of two frames and a 16-bit track of no
frames. -/
theorem mix_total_of_two_byte_frames_witness :
    ∃ st, mix NewWAV trackTwo (pcmTrack 1 44100 16 0 []) = Except.ok st :=
  mix_total_of_two_byte_frames (pcmStream 1 44100 16 4 [10, 0, 20, 0])
    (pcmStream 1 44100 16 0 []) NewWAV trackTwo (pcmTrack 1 44100 16 0 [])
    (by decide) (by decide) (by decide) (by decide)

/-- C9, the code at a failing input: `mix` into a fresh result of two
decoded one-frame tracks with samples 1 and 2.  After the call the frame of
the first (the longer) input track holds the mixed sample 3, no longer the
sample 1 it held before: the store into `object.data` went into the backing
array the input shares with the result.  The second track and both headers
are as before. -/
theorem mix_overwrites_longer_input :
    read NewWAV (pcmStream 1 44100 16 2 [1, 0]) = Except.ok (pcmTrack 1 44100 16 2 [[1, 0]])
      ∧ read NewWAV (pcmStream 1 44100 16 2 [2, 0]) = Except.ok (pcmTrack 1 44100 16 2 [[2, 0]])
      ∧ mix NewWAV (pcmTrack 1 44100 16 2 [[1, 0]]) (pcmTrack 1 44100 16 2 [[2, 0]])
        = Except.ok { object := pcmTrack 1 44100 16 2 [[3, 0]],
                      t1 := pcmTrack 1 44100 16 2 [[3, 0]],
                      t2 := pcmTrack 1 44100 16 2 [[2, 0]] }
      ∧ (pcmTrack 1 44100 16 2 [[3, 0]]).data ≠ (pcmTrack 1 44100 16 2 [[1, 0]]).data := by
  decide

/-- C10, refuted as stated: `normalize` on a decoded track whose two
samples are both zero, with the target 0 dB, raises no error. -/
theorem normalize_silent_track_no_error :
    read NewWAV (pcmStream 1 44100 16 4 [0, 0, 0, 0]) = Except.ok silentTrack
      ∧ (∀ f ∈ silentTrack.data, sampleOf f = some 0)
      ∧ ¬ ∃ e, normalize float64 silentTrack 0 = Except.error e := by
  refine ⟨by decide, by decide, ?_⟩
  obtain ⟨v, hv⟩ := normalize_silent float64 silentTrack 0
    (read_decoded (pcmStream 1 44100 16 4 [0, 0, 0, 0]) silentTrack (by decide)) (by decide)
  rw [hv]
  simp

/-- C10, amended: for every decoded track all of whose leading samples are
zero and every `desiredPeak`, whatever values the `float64` operations
yield, `normalize` completes without an error: it leaves the header alone
and overwrites every frame with one and the same fresh frame, the 16-bit
conversion of `0 * (base / peak)` followed by zero bytes. -/
theorem normalize_silent_completes {F : Type} (ops : Float64Ops F) (s : Reader) (t : WAV)
    (desiredPeak : F) (ht : read NewWAV s = Except.ok t)
    (hz : ∀ f ∈ t.data, sampleOf f = some 0) :
    ∃ v, normalize ops t desiredPeak = Except.ok
      { t with data := (List.replicate t.NumSamples
          (byte v :: byte (v / 256) :: List.replicate (t.SampleSize - 2) 0)) } :=
  normalize_silent ops t desiredPeak (read_decoded s t ht) hz

/-- C10 amended, at the silent track of two frames and the target 0 dB. -/
theorem normalize_silent_completes_witness :
    ∃ v, normalize float64 silentTrack 0 = Except.ok
      { silentTrack with data := (List.replicate silentTrack.NumSamples
          (byte v :: byte (v / 256) :: List.replicate (silentTrack.SampleSize - 2) 0)) } :=
  normalize_silent_completes float64 (pcmStream 1 44100 16 4 [0, 0, 0, 0]) silentTrack 0
    (by decide) (by decide)

/-! ## The container: what `read` takes from a stream -/

theorem readHeader_fst (object : WAV) (s : Reader) (hs : 44 ≤ s.length) :
    (readHeader object s).1 =
      { object with
        chunkID := (readTag object.chunkID s).1,
        chunkSize := (readUint32 object.chunkSize (s.drop 4)).1,
        format := (readTag object.format (s.drop 8)).1,
        subchunk1ID := (readTag object.subchunk1ID (s.drop 12)).1,
        subchunk1Size := (readUint32 object.subchunk1Size (s.drop 16)).1,
        audioFormat := (readUint16 object.audioFormat (s.drop 20)).1,
        numChannels := (readUint16 object.numChannels (s.drop 22)).1,
        sampleRate := (readUint32 object.sampleRate (s.drop 24)).1,
        byteRate := (readUint32 object.byteRate (s.drop 28)).1,
        blockAlign := (readUint16 object.blockAlign (s.drop 32)).1,
        bitsPerSample := (readUint16 object.bitsPerSample (s.drop 34)).1,
        subchunk2ID := (readTag object.subchunk2ID (s.drop 36)).1,
        subchunk2Size := (readUint32 object.subchunk2Size (s.drop 40)).1 } := by
  have h1 := readTag_rest object.chunkID s (by omega)
  have h2 := readUint32_rest object.chunkSize (s.drop 4) (by rw [List.length_drop]; omega)
  have h3 := readTag_rest object.format (s.drop 8) (by rw [List.length_drop]; omega)
  have h4 := readTag_rest object.subchunk1ID (s.drop 12) (by rw [List.length_drop]; omega)
  have h5 := readUint32_rest object.subchunk1Size (s.drop 16) (by rw [List.length_drop]; omega)
  have h6 := readUint16_rest object.audioFormat (s.drop 20) (by rw [List.length_drop]; omega)
  have h7 := readUint16_rest object.numChannels (s.drop 22) (by rw [List.length_drop]; omega)
  have h8 := readUint32_rest object.sampleRate (s.drop 24) (by rw [List.length_drop]; omega)
  have h9 := readUint32_rest object.byteRate (s.drop 28) (by rw [List.length_drop]; omega)
  have h10 := readUint16_rest object.blockAlign (s.drop 32) (by rw [List.length_drop]; omega)
  have h11 := readUint16_rest object.bitsPerSample (s.drop 34) (by rw [List.length_drop]; omega)
  have h12 := readTag_rest object.subchunk2ID (s.drop 36) (by rw [List.length_drop]; omega)
  simp only [List.drop_drop, Nat.reduceAdd] at h2 h3 h4 h5 h6 h7 h8 h9 h10 h11 h12
  simp only [readHeader, h1, h2, h3, h4, h5, h6, h7, h8, h9, h10, h11, h12]

theorem readTag_fst_take (old : Tag) (r : Reader) (m : Nat) (hm : 4 ≤ m) :
    (readTag old (r.take m)).1 = (readTag old r).1 := by
  by_cases h : 4 ≤ r.length
  · obtain ⟨j, rfl⟩ : ∃ j, m = j + 4 := ⟨m - 4, by omega⟩
    match r, h with
    | _ :: _ :: _ :: _ :: _, _ => rfl
  · rw [List.take_of_length_le (by omega)]

theorem readUint32_fst_take (old : Nat) (r : Reader) (m : Nat) (hm : 4 ≤ m) :
    (readUint32 old (r.take m)).1 = (readUint32 old r).1 := by
  by_cases h : 4 ≤ r.length
  · obtain ⟨j, rfl⟩ : ∃ j, m = j + 4 := ⟨m - 4, by omega⟩
    match r, h with
    | _ :: _ :: _ :: _ :: _, _ => rfl
  · rw [List.take_of_length_le (by omega)]

theorem readUint16_fst_take (old : Nat) (r : Reader) (m : Nat) (hm : 2 ≤ m) :
    (readUint16 old (r.take m)).1 = (readUint16 old r).1 := by
  by_cases h : 2 ≤ r.length
  · obtain ⟨j, rfl⟩ : ∃ j, m = j + 2 := ⟨m - 2, by omega⟩
    match r, h with
    | _ :: _ :: _, _ => rfl
  · rw [List.take_of_length_le (by omega)]

theorem readHeader_fst_take (object : WAV) (s : Reader) (k : Nat) (hk : 44 ≤ k) :
    (readHeader object (s.take k)).1 = (readHeader object s).1 := by
  by_cases hs : 44 ≤ s.length
  · have hlen : 44 ≤ (s.take k).length := by rw [List.length_take]; omega
    rw [readHeader_fst object (s.take k) hlen, readHeader_fst object s hs]
    have e1 := readTag_fst_take object.chunkID s k (by omega)
    have e2 := readUint32_fst_take object.chunkSize (s.drop 4) (k - 4) (by omega)
    have e3 := readTag_fst_take object.format (s.drop 8) (k - 8) (by omega)
    have e4 := readTag_fst_take object.subchunk1ID (s.drop 12) (k - 12) (by omega)
    have e5 := readUint32_fst_take object.subchunk1Size (s.drop 16) (k - 16) (by omega)
    have e6 := readUint16_fst_take object.audioFormat (s.drop 20) (k - 20) (by omega)
    have e7 := readUint16_fst_take object.numChannels (s.drop 22) (k - 22) (by omega)
    have e8 := readUint32_fst_take object.sampleRate (s.drop 24) (k - 24) (by omega)
    have e9 := readUint32_fst_take object.byteRate (s.drop 28) (k - 28) (by omega)
    have e10 := readUint16_fst_take object.blockAlign (s.drop 32) (k - 32) (by omega)
    have e11 := readUint16_fst_take object.bitsPerSample (s.drop 34) (k - 34) (by omega)
    have e12 := readTag_fst_take object.subchunk2ID (s.drop 36) (k - 36) (by omega)
    have e13 := readUint32_fst_take object.subchunk2Size (s.drop 40) (k - 40) (by omega)
    simp only [List.drop_take, e1, e2, e3, e4, e5, e6, e7, e8, e9, e10, e11, e12, e13]
  · rw [List.take_of_length_le (by omega)]

theorem readFrames_take (ss n : Nat) (r : Reader) (m : Nat) (hm : n * ss ≤ m)
    (hr : m ≤ r.length) :
    readFrames ss n [] (r.take m) = readFrames ss n [] r := by
  apply List.ext_getElem?
  intro i
  by_cases hi : i < n
  · rw [readFrames_getElem ss n _ i hi, readFrames_getElem ss n _ i hi, List.length_take]
    have hle : (i + 1) * ss ≤ n * ss := Nat.mul_le_mul_right ss hi
    have hmul : (i + 1) * ss = i * ss + ss := Nat.succ_mul i ss
    rw [if_pos (by omega), if_pos (by omega), List.drop_take, List.take_take,
      Nat.min_eq_left (by omega)]
  · rw [List.getElem?_eq_none (by rw [readFrames_length]; omega),
      List.getElem?_eq_none (by rw [readFrames_length]; omega)]

theorem NewWAV_data : NewWAV.data = [] := rfl

theorem read_take (s : Reader) (k : Nat) (hk : 44 ≤ k) (hks : k ≤ s.length)
    (hn : 44 + (((8 * (readHeader NewWAV s).1.subchunk2Size) % 2 ^ 32)
        / (((readHeader NewWAV s).1.numChannels * (readHeader NewWAV s).1.bitsPerSample) % 2 ^ 16))
      * ((((readHeader NewWAV s).1.numChannels * (readHeader NewWAV s).1.bitsPerSample) % 2 ^ 16)
        / 8) ≤ k) :
    read NewWAV (s.take k) = read NewWAV s := by
  have hlen : 44 ≤ (s.take k).length := by rw [List.length_take]; omega
  unfold read
  simp only [readHeader_fst_take NewWAV s k hk, readHeader_rest NewWAV s (by omega),
    readHeader_rest NewWAV (s.take k) hlen, List.drop_take, readHeader_data, NewWAV_data]
  rw [readFrames_take _ _ (s.drop 44) (k - 44) (by omega) (by rw [List.length_drop]; omega)]

theorem read_of_width (s : Reader)
    (hw : ((readHeader NewWAV s).1.numChannels * (readHeader NewWAV s).1.bitsPerSample)
      % 2 ^ 16 ≠ 0) :
    read NewWAV s = Except.ok
      { (readHeader NewWAV s).1 with
        NumSamples := ((8 * (readHeader NewWAV s).1.subchunk2Size) % 2 ^ 32)
          / (((readHeader NewWAV s).1.numChannels * (readHeader NewWAV s).1.bitsPerSample)
            % 2 ^ 16),
        SampleSize := (((readHeader NewWAV s).1.numChannels
          * (readHeader NewWAV s).1.bitsPerSample) % 2 ^ 16) / 8,
        Duration := DurationValue.quot (readHeader NewWAV s).1.subchunk2Size
          (readHeader NewWAV s).1.byteRate,
        data := (readFrames ((((readHeader NewWAV s).1.numChannels
            * (readHeader NewWAV s).1.bitsPerSample) % 2 ^ 16) / 8)
          (((8 * (readHeader NewWAV s).1.subchunk2Size) % 2 ^ 32)
            / (((readHeader NewWAV s).1.numChannels * (readHeader NewWAV s).1.bitsPerSample)
              % 2 ^ 16))
          [] (readHeader NewWAV s).2) } := by
  unfold read
  simp only [if_neg hw, readHeader_data, NewWAV_data]

theorem readFrames_whole (ss n : Nat) (s : Reader) (hp : 44 + n * ss ≤ s.length) (i : Nat)
    (hi : i < n) :
    (readFrames ss n [] (s.drop 44))[i]? = some ((s.drop (44 + i * ss)).take ss) := by
  have hle : (i + 1) * ss ≤ n * ss := Nat.mul_le_mul_right ss hi
  rw [readFrames_getElem _ _ _ i hi, List.length_drop, List.drop_drop, if_pos (by omega)]

/-- Frame extraction by the derived fields of the track: on an input that
holds the 44 header bytes, with a non-zero `uint16` product `numChannels * bitsPerSample`, `read`
returns a track; when at least `NumSamples * SampleSize` payload bytes follow
the header, the track has exactly `NumSamples` frames, each of `SampleSize`
bytes, frame `i` is the input bytes from `44 + i * SampleSize` up to
`44 + (i + 1) * SampleSize`, and every input with the same first
`44 + NumSamples * SampleSize` bytes is decoded into the same track. -/
theorem read_frame_extraction (s : Reader) (hs : 44 ≤ s.length)
    (hw : ((readHeader NewWAV s).1.numChannels * (readHeader NewWAV s).1.bitsPerSample)
      % 2 ^ 16 ≠ 0) :
    ∃ t, read NewWAV s = Except.ok t
      ∧ (44 + t.NumSamples * t.SampleSize ≤ s.length →
          t.data.length = t.NumSamples
          ∧ (∀ f ∈ t.data, f.length = t.SampleSize)
          ∧ (∀ i, i < t.NumSamples →
              t.data[i]? = some ((s.drop (44 + i * t.SampleSize)).take t.SampleSize))
          ∧ ∀ s2 : Reader, s2.take (44 + t.NumSamples * t.SampleSize)
                = s.take (44 + t.NumSamples * t.SampleSize) →
              read NewWAV s2 = Except.ok t) := by
  refine ⟨_, read_of_width s hw, ?_⟩
  simp only
  intro hp
  refine ⟨readFrames_length _ _ _, readFrames_frame_length _ _ _, ?_, ?_⟩
  · intro i hi
    rw [readHeader_rest NewWAV s hs]
    exact readFrames_whole _ _ s hp i hi
  · intro s2 h2
    have hlen := congrArg List.length h2
    rw [List.length_take, List.length_take, Nat.min_eq_left hp] at hlen
    have hk2 : 44 + (8 * (readHeader NewWAV s).1.subchunk2Size % 2 ^ 32
          / ((readHeader NewWAV s).1.numChannels * (readHeader NewWAV s).1.bitsPerSample % 2 ^ 16))
        * ((readHeader NewWAV s).1.numChannels * (readHeader NewWAV s).1.bitsPerSample % 2 ^ 16 / 8)
        ≤ s2.length := by omega
    have hhdr : (readHeader NewWAV s2).1 = (readHeader NewWAV s).1 := by
      rw [← readHeader_fst_take NewWAV s2 _ (Nat.le_add_right 44 _), h2,
        readHeader_fst_take NewWAV s _ (Nat.le_add_right 44 _)]
    rw [← read_take s2 _ (Nat.le_add_right 44 _) hk2 (by rw [hhdr]), h2,
      read_take s _ (Nat.le_add_right 44 _) hp (Nat.le_refl _)]
    exact read_of_width s hw

/-- The frames of a stream of two 16-bit mono frames followed by one stray
byte. -/
theorem read_frame_extraction_witness :
    ∃ t, read NewWAV (pcmStream 1 44100 16 4 [1, 0, 2, 0, 9]) = Except.ok t
      ∧ (44 + t.NumSamples * t.SampleSize ≤ (pcmStream 1 44100 16 4 [1, 0, 2, 0, 9]).length →
          t.data.length = t.NumSamples
          ∧ (∀ f ∈ t.data, f.length = t.SampleSize)
          ∧ (∀ i, i < t.NumSamples →
              t.data[i]? = some (((pcmStream 1 44100 16 4 [1, 0, 2, 0, 9]).drop
                (44 + i * t.SampleSize)).take t.SampleSize))
          ∧ ∀ s2 : Reader, s2.take (44 + t.NumSamples * t.SampleSize)
                = (pcmStream 1 44100 16 4 [1, 0, 2, 0, 9]).take
                    (44 + t.NumSamples * t.SampleSize) →
              read NewWAV s2 = Except.ok t) :=
  read_frame_extraction (pcmStream 1 44100 16 4 [1, 0, 2, 0, 9]) (by decide) (by decide)

/-- Frame extraction where lines 66-67 do not overflow: on an input whose
header has a non-zero product `numChannels * bitsPerSample` below 2^16 and
`8 * subchunk2Size < 2^32`, followed by at least `frame_count * sample_size`
payload bytes, `read` yields exactly `frame_count` frames of `sample_size`
bytes, frame `i` is the input bytes from `44 + i * sample_size` up to
`44 + (i + 1) * sample_size`, and the bytes after the last frame do not
affect the result; `frame_count` and `sample_size` are the exact quotients
`8 * subchunk2Size / (numChannels * bitsPerSample)` and
`numChannels * bitsPerSample / 8`. -/
theorem read_frames_in_range (s : Reader) (hs : 44 ≤ s.length)
    (h0 : (readHeader NewWAV s).1.numChannels * (readHeader NewWAV s).1.bitsPerSample ≠ 0)
    (h16 : (readHeader NewWAV s).1.numChannels * (readHeader NewWAV s).1.bitsPerSample < 2 ^ 16)
    (h32 : 8 * (readHeader NewWAV s).1.subchunk2Size < 2 ^ 32)
    (hp : 44 + 8 * (readHeader NewWAV s).1.subchunk2Size
          / ((readHeader NewWAV s).1.numChannels * (readHeader NewWAV s).1.bitsPerSample)
        * ((readHeader NewWAV s).1.numChannels * (readHeader NewWAV s).1.bitsPerSample / 8)
      ≤ s.length) :
    ∃ t, read NewWAV s = Except.ok t
      ∧ t.data.length = 8 * (readHeader NewWAV s).1.subchunk2Size
          / ((readHeader NewWAV s).1.numChannels * (readHeader NewWAV s).1.bitsPerSample)
      ∧ (∀ f ∈ t.data, f.length
          = (readHeader NewWAV s).1.numChannels * (readHeader NewWAV s).1.bitsPerSample / 8)
      ∧ (∀ i, i < 8 * (readHeader NewWAV s).1.subchunk2Size
            / ((readHeader NewWAV s).1.numChannels * (readHeader NewWAV s).1.bitsPerSample) →
          t.data[i]? = some ((s.drop (44 + i
              * ((readHeader NewWAV s).1.numChannels * (readHeader NewWAV s).1.bitsPerSample / 8))).take
            ((readHeader NewWAV s).1.numChannels * (readHeader NewWAV s).1.bitsPerSample / 8)))
      ∧ ∀ s2 : Reader,
          s2.take (44 + 8 * (readHeader NewWAV s).1.subchunk2Size
              / ((readHeader NewWAV s).1.numChannels * (readHeader NewWAV s).1.bitsPerSample)
            * ((readHeader NewWAV s).1.numChannels * (readHeader NewWAV s).1.bitsPerSample / 8))
            = s.take (44 + 8 * (readHeader NewWAV s).1.subchunk2Size
              / ((readHeader NewWAV s).1.numChannels * (readHeader NewWAV s).1.bitsPerSample)
            * ((readHeader NewWAV s).1.numChannels * (readHeader NewWAV s).1.bitsPerSample / 8)) →
          read NewWAV s2 = Except.ok t := by
  have hw : ((readHeader NewWAV s).1.numChannels * (readHeader NewWAV s).1.bitsPerSample)
      % 2 ^ 16 ≠ 0 := by
    rw [Nat.mod_eq_of_lt h16]
    exact h0
  obtain ⟨t, ht, h⟩ := read_frame_extraction s hs hw
  have e := Except.ok.inj ((read_of_width s hw).symm.trans ht)
  subst e
  simp only [Nat.mod_eq_of_lt h16, Nat.mod_eq_of_lt h32] at h ht
  exact ⟨_, ht, h hp⟩

theorem readFrames_replicate (ss n : Nat) (z : Byte) :
    readFrames ss n [] (List.replicate (n * ss) z) = List.replicate n (List.replicate ss z) := by
  induction n with
  | zero => rfl
  | succ n ih =>
    have hf : readFrame ss (List.replicate ((n + 1) * ss) z)
        = (List.replicate ss z, List.replicate (n * ss) z) := by
      have hle : ss ≤ (List.replicate ((n + 1) * ss) z).length := by
        rw [List.length_replicate, Nat.succ_mul]
        omega
      unfold readFrame
      rw [if_pos hle, List.take_replicate, List.drop_replicate, Nat.succ_mul,
        Nat.min_eq_left (by omega), Nat.add_sub_cancel]
    rw [readFrames_succ, hf, List.replicate_succ, ih]

/-- C15, the code at a failing input: a canonical header with 4097
channels of 16 bits and a data chunk of 8194 bytes, followed by 8194 payload
bytes (zeros).  By the formulas of the specification the frame count is
`8194 * 8 / (4097 * 16) = 1` and the frame size `4097 * 16 / 8 = 8194`: one
frame of 8194 bytes.  The `uint16` product of lines 66-67 is
`65552 % 65536 = 16`, so `read` sets `NumSamples` to `8 * 8194 / 16 = 4097`
and `SampleSize` to 2 and returns 4097 frames of two bytes. -/
theorem read_frames_miscounted :
    (pcmStream 4097 44100 16 8194 (List.replicate 8194 0)).length = 44 + 8194
      ∧ (pcmHeader 4097 44100 16 8194).numChannels = 4097
      ∧ (pcmHeader 4097 44100 16 8194).bitsPerSample = 16
      ∧ (pcmHeader 4097 44100 16 8194).subchunk2Size = 8194
      ∧ 8194 * 8 / (4097 * 16) = 1 ∧ 4097 * 16 / 8 = 8194
      ∧ read NewWAV (pcmStream 4097 44100 16 8194 (List.replicate 8194 0))
        = Except.ok { pcmHeader 4097 44100 16 8194 with
            NumSamples := 4097
            SampleSize := 2
            Duration := DurationValue.quot 8194 (44100 * 4097 * 16 / 8)
            data := List.replicate 4097 [0, 0] } := by
  have hlen : (write (pcmHeader 4097 44100 16 8194)).length = 44 := by decide
  have hs : 44 ≤ (pcmStream 4097 44100 16 8194 (List.replicate 8194 0)).length := by
    unfold pcmStream
    rw [List.length_append, hlen]
    omega
  have hh : (readHeader NewWAV (pcmStream 4097 44100 16 8194 (List.replicate 8194 0))).1
      = pcmHeader 4097 44100 16 8194 := by
    have h1 := readHeader_fst_take NewWAV (pcmStream 4097 44100 16 8194 (List.replicate 8194 0))
      44 (le_refl 44)
    have h2 : (pcmStream 4097 44100 16 8194 (List.replicate 8194 0)).take 44
        = write (pcmHeader 4097 44100 16 8194) := by
      unfold pcmStream
      rw [List.take_left' hlen]
    rw [← h1, h2]
    decide
  have hr : (readHeader NewWAV (pcmStream 4097 44100 16 8194 (List.replicate 8194 0))).2
      = List.replicate (4097 * 2) 0 := by
    rw [readHeader_rest NewWAV _ hs]
    unfold pcmStream
    rw [List.drop_left' hlen]
  refine ⟨?_, by decide, by decide, by decide, by decide, by decide, ?_⟩
  · unfold pcmStream
    rw [List.length_append, hlen, List.length_replicate]
  · rw [read_of_width _ (by rw [hh]; decide), hh, hr]
    have hn : 8 * (pcmHeader 4097 44100 16 8194).subchunk2Size % 2 ^ 32
        / ((pcmHeader 4097 44100 16 8194).numChannels
          * (pcmHeader 4097 44100 16 8194).bitsPerSample % 2 ^ 16) = 4097 := by decide
    have hss : (pcmHeader 4097 44100 16 8194).numChannels
        * (pcmHeader 4097 44100 16 8194).bitsPerSample % 2 ^ 16 / 8 = 2 := by decide
    rw [hn, hss, readFrames_replicate 2 4097 0]
    rfl

/-- C16, the code at a failing input: a canonical 8-bit mono header that
declares a data chunk of 2^29 bytes.  The exact quotient `8 * 2^29 / (1 * 8)`
is 2^29 frames, but the `uint32` product `8 * subchunk2Size` wraps to 0 and
`read` sets `NumSamples` to 0. -/
theorem read_numSamples_wraps :
    read NewWAV (pcmStream 1 8000 8 536870912 [])
        = Except.ok { pcmTrack 1 8000 8 536870912 [] with NumSamples := 0 }
      ∧ (pcmTrack 1 8000 8 536870912 []).subchunk2Size = 536870912
      ∧ 8 * (pcmTrack 1 8000 8 536870912 []).subchunk2Size
          / ((pcmTrack 1 8000 8 536870912 []).numChannels
            * (pcmTrack 1 8000 8 536870912 []).bitsPerSample) = 536870912 := by
  decide

theorem read_derived_in_range (s : Reader) (t : WAV) (h : read NewWAV s = Except.ok t)
    (h32 : 8 * t.subchunk2Size < 2 ^ 32) (h16 : t.numChannels * t.bitsPerSample < 2 ^ 16) :
    t.NumSamples = 8 * t.subchunk2Size / (t.numChannels * t.bitsPerSample)
      ∧ t.SampleSize = t.numChannels * t.bitsPerSample / 8 := by
  have d := read_decoded s t h
  rw [d.numSamples_eq, d.sampleSize_eq, Nat.mod_eq_of_lt h32, Nat.mod_eq_of_lt h16]
  exact ⟨rfl, rfl⟩

theorem readFrames_zero (n : Nat) (r : Reader) :
    readFrames 0 n [] r = List.replicate n [] := by
  induction n generalizing r with
  | zero => rfl
  | succ n ih =>
    rw [readFrames_succ, List.replicate_succ]
    have hf : readFrame 0 r = ([], r) := by simp [readFrame]
    rw [hf, ih]

/-- C17, refuted as stated: a header with `bits_per_sample = 0` (zero
product) makes `read` fault with the integer division by zero, and a header
with one channel of 4 bits (product 4, block align 0) makes `read` return a
track, of two empty frames. -/
theorem read_zero_block_align_unguarded :
    (pcmHeader 1 8000 0 0).numChannels * (pcmHeader 1 8000 0 0).bitsPerSample / 8 = 0
      ∧ read NewWAV (pcmStream 1 8000 0 0 []) = Except.error Fault.integerDivideByZero
      ∧ (pcmHeader 1 8000 4 1).numChannels * (pcmHeader 1 8000 4 1).bitsPerSample / 8 = 0
      ∧ read NewWAV (pcmStream 1 8000 4 1 []) = Except.ok (pcmTrack 1 8000 4 1 [[], []]) := by
  decide

/-- C17, amended: `read` has no guard for a zero block align.  When the
`uint16` product `numChannels * bitsPerSample` of the header is zero, `read`
fails by the run-time panic of the integer division of line 66; when the
product is not zero but below 8, so that the frame size is zero, `read`
returns a track whose `NumSamples` frames are all empty. -/
theorem read_zero_block_align (s : Reader) :
    (((readHeader NewWAV s).1.numChannels * (readHeader NewWAV s).1.bitsPerSample) % 2 ^ 16 = 0 →
        read NewWAV s = Except.error Fault.integerDivideByZero)
      ∧ (((readHeader NewWAV s).1.numChannels * (readHeader NewWAV s).1.bitsPerSample)
            % 2 ^ 16 ≠ 0 →
          (((readHeader NewWAV s).1.numChannels * (readHeader NewWAV s).1.bitsPerSample)
            % 2 ^ 16) / 8 = 0 →
          ∃ t, read NewWAV s = Except.ok t ∧ t.SampleSize = 0
            ∧ t.data = List.replicate t.NumSamples []) := by
  constructor
  · intro hw
    unfold read
    simp only [if_pos hw]
  · intro hw h8
    refine ⟨_, read_of_width s hw, ?_, ?_⟩
    · exact h8
    · simp only [h8]
      exact readFrames_zero _ _

/-! ## The container: `write` after `read` -/

theorem readTag_bytes_take (old : Tag) (r : Reader) (h : 4 ≤ r.length) :
    (readTag old r).1.bytes = r.take 4 := by
  match r, h with
  | _ :: _ :: _ :: _ :: _, _ => rfl

theorem putUint32_read (old : Nat) (r : Reader) (h : 4 ≤ r.length) :
    putUint32 (readUint32 old r).1 = r.take 4 := by
  match r, h with
  | a :: b :: c :: d :: rest, _ =>
    have ha := a.isLt
    have hb := b.isLt
    have hc := c.isLt
    have hd := d.isLt
    simp only [readUint32, putUint32, List.take_succ_cons, List.take_zero, List.cons.injEq,
      and_true]
    refine ⟨?_, ?_, ?_, ?_⟩ <;> apply Fin.ext <;> simp only [byte_val] <;> omega

theorem putUint16_read (old : Nat) (r : Reader) (h : 2 ≤ r.length) :
    putUint16 (readUint16 old r).1 = r.take 2 := by
  match r, h with
  | a :: b :: rest, _ =>
    have ha := a.isLt
    have hb := b.isLt
    simp only [readUint16, putUint16, List.take_succ_cons, List.take_zero, List.cons.injEq,
      and_true]
    refine ⟨?_, ?_⟩ <;> apply Fin.ext <;> simp only [byte_val] <;> omega

theorem writeFrames_readFrames (ss n : Nat) (r : Reader) (h : n * ss ≤ r.length) :
    writeFrames (readFrames ss n [] r) = r.take (n * ss) := by
  induction n generalizing r with
  | zero => simp [readFrames, writeFrames]
  | succ n ih =>
    have hmul : (n + 1) * ss = ss + n * ss := by rw [Nat.succ_mul, Nat.add_comm]
    have hss : ss ≤ r.length := by omega
    rw [readFrames_succ, writeFrames, hmul, List.take_add]
    have hf : readFrame ss r = (r.take ss, r.drop ss) := by simp [readFrame, hss]
    rw [hf, ih (r.drop ss) (by rw [List.length_drop]; omega)]

theorem write_header_take (s : Reader) (hs : 44 ≤ s.length) (t : WAV)
    (ht : SameHeader t (readHeader NewWAV s).1) :
    write t = s.take 44 ++ writeFrames t.data := by
  obtain ⟨h1, h2, h3, h4, h5, h6, h7, h8, h9, h10, h11, h12, h13⟩ := ht
  rw [readHeader_fst NewWAV s hs] at h1 h2 h3 h4 h5 h6 h7 h8 h9 h10 h11 h12 h13
  simp only at h1 h2 h3 h4 h5 h6 h7 h8 h9 h10 h11 h12 h13
  unfold write
  rw [h1, h2, h3, h4, h5, h6, h7, h8, h9, h10, h11, h12, h13]
  rw [readTag_bytes_take _ s (by omega),
    putUint32_read _ (s.drop 4) (by rw [List.length_drop]; omega),
    readTag_bytes_take _ (s.drop 8) (by rw [List.length_drop]; omega),
    readTag_bytes_take _ (s.drop 12) (by rw [List.length_drop]; omega),
    putUint32_read _ (s.drop 16) (by rw [List.length_drop]; omega),
    putUint16_read _ (s.drop 20) (by rw [List.length_drop]; omega),
    putUint16_read _ (s.drop 22) (by rw [List.length_drop]; omega),
    putUint32_read _ (s.drop 24) (by rw [List.length_drop]; omega),
    putUint32_read _ (s.drop 28) (by rw [List.length_drop]; omega),
    putUint16_read _ (s.drop 32) (by rw [List.length_drop]; omega),
    putUint16_read _ (s.drop 34) (by rw [List.length_drop]; omega),
    readTag_bytes_take _ (s.drop 36) (by rw [List.length_drop]; omega),
    putUint32_read _ (s.drop 40) (by rw [List.length_drop]; omega)]
  rw [← List.take_add s 4 4, ← List.take_add s 8 4, ← List.take_add s 12 4,
    ← List.take_add s 16 4, ← List.take_add s 20 2, ← List.take_add s 22 2,
    ← List.take_add s 24 4, ← List.take_add s 28 4, ← List.take_add s 32 2,
    ← List.take_add s 34 2, ← List.take_add s 36 4, ← List.take_add s 40 4]

theorem frames_fit (p size : Nat) (h0 : p ≠ 0) (h8 : 8 ∣ p) (hd : p / 8 ∣ size) :
    8 * size / p * (p / 8) = size := by
  obtain ⟨q, rfl⟩ := h8
  obtain ⟨m, rfl⟩ := hd
  have hq : 0 < q := by
    rcases Nat.eq_zero_or_pos q with h | h
    · subst h; exact absurd rfl h0
    · exact h
  rw [Nat.mul_div_cancel_left q (by decide : 0 < 8)]
  have h1 : 8 * (q * m) = 8 * q * m := by rw [Nat.mul_assoc]
  rw [h1, Nat.mul_div_cancel_left m (Nat.mul_pos (by decide : 0 < 8) hq), Nat.mul_comm]

theorem write_read_fit (s : Reader) (hs : 44 ≤ s.length)
    (hw : ((readHeader NewWAV s).1.numChannels * (readHeader NewWAV s).1.bitsPerSample)
      % 2 ^ 16 ≠ 0)
    (hfit : (((8 * (readHeader NewWAV s).1.subchunk2Size) % 2 ^ 32)
        / (((readHeader NewWAV s).1.numChannels * (readHeader NewWAV s).1.bitsPerSample) % 2 ^ 16))
      * ((((readHeader NewWAV s).1.numChannels * (readHeader NewWAV s).1.bitsPerSample) % 2 ^ 16)
        / 8) = s.length - 44) :
    ∃ t, read NewWAV s = Except.ok t ∧ write t = s := by
  refine ⟨_, read_of_width s hw, ?_⟩
  refine (write_header_take s hs _ ?_).trans ?_
  · exact ⟨rfl, rfl, rfl, rfl, rfl, rfl, rfl, rfl, rfl, rfl, rfl, rfl, rfl⟩
  · have hd : (s.drop 44).take (s.length - 44) = s.drop 44 :=
      List.take_of_length_le (by rw [List.length_drop])
    simp only
    rw [readHeader_rest NewWAV s hs,
      writeFrames_readFrames _ _ _ (by rw [hfit, List.length_drop]), hfit, hd,
      List.take_append_drop]

/-- C20, the code at a failing input: a canonical header with 4096 channels
of 16 bits and an empty data chunk.  The product `4096 * 16 = 65536` is a non-zero
multiple of 8, the chunk size 0 is a multiple of the frame size and
`8 * 0 < 2^32`, and no payload byte follows; but the `uint16` product of line
66 is 0 and `read` faults with the integer division by zero, so there is no
track to write back. -/
theorem write_read_wide_product_faults :
    (pcmStream 4096 44100 16 0 []).length = 44 + 0
      ∧ (readHeader NewWAV (pcmStream 4096 44100 16 0 [])).1.numChannels
          * (readHeader NewWAV (pcmStream 4096 44100 16 0 [])).1.bitsPerSample = 65536
      ∧ 65536 % 8 = 0
      ∧ (readHeader NewWAV (pcmStream 4096 44100 16 0 [])).1.subchunk2Size = 0
      ∧ read NewWAV (pcmStream 4096 44100 16 0 []) = Except.error Fault.integerDivideByZero := by
  decide

/-- Encode undoes decode where line 66 does not overflow: for every byte
string `b` made of a 44-byte header whose
product `numChannels * bitsPerSample` is a non-zero multiple of 8 below
2^16, followed by exactly `subchunk2Size` payload bytes, where
`subchunk2Size` is a multiple of the frame size and
`8 * subchunk2Size < 2^32`, `read` returns a track and `write` of that track
produces exactly `b`. -/
theorem write_read_wellformed (b : Reader) (hb : 44 ≤ b.length)
    (h16 : (readHeader NewWAV b).1.numChannels * (readHeader NewWAV b).1.bitsPerSample < 2 ^ 16)
    (h0 : (readHeader NewWAV b).1.numChannels * (readHeader NewWAV b).1.bitsPerSample ≠ 0)
    (h8 : 8 ∣ (readHeader NewWAV b).1.numChannels * (readHeader NewWAV b).1.bitsPerSample)
    (hlen : b.length = 44 + (readHeader NewWAV b).1.subchunk2Size)
    (hmul : (readHeader NewWAV b).1.numChannels * (readHeader NewWAV b).1.bitsPerSample / 8
      ∣ (readHeader NewWAV b).1.subchunk2Size)
    (h32 : 8 * (readHeader NewWAV b).1.subchunk2Size < 2 ^ 32) :
    ∃ t, read NewWAV b = Except.ok t ∧ write t = b := by
  apply write_read_fit b hb
  · rw [Nat.mod_eq_of_lt h16]
    exact h0
  · rw [Nat.mod_eq_of_lt h16, Nat.mod_eq_of_lt h32, frames_fit _ _ h0 h8 hmul, hlen]
    simp

/-- Encode undoes decode at a 16-bit stereo stream of two frames. -/
theorem write_read_wellformed_witness :
    ∃ t, read NewWAV (pcmStream 2 44100 16 8 [1, 0, 2, 0, 3, 0, 4, 0]) = Except.ok t
      ∧ write t = pcmStream 2 44100 16 8 [1, 0, 2, 0, 3, 0, 4, 0] :=
  write_read_wellformed (pcmStream 2 44100 16 8 [1, 0, 2, 0, 3, 0, 4, 0])
    (by decide) (by decide) (by decide) (by decide) (by decide) (by decide) (by decide)

/-! ## The `float64` operations -/

theorem exactOps_laws : Float64Laws exactOps id := by
  constructor
  · intro n _
    rfl
  · intro x a hx
    simp only [id] at hx
    subst hx
    rfl
  · intro x y a b hx hy
    simp only [id] at hx hy
    subst hx hy
    simp [exactOps]
  · intro x y a b hx hy
    simp only [id] at hx hy
    subst hx hy
    simp [exactOps]
  · intro x a hx
    simp only [id] at hx
    subst hx
    simp [exactOps]
  · intro x y a b n hx hy hn _
    simp only [id] at hx hy
    subst hx hy
    simp [exactOps, hn]
  · intro x y a b n hx hy hb hn _
    simp only [id] at hx hy
    subst hx hy
    simp [exactOps, hb, hn]
  · intro x y a b hx hy _ _
    simp only [id] at hx hy
    subst hx hy
    refine ⟨a * b, rfl, ?_⟩
    simp only [sub_self, abs_zero]
    exact div_nonneg (abs_nonneg _) (pow_nonneg (by norm_num) 53)
  · intro x y a b hx hy hb _ _
    simp only [id] at hx hy
    subst hx hy
    refine ⟨a / b, by simp [exactOps, hb], ?_⟩
    simp only [sub_self, abs_zero]
    exact div_nonneg (abs_nonneg _) (pow_nonneg (by norm_num) 53)
  · intro n _
    simp [exactOps]
  · intro x y a hx hy
    simp only [id] at hx hy
    subst hx hy
    simp [exactOps]
  · intro x a hx ha
    simp only [id] at hx
    subst hx
    have h16 : low16 (truncQ a) < 2 ^ 16 := by
      unfold low16
      omega
    have ha2 : |a| < 2147483648 := by
      have : (2 : ℚ) ^ 31 = 2147483648 := by norm_num
      rw [← this]
      exact ha
    simp only [exactOps, if_pos ha2]
    exact Nat.mod_eq_of_lt h16

/-! ## Truncation and 16-bit samples -/

theorem truncQ_intCast (n : Int) : truncQ (n : ℚ) = n := by
  unfold truncQ
  split
  · exact Int.floor_intCast n
  · rw [← Int.cast_neg, Int.floor_intCast, neg_neg]

theorem truncQ_nonneg (a : ℚ) (h : 0 ≤ a) : 0 ≤ truncQ a := by
  unfold truncQ
  rw [if_pos h]
  exact Int.floor_nonneg.mpr h

theorem truncQ_nonpos (a : ℚ) (h : a ≤ 0) : truncQ a ≤ 0 := by
  unfold truncQ
  split
  · have : a = 0 := le_antisymm h ‹0 ≤ a›
    subst this
    simp
  · have : 0 ≤ ⌊-a⌋ := Int.floor_nonneg.mpr (by linarith)
    omega

theorem truncQ_abs (a : ℚ) : |truncQ a| = ⌊|a|⌋ := by
  unfold truncQ
  split
  · rename_i h
    rw [abs_of_nonneg h, abs_of_nonneg (Int.floor_nonneg.mpr h)]
  · rename_i h
    have h2 : a < 0 := lt_of_not_ge h
    rw [abs_of_neg h2, abs_neg, abs_of_nonneg (Int.floor_nonneg.mpr (by linarith))]

theorem truncQ_abs_le (a : ℚ) (n : Int) (h : |a| < n + 1) : |truncQ a| ≤ n := by
  rw [truncQ_abs]
  have : ⌊|a|⌋ < n + 1 := Int.floor_lt.mpr (by push_cast; exact h)
  omega

theorem truncQ_abs_ge (a : ℚ) (n : Int) (h : (n : ℚ) ≤ |a|) : n ≤ |truncQ a| := by
  rw [truncQ_abs]
  exact Int.le_floor.mpr h

theorem int16_low16 (t : Int) (h1 : -32768 ≤ t) (h2 : t ≤ 32767) : int16 (low16 t) = t := by
  unfold int16 low16
  split <;> omega

theorem int16_low16_abs (t : Int) (h : |t| ≤ 32768) : |int16 (low16 t)| = |t| := by
  have h1 := abs_le.mp h
  by_cases ht : t = 32768
  · subst ht
    decide
  · rw [int16_low16 t h1.1 (by omega)]

theorem low16_int16 (v : Nat) : low16 (int16 v) = v % 2 ^ 16 := by
  unfold int16 low16
  split <;> omega

theorem int16_abs_le (v : Nat) : |int16 v| ≤ 32768 := by
  unfold int16
  rw [abs_le]
  split <;> omega

theorem int16_mod (v : Nat) : int16 (v % 2 ^ 16) = int16 v := by
  unfold int16
  rw [Nat.mod_mod]

theorem sampleOf_storedFrame (ss v : Nat) : sampleOf (storedFrame ss v) = some (int16 v) := by
  unfold storedFrame sampleOf
  simp only [byte_val, Option.some.injEq]
  rw [← int16_mod v]
  congr 1
  omega

theorem storedFrame_length (ss v : Nat) (h : 2 ≤ ss) : (storedFrame ss v).length = ss := by
  unfold storedFrame
  simp only [List.length_cons, List.length_replicate]
  omega

theorem storedFrame_mod (ss v : Nat) : storedFrame ss (v % 2 ^ 16) = storedFrame ss v := by
  unfold storedFrame
  have h1 : byte (v % 2 ^ 16) = byte v := by
    apply Fin.ext
    simp only [byte_val]
    omega
  have h2 : byte (v % 2 ^ 16 / 256) = byte (v / 256) := by
    apply Fin.ext
    simp only [byte_val]
    omega
  rw [h1, h2]

theorem peakOf_nonneg (fs : List Frame) : 0 ≤ peakOf fs := by
  cases fs with
  | nil => exact le_refl 0
  | cons f fs => exact le_trans (abs_nonneg _) (le_max_left _ _)

theorem peakOf_le (fs : List Frame) (b : Int) (hb : 0 ≤ b)
    (h : ∀ f ∈ fs, |(sampleOf f).getD 0| ≤ b) : peakOf fs ≤ b := by
  induction fs with
  | nil => exact hb
  | cons f fs ih =>
    exact max_le (h f (List.mem_cons_self f fs))
      (ih (fun g hg => h g (List.mem_cons_of_mem f hg)))

theorem le_peakOf (fs : List Frame) (f : Frame) (hf : f ∈ fs) :
    |(sampleOf f).getD 0| ≤ peakOf fs := by
  induction fs with
  | nil => cases hf
  | cons g fs ih =>
    rcases List.mem_cons.mp hf with h | h
    · subst h
      exact le_max_left _ _
    · exact le_trans (ih h) (le_max_right _ _)

theorem peakOf_attained (fs : List Frame) (h : peakOf fs ≠ 0) :
    ∃ f ∈ fs, |(sampleOf f).getD 0| = peakOf fs := by
  induction fs with
  | nil => exact absurd rfl h
  | cons g fs ih =>
    by_cases hc : peakOf fs ≤ |(sampleOf g).getD 0|
    · exact ⟨g, List.mem_cons_self g fs, (max_eq_left hc).symm⟩
    · have hm : peakOf (g :: fs) = peakOf fs := max_eq_right (le_of_not_le hc)
      have h0 : peakOf fs ≠ 0 := by
        rw [← hm]
        exact h
      obtain ⟨f, hf, hfe⟩ := ih h0
      exact ⟨f, List.mem_cons_of_mem g hf, by rw [hm]; exact hfe⟩

theorem sampleOf_abs_le (f : Frame) : |(sampleOf f).getD 0| ≤ 32768 := by
  match f with
  | [] => decide
  | [a] => simp [sampleOf]
  | a :: b :: rest => exact int16_abs_le _

/-! ## The loops of `normalize` and `compress` -/

theorem frameLoop_spec (ss : Nat) (g : Int → Nat)
    (loop : Nat → Nat → List Frame → Except Fault (List Frame))
    (hzero : ∀ i arr, loop 0 i arr = Except.ok arr)
    (hstep : ∀ n i arr a b rest, arr[i]? = some (a :: b :: rest) →
      loop (n + 1) i arr
        = loop n (i + 1) (arr.set i (storedFrame ss (g (int16 (a.val + 256 * b.val))))))
    (n i : Nat) (arr : List Frame)
    (harr : ∀ j, i ≤ j → j < i + n → ∃ f, arr[j]? = some f ∧ 2 ≤ f.length) :
    ∃ out, loop n i arr = Except.ok out ∧ out.length = arr.length
      ∧ ∀ j, out[j]? = if i ≤ j ∧ j < i + n
          then (arr[j]?).map (fun f => storedFrame ss (g ((sampleOf f).getD 0)))
          else arr[j]? := by
  induction n generalizing i arr with
  | zero =>
    refine ⟨arr, hzero i arr, rfl, ?_⟩
    intro j
    rw [if_neg (by omega)]
  | succ n ih =>
    obtain ⟨f, hf, hlen⟩ := harr i (Nat.le_refl i) (by omega)
    match f, hlen with
    | a :: b :: rest, _ =>
      have hi : i < arr.length := (List.getElem?_eq_some.mp hf).1
      have harr1 : ∀ j, i + 1 ≤ j → j < i + 1 + n →
          ∃ f, (arr.set i (storedFrame ss (g (int16 (a.val + 256 * b.val)))))[j]? = some f
            ∧ 2 ≤ f.length := by
        intro j h1 h2
        rw [List.getElem?_set_ne (by omega)]
        exact harr j (by omega) (by omega)
      obtain ⟨out, hout, hlenout, hget⟩ := ih (i + 1) _ harr1
      refine ⟨out, ?_, ?_, ?_⟩
      · rw [hstep n i arr a b rest hf]
        exact hout
      · rw [hlenout, List.length_set]
      · intro j
        rw [hget j]
        by_cases hji : j = i
        · subst hji
          rw [if_neg (show ¬ (j + 1 ≤ j ∧ j < j + 1 + n) by omega), List.getElem?_set_self hi,
            if_pos (show j ≤ j ∧ j < j + (n + 1) by omega), hf]
          rfl
        · rw [List.getElem?_set_ne (fun h => hji h.symm)]
          by_cases hr : i ≤ j ∧ j < i + (n + 1)
          · rw [if_pos hr, if_pos (show i + 1 ≤ j ∧ j < i + 1 + n by omega)]
          · rw [if_neg hr, if_neg (show ¬ (i + 1 ≤ j ∧ j < i + 1 + n) by omega)]

theorem frameLoop_map (ss : Nat) (g : Int → Nat)
    (loop : Nat → Nat → List Frame → Except Fault (List Frame))
    (hzero : ∀ i arr, loop 0 i arr = Except.ok arr)
    (hstep : ∀ n i arr a b rest, arr[i]? = some (a :: b :: rest) →
      loop (n + 1) i arr
        = loop n (i + 1) (arr.set i (storedFrame ss (g (int16 (a.val + 256 * b.val))))))
    (arr : List Frame) (harr : ∀ f ∈ arr, 2 ≤ f.length) :
    loop arr.length 0 arr
      = Except.ok (arr.map (fun f => storedFrame ss (g ((sampleOf f).getD 0)))) := by
  obtain ⟨out, hout, hlen, hget⟩ := frameLoop_spec ss g loop hzero hstep arr.length 0 arr
    (fun j _ h2 => ⟨arr[j], List.getElem?_eq_getElem (by omega),
      harr _ (List.getElem_mem (by omega))⟩)
  rw [hout]
  congr 1
  apply List.ext_getElem?
  intro j
  rw [hget j, List.getElem?_map]
  by_cases hj : j < arr.length
  · rw [if_pos ⟨Nat.zero_le j, by omega⟩]
  · rw [if_neg (by omega), List.getElem?_eq_none (by omega)]
    rfl

theorem scaleLoop_step {F : Type} (ops : Float64Ops F) (ss : Nat) (normNum : F) (hss : 2 ≤ ss)
    (n i : Nat) (arr : List Frame) (a b : Byte) (rest : List Byte)
    (hf : arr[i]? = some (a :: b :: rest)) :
    scaleLoop ops ss normNum (n + 1) i arr
      = scaleLoop ops ss normNum n (i + 1) (arr.set i (storedFrame ss
          (ops.toUint16 (ops.mul (ops.ofInt (int16 (a.val + 256 * b.val))) normNum) % 2 ^ 16))) := by
  obtain ⟨k, rfl⟩ : ∃ k, ss = k + 2 := ⟨ss - 2, by omega⟩
  simp only [scaleLoop, index, hf, Uint16, List.replicate_succ, PutUint16, storedFrame,
    Nat.add_sub_cancel]

theorem compressLoop_step {F : Type} (ops : Float64Ops F) (ss : Nat) (T W : F) (R : Int)
    (hss : 2 ≤ ss) (n i : Nat) (arr : List Frame) (a b : Byte) (rest : List Byte)
    (hf : arr[i]? = some (a :: b :: rest)) :
    compressLoop ops ss T W R (n + 1) i arr
      = compressLoop ops ss T W R n (i + 1) (arr.set i (storedFrame ss
          (ops.toUint16 (compressSample ops T W R (int16 (a.val + 256 * b.val))) % 2 ^ 16))) := by
  obtain ⟨k, rfl⟩ : ∃ k, ss = k + 2 := ⟨ss - 2, by omega⟩
  simp only [compressLoop, index, hf, Uint16, List.replicate_succ, PutUint16, storedFrame,
    Nat.add_sub_cancel]

theorem scaleLoop_map {F : Type} (ops : Float64Ops F) (ss : Nat) (normNum : F) (hss : 2 ≤ ss)
    (arr : List Frame) (harr : ∀ f ∈ arr, 2 ≤ f.length) :
    scaleLoop ops ss normNum arr.length 0 arr
      = Except.ok (arr.map (fun f => storedFrame ss
          (ops.toUint16 (ops.mul (ops.ofInt ((sampleOf f).getD 0)) normNum) % 2 ^ 16))) :=
  frameLoop_map ss (fun x => ops.toUint16 (ops.mul (ops.ofInt x) normNum) % 2 ^ 16)
    (scaleLoop ops ss normNum) (fun _ _ => rfl) (scaleLoop_step ops ss normNum hss) arr harr

theorem compressLoop_map {F : Type} (ops : Float64Ops F) (ss : Nat) (T W : F) (R : Int)
    (hss : 2 ≤ ss) (arr : List Frame) (harr : ∀ f ∈ arr, 2 ≤ f.length) :
    compressLoop ops ss T W R arr.length 0 arr
      = Except.ok (arr.map (fun f => storedFrame ss
          (ops.toUint16 (compressSample ops T W R ((sampleOf f).getD 0)) % 2 ^ 16))) :=
  frameLoop_map ss (fun x => ops.toUint16 (compressSample ops T W R x) % 2 ^ 16)
    (compressLoop ops ss T W R) (fun _ _ => rfl) (compressLoop_step ops ss T W R hss) arr harr

theorem peakLoop_val {F : Type} (ops : Float64Ops F) (val : F → Option ℚ)
    (laws : Float64Laws ops val) (data : List Frame) (n i : Nat) (peak : F) (p : Int)
    (hp : val peak = some (p : ℚ)) (hp0 : 0 ≤ p)
    (h : ∀ j, i ≤ j → j < i + n → ∃ f, data[j]? = some f ∧ 2 ≤ f.length) :
    ∃ pk, peakLoop ops data n i peak = Except.ok pk
      ∧ val pk = some ((max p (peakOf ((data.drop i).take n)) : Int) : ℚ) := by
  induction n generalizing i peak p with
  | zero =>
    refine ⟨peak, rfl, ?_⟩
    rw [List.take_zero, hp]
    simp only [peakOf, max_eq_left hp0]
  | succ n ih =>
    obtain ⟨f, hf, hlen⟩ := h i (Nat.le_refl i) (by omega)
    match f, hlen with
    | a :: b :: rest, _ =>
      have hi : i < data.length := (List.getElem?_eq_some.mp hf).1
      have hx : val (ops.abs (ops.ofInt (int16 (a.val + 256 * b.val))))
          = some ((|int16 (a.val + 256 * b.val)| : Int) : ℚ) := by
        rw [Int.cast_abs]
        refine laws.abs_val _ _ (laws.ofInt_val _ ?_)
        exact le_trans (int16_abs_le _) (by norm_num)
      have hlt := laws.lt_iff _ _ _ _ hp hx
      have hdrop : (data.drop i).take (n + 1)
          = (a :: b :: rest) :: (data.drop (i + 1)).take n := by
        rw [List.drop_eq_getElem_cons hi, List.take_succ_cons]
        congr 1
        exact (List.getElem?_eq_some.mp hf).2
      simp only [peakLoop, index, hf, Uint16]
      by_cases hc : ops.lt peak (ops.abs (ops.ofInt (int16 (a.val + 256 * b.val)))) = true
      · rw [if_pos hc]
        obtain ⟨pk, hpk, hv⟩ := ih (i + 1) _ _ hx (abs_nonneg _) (fun j h1 h2 => h j (by omega) (by omega))
        refine ⟨pk, hpk, ?_⟩
        rw [hv, hdrop]
        have hlt2 : p < |int16 (a.val + 256 * b.val)| := by exact_mod_cast hlt.mp hc
        congr 2
        simp only [peakOf, sampleOf, Option.getD_some]
        omega
      · rw [if_neg hc]
        obtain ⟨pk, hpk, hv⟩ := ih (i + 1) _ _ hp hp0 (fun j h1 h2 => h j (by omega) (by omega))
        refine ⟨pk, hpk, ?_⟩
        rw [hv, hdrop]
        have hlt2 : ¬ p < |int16 (a.val + 256 * b.val)| := fun hh =>
          hc (hlt.mpr (by exact_mod_cast hh))
        congr 2
        simp only [peakOf, sampleOf, Option.getD_some]
        omega

theorem normalize_map {F : Type} (ops : Float64Ops F) (t : WAV) (d : F)
    (hlen : t.data.length = t.NumSamples) (hss : 2 ≤ t.SampleSize)
    (hfr : ∀ f ∈ t.data, 2 ≤ f.length) :
    ∃ pk, peakLoop ops t.data t.data.length 0 (ops.ofInt 0) = Except.ok pk
      ∧ normalize ops t d = Except.ok { t with data := t.data.map (fun f =>
          storedFrame t.SampleSize (ops.toUint16
            (ops.mul (ops.ofInt ((sampleOf f).getD 0)) (ops.div (amplitude ops t d) pk))
              % 2 ^ 16)) } := by
  obtain ⟨pk, hpk⟩ := peakLoop_ok ops t.data t.data.length 0 (ops.ofInt 0)
    (fun j _ h2 => ⟨t.data[j], List.getElem?_eq_getElem (by omega),
      hfr _ (List.getElem_mem (by omega))⟩)
  refine ⟨pk, hpk, ?_⟩
  unfold normalize
  simp only
  rw [← hlen, hpk]
  simp only
  rw [show (ops.mul
      (ops.pow (ops.ofInt 2) (ops.ofInt (((t.bitsPerSample + (2 ^ 16 - 1)) % 2 ^ 16 : Nat) : Int)))
      (ops.pow (ops.ofInt 10) (ops.div d (ops.ofInt 20)))) = amplitude ops t d from rfl,
    scaleLoop_map ops t.SampleSize _ hss t.data hfr]

theorem compress_map {F : Type} (ops : Float64Ops F) (t : WAV) (thresh : F) (R : Int)
    (makeup kneeWidth : F) (hmk : ops.ne makeup (ops.ofInt 1) = false)
    (hlen : t.data.length = t.NumSamples) (hss : 2 ≤ t.SampleSize)
    (hfr : ∀ f ∈ t.data, 2 ≤ f.length) :
    compress ops t thresh R makeup kneeWidth = Except.ok { t with data := t.data.map (fun f =>
      storedFrame t.SampleSize (ops.toUint16
        (compressSample ops (amplitude ops t thresh) (amplitude ops t kneeWidth) R
          ((sampleOf f).getD 0)) % 2 ^ 16)) } := by
  unfold compress
  simp only
  rw [← hlen]
  rw [show (ops.mul
      (ops.pow (ops.ofInt 2) (ops.ofInt (((t.bitsPerSample + (2 ^ 16 - 1)) % 2 ^ 16 : Nat) : Int)))
      (ops.pow (ops.ofInt 10) (ops.div thresh (ops.ofInt 20)))) = amplitude ops t thresh from rfl,
    show (ops.mul
      (ops.pow (ops.ofInt 2) (ops.ofInt (((t.bitsPerSample + (2 ^ 16 - 1)) % 2 ^ 16 : Nat) : Int)))
      (ops.pow (ops.ofInt 10) (ops.div kneeWidth (ops.ofInt 20))))
        = amplitude ops t kneeWidth from rfl,
    compressLoop_map ops t.SampleSize _ _ R hss t.data hfr]
  simp only [hmk, Bool.false_eq_true, if_false]

theorem peak_val {F : Type} (ops : Float64Ops F) (val : F → Option ℚ)
    (laws : Float64Laws ops val) (data : List Frame) (pk : F)
    (hfr : ∀ f ∈ data, 2 ≤ f.length)
    (hpk : peakLoop ops data data.length 0 (ops.ofInt 0) = Except.ok pk) :
    val pk = some ((peakOf data : Int) : ℚ) := by
  obtain ⟨pk2, hpk2, hv⟩ := peakLoop_val ops val laws data data.length 0 (ops.ofInt 0) 0
    (laws.ofInt_val 0 (by norm_num)) (le_refl 0)
    (fun j _ h2 => ⟨data[j], List.getElem?_eq_getElem (by omega),
      hfr _ (List.getElem_mem (by omega))⟩)
  rw [hpk] at hpk2
  cases hpk2
  rw [hv, List.drop_zero, List.take_length, max_eq_right (peakOf_nonneg data)]

theorem decoded_frames_two (t : WAV) (ht : Decoded t) (h16 : t.bitsPerSample = 16) :
    ∀ f ∈ t.data, 2 ≤ f.length := by
  intro f hf
  rw [ht.frame_length f hf]
  exact sampleSize_of_sixteen t ht h16

theorem amplitude_full_scale {F : Type} (ops : Float64Ops F) (val : F → Option ℚ)
    (laws : Float64Laws ops val) (t : WAV) (h16 : t.bitsPerSample = 16) :
    val (amplitude ops t (ops.ofInt 0)) = some 32768 := by
  unfold amplitude
  rw [h16]
  have h2 := laws.pow_two 15 (by norm_num)
  have hd : val (ops.div (ops.ofInt 0) (ops.ofInt 20)) = some 0 := by
    have := laws.div_exact (ops.ofInt 0) (ops.ofInt 20) 0 20 0
      (by simpa using laws.ofInt_val 0 (by norm_num))
      (by simpa using laws.ofInt_val 20 (by norm_num)) (by norm_num) (by norm_num) (by norm_num)
    simpa using this
  have h10 := laws.pow_zero (ops.ofInt 10) _ 10
    (by simpa using laws.ofInt_val 10 (by norm_num)) hd
  have := laws.mul_exact _ _ _ _ 32768 h2 h10 (by norm_num) (by norm_num)
  simpa using this

/-! ## Rounding at full scale -/

theorem gain_bounds (P : Int) (g : ℚ) (hP : 1 ≤ P) (hP2 : P ≤ 32768)
    (hg : |g - 32768 / (P : ℚ)| ≤ |32768 / (P : ℚ)| / 2 ^ 53) :
    (P : ℚ) * |g| ≤ 32768 + 32768 / 2 ^ 53 ∧ 32768 - 32768 / 2 ^ 53 ≤ (P : ℚ) * |g| := by
  have hPq : (0 : ℚ) < P := by exact_mod_cast (show (0 : Int) < P by omega)
  have hG : (0 : ℚ) < 32768 / (P : ℚ) := div_pos (by norm_num) hPq
  rw [abs_of_pos hG] at hg
  have hPG : (P : ℚ) * (32768 / (P : ℚ)) = 32768 := by
    field_simp
  have h1 := abs_le.mp hg
  have hgpos : 0 < g := by
    have : 32768 / (P : ℚ) / 2 ^ 53 < 32768 / (P : ℚ) := by
      apply div_lt_self hG
      norm_num
    linarith [h1.1]
  rw [abs_of_pos hgpos]
  constructor
  · have : (P : ℚ) * g ≤ (P : ℚ) * (32768 / (P : ℚ) + 32768 / (P : ℚ) / 2 ^ 53) :=
      mul_le_mul_of_nonneg_left (by linarith [h1.2]) (le_of_lt hPq)
    have e : (P : ℚ) * (32768 / (P : ℚ) + 32768 / (P : ℚ) / 2 ^ 53)
        = 32768 + 32768 / 2 ^ 53 := by
      field_simp
      ring
    linarith
  · have : (P : ℚ) * (32768 / (P : ℚ) - 32768 / (P : ℚ) / 2 ^ 53) ≤ (P : ℚ) * g :=
      mul_le_mul_of_nonneg_left (by linarith [h1.1]) (le_of_lt hPq)
    have e : (P : ℚ) * (32768 / (P : ℚ) - 32768 / (P : ℚ) / 2 ^ 53)
        = 32768 - 32768 / 2 ^ 53 := by
      field_simp
      ring
    linarith

theorem scaled_peak_bounds (P x : Int) (g r : ℚ) (hP : 1 ≤ P) (hP2 : P ≤ 32768)
    (hx : |x| = P)
    (hg : |g - 32768 / (P : ℚ)| ≤ |32768 / (P : ℚ)| / 2 ^ 53)
    (hr : |r - (x : ℚ) * g| ≤ |(x : ℚ) * g| / 2 ^ 53) :
    32767 ≤ |r| ∧ |r| < 32769 := by
  obtain ⟨hu, hl⟩ := gain_bounds P g hP hP2 hg
  have hxg : |(x : ℚ) * g| = (P : ℚ) * |g| := by
    rw [abs_mul, ← Int.cast_abs, hx]
  rw [hxg] at hr
  have h1 : |r| ≤ (P : ℚ) * |g| + (P : ℚ) * |g| / 2 ^ 53 := by
    have := abs_sub_abs_le_abs_sub r ((x : ℚ) * g)
    rw [hxg] at this
    linarith
  have h2 : (P : ℚ) * |g| - (P : ℚ) * |g| / 2 ^ 53 ≤ |r| := by
    have := abs_sub_abs_le_abs_sub ((x : ℚ) * g) r
    rw [hxg, abs_sub_comm] at this
    linarith
  constructor
  · norm_num at hl h2 ⊢
    linarith
  · norm_num at hu h1 ⊢
    linarith

theorem mul_sample_val {F : Type} (ops : Float64Ops F) (val : F → Option ℚ)
    (laws : Float64Laws ops val) (x : Int) (gain : F) (g : ℚ) (hx : |x| ≤ 32768)
    (hgain : val gain = some g) (hg1 : 1 / 2 ≤ |g|) (hg2 : |g| ≤ 65536) :
    ∃ r, val (ops.mul (ops.ofInt x) gain) = some r
      ∧ |r - (x : ℚ) * g| ≤ |(x : ℚ) * g| / 2 ^ 53 := by
  have hxv := laws.ofInt_val x (le_trans hx (by norm_num))
  by_cases h0 : x = 0
  · subst h0
    refine ⟨0, ?_, by simp⟩
    have := laws.mul_exact _ _ _ _ 0 hxv hgain (by simp) (by norm_num)
    simpa using this
  · have hx1 : (1 : ℚ) ≤ |(x : ℚ)| := by
      rw [← Int.cast_abs]
      exact_mod_cast (show (1 : Int) ≤ |x| from Int.one_le_abs h0)
    have hx2 : |(x : ℚ)| ≤ 32768 := by
      rw [← Int.cast_abs]
      exact_mod_cast hx
    have hlo : 1 / 2 ≤ |(x : ℚ) * g| := by
      rw [abs_mul]
      calc (1 : ℚ) / 2 = 1 * (1 / 2) := by ring
        _ ≤ |(x : ℚ)| * |g| := mul_le_mul hx1 hg1 (by norm_num) (abs_nonneg _)
    have hhi : |(x : ℚ) * g| ≤ 32768 * 65536 := by
      rw [abs_mul]
      exact mul_le_mul hx2 hg2 (abs_nonneg _) (by norm_num)
    exact laws.mul_round _ _ _ _ hxv hgain (le_trans (by norm_num) hlo)
      (le_trans hhi (by norm_num))

theorem normalize_full_scale_peak {F : Type} (ops : Float64Ops F) (val : F → Option ℚ)
    (laws : Float64Laws ops val) (t : WAV) (ht : Decoded t) (h16 : t.bitsPerSample = 16)
    (hns : peakOf t.data ≠ 0) :
    ∃ w, normalize ops t (ops.ofInt 0) = Except.ok w
      ∧ 32767 ≤ peakOf w.data ∧ peakOf w.data ≤ 32768 := by
  have hfr := decoded_frames_two t ht h16
  have hss := sampleSize_of_sixteen t ht h16
  obtain ⟨pk, hpk, hnorm⟩ := normalize_map ops t (ops.ofInt 0) ht.data_length hss hfr
  have hpv := peak_val ops val laws t.data pk hfr hpk
  have hA := amplitude_full_scale ops val laws t h16
  have hP1 : 1 ≤ peakOf t.data := by
    have := peakOf_nonneg t.data
    omega
  have hP2 : peakOf t.data ≤ 32768 :=
    peakOf_le t.data 32768 (by norm_num) (fun f _ => sampleOf_abs_le f)
  have hPq1 : (1 : ℚ) ≤ (peakOf t.data : ℚ) := by exact_mod_cast hP1
  have hPq2 : ((peakOf t.data : Int) : ℚ) ≤ 32768 := by exact_mod_cast hP2
  have hPq0 : ((peakOf t.data : Int) : ℚ) ≠ 0 := by linarith
  have hG1 : (1 : ℚ) ≤ 32768 / (peakOf t.data : ℚ) := by
    rw [le_div_iff₀ (by linarith)]
    linarith
  have hG2 : (32768 : ℚ) / (peakOf t.data : ℚ) ≤ 32768 := by
    rw [div_le_iff₀ (by linarith)]
    nlinarith
  have hGabs : |(32768 : ℚ) / (peakOf t.data : ℚ)| = 32768 / (peakOf t.data : ℚ) :=
    abs_of_nonneg (by linarith)
  obtain ⟨g, hgv, hg⟩ := laws.div_round _ _ _ _ hA hpv hPq0
    (by rw [hGabs]; exact le_trans (by norm_num) hG1)
    (by rw [hGabs]; exact le_trans hG2 (by norm_num))
  obtain ⟨hgu, hgl⟩ := gain_bounds (peakOf t.data) g hP1 hP2 hg
  obtain ⟨f, hf, hfe⟩ := peakOf_attained t.data hns
  obtain ⟨r, hrv, hr⟩ := mul_sample_val ops val laws ((sampleOf f).getD 0)
    (ops.div (amplitude ops t (ops.ofInt 0)) pk) g (sampleOf_abs_le f) hgv
    (by
      have : (peakOf t.data : ℚ) * |g| ≤ 32768 * |g| :=
        mul_le_mul_of_nonneg_right hPq2 (abs_nonneg g)
      norm_num at hgl
      linarith)
    (by
      have : (1 : ℚ) * |g| ≤ (peakOf t.data : ℚ) * |g| :=
        mul_le_mul_of_nonneg_right hPq1 (abs_nonneg g)
      norm_num at hgu
      linarith)
  obtain ⟨hr1, hr2⟩ := scaled_peak_bounds (peakOf t.data) ((sampleOf f).getD 0) g r hP1 hP2 hfe
    hg hr
  have hst := laws.toUint16_val _ r hrv (lt_trans hr2 (by norm_num))
  have ht1 : |truncQ r| ≤ 32768 := truncQ_abs_le r 32768 (by norm_num; exact hr2)
  have ht2 : 32767 ≤ |truncQ r| := truncQ_abs_ge r 32767 (by norm_num; exact hr1)
  refine ⟨_, hnorm, ?_, peakOf_le _ 32768 (by norm_num) (fun f _ => sampleOf_abs_le f)⟩
  refine le_trans ?_ (le_peakOf _ _ (List.mem_map_of_mem _ hf))
  rw [sampleOf_storedFrame, hst, Option.getD_some, int16_low16_abs _ ht1]
  exact ht2

/-! ## The soft-knee curve in exact arithmetic -/

theorem smoothPeak_below (T W : ℚ) (R : Int) (x : ℚ) (h : x - T < -W / 2) :
    smoothPeak exactOps (some T) (some W) R (some x) = some x := by
  simp [smoothPeak, exactOps, h]

theorem smoothPeak_knee (T W : ℚ) (R : Int) (x : ℚ) (hW : 0 < W) (hR : 1 ≤ R)
    (h : |x - T| ≤ W / 2) :
    smoothPeak exactOps (some T) (some W) R (some x)
      = some (x + ((1 / (R : ℚ) - 1) * (x - T + W / 2) ^ 2) / (W * 2)) := by
  have h1 : ¬ (x - T < -W / 2) := by
    have := (abs_le.mp h).1
    intro hc
    linarith
  have hR0 : (R : ℚ) ≠ 0 := by
    have : (0 : ℚ) < R := by exact_mod_cast (show (0 : Int) < R by omega)
    exact ne_of_gt this
  have hW0 : W ≠ 0 := ne_of_gt hW
  simp [smoothPeak, exactOps, h1, h, hR0, hW0]

theorem smoothPeak_above (T W : ℚ) (R : Int) (x : ℚ) (hW : 0 < W) (hR : 1 ≤ R)
    (h : W / 2 < x - T) :
    smoothPeak exactOps (some T) (some W) R (some x) = some (T + (x - T) / (R : ℚ)) := by
  have h1 : ¬ (x - T < -W / 2) := by
    intro hc
    linarith
  have h2 : ¬ (|x - T| ≤ W / 2) := by
    intro hc
    have := (abs_le.mp hc).2
    linarith
  have hR0 : (R : ℚ) ≠ 0 := by
    have : (0 : ℚ) < R := by exact_mod_cast (show (0 : Int) < R by omega)
    exact ne_of_gt this
  simp [smoothPeak, exactOps, h1, h2, h, hR0]

theorem smoothPeak_closed (T W : ℚ) (R : Int) (x : ℚ) (hW : 0 < W) (hR : 1 ≤ R) :
    smoothPeak exactOps (some T) (some W) R (some x)
      = some (x + (1 / (R : ℚ) - 1) * ((max 0 (min W (x - T + W / 2))) ^ 2 / (W * 2)
          + (max (x - T + W / 2) W - W))) := by
  rcases lt_or_le (x - T) (-W / 2) with h | h
  · rw [smoothPeak_below T W R x h]
    have h1 : x - T + W / 2 ≤ 0 := by linarith
    rw [min_eq_right (by linarith), max_eq_left h1, max_eq_right (by linarith)]
    simp
  · rcases le_or_lt (x - T) (W / 2) with h2 | h2
    · rw [smoothPeak_knee T W R x hW hR (abs_le.mpr ⟨by linarith, h2⟩)]
      rw [min_eq_right (by linarith), max_eq_right (by linarith), max_eq_right (by linarith)]
      congr 1
      ring
    · rw [smoothPeak_above T W R x hW hR h2]
      rw [min_eq_left (by linarith), max_eq_right (le_of_lt hW), max_eq_left (by linarith)]
      have hW0 : W ≠ 0 := ne_of_gt hW
      congr 1
      field_simp
      ring

theorem smoothPeak_continuous_aux (T W : ℚ) (R : Int) (hW : 0 < W) (hR : 1 ≤ R) :
    Continuous (fun x : ℚ =>
      (smoothPeak exactOps (some T) (some W) R (some x)).getD 0) := by
  have h : (fun x : ℚ => (smoothPeak exactOps (some T) (some W) R (some x)).getD 0)
      = fun x : ℚ => x + (1 / (R : ℚ) - 1) * ((max 0 (min W (x - T + W / 2))) ^ 2 / (W * 2)
          + (max (x - T + W / 2) W - W)) := by
    funext x
    rw [smoothPeak_closed T W R x hW hR]
    rfl
  rw [h]
  fun_prop

/-! ## Samples through `normalize` and `compress` -/

theorem ne_one_false {F : Type} (ops : Float64Ops F) (val : F → Option ℚ)
    (laws : Float64Laws ops val) : ops.ne (ops.ofInt 1) (ops.ofInt 1) = false := by
  have h1 := laws.ofInt_val 1 (by norm_num)
  have := laws.ne_iff _ _ _ _ h1 h1
  cases hc : ops.ne (ops.ofInt 1) (ops.ofInt 1)
  · rfl
  · exact absurd rfl (this.mp hc)

theorem ofInt_sample_val {F : Type} (ops : Float64Ops F) (val : F → Option ℚ)
    (laws : Float64Laws ops val) (x : Int) (hx : |x| ≤ 32768) :
    val (ops.ofInt x) = some (x : ℚ) :=
  laws.ofInt_val x (le_trans hx (by norm_num))

theorem lt_zero_iff {F : Type} (ops : Float64Ops F) (val : F → Option ℚ)
    (laws : Float64Laws ops val) (x : Int) (hx : |x| ≤ 32768) :
    ops.lt (ops.ofInt x) (ops.ofInt 0) = true ↔ x < 0 := by
  have h := laws.lt_iff _ _ _ _ (ofInt_sample_val ops val laws x hx)
    (laws.ofInt_val 0 (by norm_num))
  rw [h]
  norm_cast

theorem magnitude_val {F : Type} (ops : Float64Ops F) (val : F → Option ℚ)
    (laws : Float64Laws ops val) (x : Int) (hx : |x| ≤ 32768) :
    val (magnitude ops x) = some ((|x| : Int) : ℚ) := by
  unfold magnitude
  by_cases h : ops.lt (ops.ofInt x) (ops.ofInt 0) = true
  · rw [if_pos h, Int.cast_abs]
    exact laws.abs_val _ _ (ofInt_sample_val ops val laws x hx)
  · rw [if_neg h]
    have h0 : 0 ≤ x := by
      by_contra hc
      exact h ((lt_zero_iff ops val laws x hx).mpr (by omega))
    rw [abs_of_nonneg h0]
    exact ofInt_sample_val ops val laws x hx

theorem compressSample_val {F : Type} (ops : Float64Ops F) (val : F → Option ℚ)
    (laws : Float64Laws ops val) (T W : F) (R : Int) (x : Int) (hx : |x| ≤ 32768) (q : ℚ)
    (hq : val (smoothPeak ops T W R (magnitude ops x)) = some q) :
    val (compressSample ops T W R x) = some (if x < 0 then -q else q) := by
  unfold compressSample
  by_cases h : ops.lt (ops.ofInt x) (ops.ofInt 0) = true
  · rw [if_pos h, if_pos ((lt_zero_iff ops val laws x hx).mp h)]
    exact laws.mul_neg_one _ _ hq
  · rw [if_neg h, if_neg (fun hc => h ((lt_zero_iff ops val laws x hx).mpr hc))]
    exact hq

theorem int16_low16_int16 (v : Nat) : int16 (low16 (int16 v)) = int16 v := by
  rw [low16_int16, int16_mod]

theorem normalize_fixed {F : Type} (ops : Float64Ops F) (val : F → Option ℚ)
    (laws : Float64Laws ops val) (w : WAV) (d : F)
    (hlen : w.data.length = w.NumSamples) (hss : 2 ≤ w.SampleSize)
    (hfr : ∀ f ∈ w.data, ∃ v, f = storedFrame w.SampleSize v)
    (hpeak : peakOf w.data ≠ 0)
    (htarget : val (amplitude ops w d) = some ((peakOf w.data : Int) : ℚ)) :
    normalize ops w d = Except.ok w := by
  have hfr2 : ∀ f ∈ w.data, 2 ≤ f.length := by
    intro f hf
    obtain ⟨v, rfl⟩ := hfr f hf
    rw [storedFrame_length _ _ hss]
    exact hss
  obtain ⟨pk, hpk, hnorm⟩ := normalize_map ops w d hlen hss hfr2
  have hpv := peak_val ops val laws w.data pk hfr2 hpk
  have hP2 : peakOf w.data ≤ 32768 :=
    peakOf_le w.data 32768 (by norm_num) (fun f _ => sampleOf_abs_le f)
  have hP0 : 0 ≤ peakOf w.data := peakOf_nonneg w.data
  have hPq0 : ((peakOf w.data : Int) : ℚ) ≠ 0 := by exact_mod_cast hpeak
  have hgain : val (ops.div (amplitude ops w d) pk) = some 1 := by
    have := laws.div_exact _ _ _ _ 1 htarget hpv hPq0 (by rw [div_self hPq0]; norm_num)
      (by norm_num)
    simpa using this
  rw [hnorm]
  have hmap : w.data.map (fun f => storedFrame w.SampleSize (ops.toUint16
      (ops.mul (ops.ofInt ((sampleOf f).getD 0)) (ops.div (amplitude ops w d) pk)) % 2 ^ 16))
      = w.data := by
    have hid : w.data.map (fun f => f) = w.data := List.map_id _
    conv_rhs => rw [← hid]
    apply List.map_congr_left
    intro f hf
    obtain ⟨v, rfl⟩ := hfr f hf
    rw [sampleOf_storedFrame, Option.getD_some]
    have hxv := ofInt_sample_val ops val laws (int16 v) (int16_abs_le v)
    have hm := laws.mul_exact _ _ _ _ (int16 v) hxv hgain (by ring)
      (le_trans (int16_abs_le v) (by norm_num))
    have hlt : |((int16 v : Int) : ℚ)| < 2 ^ 31 := by
      rw [← Int.cast_abs]
      have := int16_abs_le v
      have h2 : |int16 v| < 2 ^ 31 := lt_of_le_of_lt this (by norm_num)
      exact_mod_cast h2
    rw [laws.toUint16_val _ _ hm hlt, truncQ_intCast, low16_int16, storedFrame_mod]
  rw [hmap]

theorem decoded_frames_ge (t : WAV) (ht : Decoded t) (hss : 2 ≤ t.SampleSize) :
    ∀ f ∈ t.data, 2 ≤ f.length := by
  intro f hf
  rw [ht.frame_length f hf]
  exact hss

theorem sampleOf_getD (f : Frame) (h : 2 ≤ f.length) :
    sampleOf f = some ((sampleOf f).getD 0) := by
  obtain ⟨x, hx⟩ := sampleOf_of_length f h
  rw [hx]
  rfl

theorem sample_int16 (f : Frame) : ∃ v, (sampleOf f).getD 0 = int16 v := by
  match f with
  | [] => exact ⟨0, by decide⟩
  | [a] => exact ⟨0, by simp [sampleOf, int16]⟩
  | a :: b :: rest => exact ⟨_, rfl⟩

theorem compress_below_knee {F : Type} (ops : Float64Ops F) (val : F → Option ℚ)
    (laws : Float64Laws ops val) (t : WAV) (thresh kneeWidth : F) (R : Int)
    (ht : Decoded t) (hss : 2 ≤ t.SampleSize)
    (hbelow : ∀ f ∈ t.data,
      ops.lt (ops.sub (magnitude ops ((sampleOf f).getD 0)) (amplitude ops t thresh))
        (ops.div (ops.neg (amplitude ops t kneeWidth)) (ops.ofInt 2)) = true) :
    ∃ w, compress ops t thresh R (ops.ofInt 1) kneeWidth = Except.ok w
      ∧ w.data.map sampleOf = t.data.map sampleOf := by
  have hfr := decoded_frames_ge t ht hss
  refine ⟨_, compress_map ops t thresh R (ops.ofInt 1) kneeWidth (ne_one_false ops val laws)
    ht.data_length hss hfr, ?_⟩
  simp only [List.map_map]
  apply List.map_congr_left
  intro f hf
  simp only [Function.comp]
  rw [sampleOf_storedFrame]
  have hx := sampleOf_abs_le f
  have hsp : smoothPeak ops (amplitude ops t thresh) (amplitude ops t kneeWidth) R
      (magnitude ops ((sampleOf f).getD 0)) = magnitude ops ((sampleOf f).getD 0) := by
    unfold smoothPeak
    rw [if_pos (hbelow f hf)]
  have hq := compressSample_val ops val laws (amplitude ops t thresh)
    (amplitude ops t kneeWidth) R _ hx _
    (by rw [hsp]; exact magnitude_val ops val laws _ hx)
  have hval : val (compressSample ops (amplitude ops t thresh) (amplitude ops t kneeWidth) R
      ((sampleOf f).getD 0)) = some (((sampleOf f).getD 0 : Int) : ℚ) := by
    rw [hq]
    congr 1
    split
    · rename_i hneg
      rw [abs_of_neg hneg]
      push_cast
      ring
    · rename_i hneg
      rw [abs_of_nonneg (by omega)]
  have hlt : |(((sampleOf f).getD 0 : Int) : ℚ)| < 2 ^ 31 := by
    rw [← Int.cast_abs]
    have h2 : |(sampleOf f).getD 0| < 2 ^ 31 := lt_of_le_of_lt hx (by norm_num)
    exact_mod_cast h2
  rw [laws.toUint16_val _ _ hval hlt, truncQ_intCast, sampleOf_getD f (hfr f hf)]
  congr 1
  obtain ⟨v, hv⟩ := sample_int16 f
  rw [Option.getD_some, hv]
  exact int16_low16_int16 v

theorem peakOf_ne_zero (fs : List Frame) (h : ∃ f ∈ fs, (sampleOf f).getD 0 ≠ 0) :
    peakOf fs ≠ 0 := by
  obtain ⟨f, hf, hne⟩ := h
  have h1 := le_peakOf fs f hf
  have h2 : 0 < |(sampleOf f).getD 0| := abs_pos.mpr hne
  omega

/-! ## Two passes of `normalize` -/

theorem truncQ_neg (a : ℚ) : truncQ (-a) = -truncQ a := by
  unfold truncQ
  rcases lt_trichotomy a 0 with h | h | h
  · rw [if_pos (by linarith), if_neg (by linarith), neg_neg]
  · subst h
    simp
  · rw [if_neg (by linarith), if_pos (le_of_lt h), neg_neg]

theorem truncQ_eq_of_nonneg (r : ℚ) (y : Int) (h1 : (y : ℚ) ≤ r) (h2 : r < (y : ℚ) + 1)
    (hy : 0 ≤ y) : truncQ r = y := by
  have hr : 0 ≤ r := le_trans (by exact_mod_cast hy) h1
  unfold truncQ
  rw [if_pos hr]
  exact Int.floor_eq_iff.mpr ⟨h1, h2⟩

theorem gain_bounds_of (P : Int) (A g : ℚ) (hP : 1 ≤ P) (hA : 0 < A)
    (hg : |g - A / (P : ℚ)| ≤ |A / (P : ℚ)| / 2 ^ 53) :
    0 < g ∧ (P : ℚ) * g ≤ A + A / 2 ^ 53 ∧ A - A / 2 ^ 53 ≤ (P : ℚ) * g := by
  have hPq : (0 : ℚ) < P := by exact_mod_cast (show (0 : Int) < P by omega)
  have hG : (0 : ℚ) < A / (P : ℚ) := div_pos hA hPq
  rw [abs_of_pos hG] at hg
  have h1 := abs_le.mp hg
  have hgpos : 0 < g := by
    have : A / (P : ℚ) / 2 ^ 53 < A / (P : ℚ) := by
      apply div_lt_self hG
      norm_num
    linarith [h1.1]
  refine ⟨hgpos, ?_, ?_⟩
  · have : (P : ℚ) * g ≤ (P : ℚ) * (A / (P : ℚ) + A / (P : ℚ) / 2 ^ 53) :=
      mul_le_mul_of_nonneg_left (by linarith [h1.2]) (le_of_lt hPq)
    have e : (P : ℚ) * (A / (P : ℚ) + A / (P : ℚ) / 2 ^ 53) = A + A / 2 ^ 53 := by
      field_simp
      ring
    linarith
  · have : (P : ℚ) * (A / (P : ℚ) - A / (P : ℚ) / 2 ^ 53) ≤ (P : ℚ) * g :=
      mul_le_mul_of_nonneg_left (by linarith [h1.1]) (le_of_lt hPq)
    have e : (P : ℚ) * (A / (P : ℚ) - A / (P : ℚ) / 2 ^ 53) = A - A / 2 ^ 53 := by
      field_simp
      ring
    linarith

theorem scaled_le (P x : Int) (g r U : ℚ) (hx : |x| ≤ P) (hg : 0 < g)
    (hU : (P : ℚ) * g ≤ U)
    (hr : |r - (x : ℚ) * g| ≤ |(x : ℚ) * g| / 2 ^ 53) : |r| ≤ U + U / 2 ^ 53 := by
  have hxq : |(x : ℚ)| ≤ (P : ℚ) := by
    rw [← Int.cast_abs]
    exact_mod_cast hx
  have hxg : |(x : ℚ) * g| ≤ U := by
    rw [abs_mul, abs_of_pos hg]
    exact le_trans (mul_le_mul_of_nonneg_right hxq (le_of_lt hg)) hU
  have h1 := abs_sub_abs_le_abs_sub r ((x : ℚ) * g)
  norm_num at hr ⊢
  linarith

theorem scaled_ge (P x : Int) (g r L : ℚ) (hx : |x| = P) (hg : 0 < g)
    (hL : L ≤ (P : ℚ) * g)
    (hr : |r - (x : ℚ) * g| ≤ |(x : ℚ) * g| / 2 ^ 53) : L - L / 2 ^ 53 ≤ |r| := by
  have hxg : L ≤ |(x : ℚ) * g| := by
    rw [abs_mul, abs_of_pos hg, ← Int.cast_abs, hx]
    exact hL
  have h1 := abs_sub_abs_le_abs_sub ((x : ℚ) * g) r
  rw [abs_sub_comm] at h1
  norm_num at hr ⊢
  linarith

theorem rescaled_trunc_nonneg (n y : Int) (A g r : ℚ) (hn : 1 ≤ n) (hy0 : 0 ≤ y) (hy : y ≤ n)
    (hg : 0 < g)
    (hgu : (n : ℚ) * g ≤ A + A / 2 ^ 53) (hgl : A - A / 2 ^ 53 ≤ (n : ℚ) * g)
    (hA1 : (n : ℚ) * (1 + 1 / 2 ^ 51) ≤ A) (hA2 : A ≤ ((n : ℚ) + 1) * (1 - 1 / 2 ^ 51))
    (hr : |r - (y : ℚ) * g| ≤ |(y : ℚ) * g| / 2 ^ 53) : truncQ r = y := by
  have hnq : (1 : ℚ) ≤ (n : ℚ) := by exact_mod_cast hn
  have hyq0 : (0 : ℚ) ≤ (y : ℚ) := by exact_mod_cast hy0
  have hyq : (y : ℚ) ≤ (n : ℚ) := by exact_mod_cast hy
  have hu0 : 0 ≤ (y : ℚ) * g := mul_nonneg hyq0 (le_of_lt hg)
  rw [abs_of_nonneg hu0] at hr
  have hr2 := abs_le.mp hr
  -- bounds on g that do not mention A
  have hg1 : (n : ℚ) * ((1 + 1 / 2 ^ 51) * (1 - 1 / 2 ^ 53)) ≤ (n : ℚ) * g := by
    have : (n : ℚ) * (1 + 1 / 2 ^ 51) * (1 - 1 / 2 ^ 53) ≤ A * (1 - 1 / 2 ^ 53) :=
      mul_le_mul_of_nonneg_right hA1 (by norm_num)
    have e : A * (1 - 1 / 2 ^ 53) = A - A / 2 ^ 53 := by ring
    linarith
  have hg1' : (1 + 1 / 2 ^ 51) * (1 - 1 / 2 ^ 53) ≤ g :=
    le_of_mul_le_mul_left hg1 (by linarith)
  have hg2 : (n : ℚ) * g ≤ ((n : ℚ) + 1) * ((1 - 1 / 2 ^ 51) * (1 + 1 / 2 ^ 53)) := by
    have : A * (1 + 1 / 2 ^ 53) ≤ ((n : ℚ) + 1) * (1 - 1 / 2 ^ 51) * (1 + 1 / 2 ^ 53) :=
      mul_le_mul_of_nonneg_right hA2 (by norm_num)
    have e : A * (1 + 1 / 2 ^ 53) = A + A / 2 ^ 53 := by ring
    linarith
  apply truncQ_eq_of_nonneg r y _ _ hy0
  · -- y ≤ r
    have h1 : (y : ℚ) * ((1 + 1 / 2 ^ 51) * (1 - 1 / 2 ^ 53)) ≤ (y : ℚ) * g :=
      mul_le_mul_of_nonneg_left hg1' hyq0
    norm_num at h1 hr2 ⊢
    linarith [hr2.1]
  · -- r < y + 1
    have h1 : (y : ℚ) * ((n : ℚ) * g)
        ≤ (y : ℚ) * (((n : ℚ) + 1) * ((1 - 1 / 2 ^ 51) * (1 + 1 / 2 ^ 53))) :=
      mul_le_mul_of_nonneg_left hg2 hyq0
    have h2 : (n : ℚ) * r ≤ (n : ℚ) * ((y : ℚ) * g + (y : ℚ) * g / 2 ^ 53) :=
      mul_le_mul_of_nonneg_left (by linarith [hr2.2]) (by linarith)
    have h3 : (y : ℚ) * ((n : ℚ) + 1) ≤ (n : ℚ) * ((y : ℚ) + 1) := by
      nlinarith
    have h4 : (n : ℚ) * r < (n : ℚ) * ((y : ℚ) + 1) := by
      have hyn : 0 ≤ (y : ℚ) * ((n : ℚ) + 1) := mul_nonneg hyq0 (by linarith)
      have e1 : (n : ℚ) * ((y : ℚ) * g + (y : ℚ) * g / 2 ^ 53)
          = (y : ℚ) * ((n : ℚ) * g) * (1 + 1 / 2 ^ 53) := by ring
      have h5 : (y : ℚ) * ((n : ℚ) * g) * (1 + 1 / 2 ^ 53)
          ≤ (y : ℚ) * (((n : ℚ) + 1) * ((1 - 1 / 2 ^ 51) * (1 + 1 / 2 ^ 53)))
            * (1 + 1 / 2 ^ 53) :=
        mul_le_mul_of_nonneg_right h1 (by norm_num)
      have e2 : (y : ℚ) * (((n : ℚ) + 1) * ((1 - 1 / 2 ^ 51) * (1 + 1 / 2 ^ 53)))
            * (1 + 1 / 2 ^ 53)
          = (y : ℚ) * ((n : ℚ) + 1) * ((1 - 1 / 2 ^ 51) * (1 + 1 / 2 ^ 53) * (1 + 1 / 2 ^ 53)) := by
        ring
      have h6 : (y : ℚ) * ((n : ℚ) + 1) * ((1 - 1 / 2 ^ 51) * (1 + 1 / 2 ^ 53) * (1 + 1 / 2 ^ 53))
          ≤ (y : ℚ) * ((n : ℚ) + 1) * 1 :=
        mul_le_mul_of_nonneg_left (by norm_num) hyn
      have h7 : (0 : ℚ) < (n : ℚ) := by linarith
      nlinarith
    exact lt_of_mul_lt_mul_left h4 (by linarith)

theorem mul_sample_round {F : Type} (ops : Float64Ops F) (val : F → Option ℚ)
    (laws : Float64Laws ops val) (x : Int) (gain : F) (g : ℚ) (hx : |x| ≤ 32768)
    (hgain : val gain = some g) (hg1 : 1 / 65536 ≤ |g|) (hg2 : |g| ≤ 65536) :
    ∃ r, val (ops.mul (ops.ofInt x) gain) = some r
      ∧ |r - (x : ℚ) * g| ≤ |(x : ℚ) * g| / 2 ^ 53 := by
  have hxv := laws.ofInt_val x (le_trans hx (by norm_num))
  by_cases h0 : x = 0
  · subst h0
    refine ⟨0, ?_, by simp⟩
    have := laws.mul_exact _ _ _ _ 0 hxv hgain (by simp) (by norm_num)
    simpa using this
  · have hx1 : (1 : ℚ) ≤ |(x : ℚ)| := by
      rw [← Int.cast_abs]
      exact_mod_cast (show (1 : Int) ≤ |x| from Int.one_le_abs h0)
    have hx2 : |(x : ℚ)| ≤ 32768 := by
      rw [← Int.cast_abs]
      exact_mod_cast hx
    have hlo : 1 / 65536 ≤ |(x : ℚ) * g| := by
      rw [abs_mul]
      calc (1 : ℚ) / 65536 = 1 * (1 / 65536) := by ring
        _ ≤ |(x : ℚ)| * |g| := mul_le_mul hx1 hg1 (by norm_num) (abs_nonneg _)
    have hhi : |(x : ℚ) * g| ≤ 32768 * 65536 := by
      rw [abs_mul]
      exact mul_le_mul hx2 hg2 (abs_nonneg _) (by norm_num)
    exact laws.mul_round _ _ _ _ hxv hgain (le_trans (by norm_num) hlo)
      (le_trans hhi (by norm_num))

theorem rescaled_trunc (n y : Int) (A g r : ℚ) (hn : 1 ≤ n) (hy : |y| ≤ n) (hg : 0 < g)
    (hgu : (n : ℚ) * g ≤ A + A / 2 ^ 53) (hgl : A - A / 2 ^ 53 ≤ (n : ℚ) * g)
    (hA1 : (n : ℚ) * (1 + 1 / 2 ^ 51) ≤ A) (hA2 : A ≤ ((n : ℚ) + 1) * (1 - 1 / 2 ^ 51))
    (hr : |r - (y : ℚ) * g| ≤ |(y : ℚ) * g| / 2 ^ 53) : truncQ r = y := by
  have hy2 := abs_le.mp hy
  by_cases h0 : 0 ≤ y
  · exact rescaled_trunc_nonneg n y A g r hn h0 hy2.2 hg hgu hgl hA1 hA2 hr
  · have h := rescaled_trunc_nonneg n (-y) A g (-r) hn (by omega) (by omega) hg hgu hgl hA1 hA2
      (by
        have e1 : -r - ((-y : Int) : ℚ) * g = -(r - (y : ℚ) * g) := by
          push_cast
          ring
        have e2 : ((-y : Int) : ℚ) * g = -((y : ℚ) * g) := by
          push_cast
          ring
        rw [e1, e2, abs_neg, abs_neg]
        exact hr)
    rw [truncQ_neg] at h
    omega

theorem between_bounds (n : Int) (A : ℚ) (hn : 1 ≤ n)
    (hA1 : (n : ℚ) * (1 + 1 / 2 ^ 51) ≤ A) (hA2 : A ≤ ((n : ℚ) + 1) * (1 - 1 / 2 ^ 51)) :
    1 ≤ A ∧ (n : ℚ) ≤ (A - A / 2 ^ 53) - (A - A / 2 ^ 53) / 2 ^ 53
      ∧ (A + A / 2 ^ 53) + (A + A / 2 ^ 53) / 2 ^ 53 < (n : ℚ) + 1 := by
  have hnq : (1 : ℚ) ≤ (n : ℚ) := by exact_mod_cast hn
  norm_num at hA1 hA2 ⊢
  refine ⟨by linarith, by linarith, by linarith⟩

theorem sampleOf_stored_low16 (ss : Nat) (y : Int) (h : |y| ≤ 32767) :
    sampleOf (storedFrame ss (low16 y)) = some y := by
  have h2 := abs_le.mp h
  rw [sampleOf_storedFrame, int16_low16 y (by omega) (by omega)]

theorem gain_round {F : Type} (ops : Float64Ops F) (val : F → Option ℚ)
    (laws : Float64Laws ops val) (amp pk : F) (A : ℚ) (P : Int)
    (hA : val amp = some A) (hpk : val pk = some (P : ℚ))
    (hP1 : 1 ≤ P) (hP2 : P ≤ 32768) (hA1 : 1 ≤ A) (hA2 : A ≤ 32768) :
    ∃ g, val (ops.div amp pk) = some g ∧ 0 < g ∧ (P : ℚ) * g ≤ A + A / 2 ^ 53
      ∧ A - A / 2 ^ 53 ≤ (P : ℚ) * g ∧ 1 / 65536 ≤ |g| ∧ |g| ≤ 65536 := by
  have hPq1 : (1 : ℚ) ≤ (P : ℚ) := by exact_mod_cast hP1
  have hPq2 : (P : ℚ) ≤ 32768 := by exact_mod_cast hP2
  have hPq0 : (P : ℚ) ≠ 0 := by linarith
  have hG1 : (1 : ℚ) / 32768 ≤ A / (P : ℚ) := by
    rw [le_div_iff₀ (by linarith)]
    linarith
  have hG2 : A / (P : ℚ) ≤ 32768 := by
    rw [div_le_iff₀ (by linarith)]
    nlinarith
  have hGabs : |A / (P : ℚ)| = A / (P : ℚ) :=
    abs_of_nonneg (le_trans (by norm_num) hG1)
  obtain ⟨g, hgv, hg⟩ := laws.div_round _ _ _ _ hA hpk hPq0
    (by rw [hGabs]; exact le_trans (by norm_num) hG1)
    (by rw [hGabs]; exact le_trans hG2 (by norm_num))
  obtain ⟨hg0, hgu, hgl⟩ := gain_bounds_of P A g hP1 (by linarith) hg
  refine ⟨g, hgv, hg0, hgu, hgl, ?_, ?_⟩
  · rw [abs_of_pos hg0]
    have : (P : ℚ) * g ≤ 32768 * g := mul_le_mul_of_nonneg_right hPq2 (le_of_lt hg0)
    norm_num at hgl ⊢
    linarith
  · rw [abs_of_pos hg0]
    have : 1 * g ≤ (P : ℚ) * g := mul_le_mul_of_nonneg_right hPq1 (le_of_lt hg0)
    norm_num at hgu
    linarith

theorem normalize_between {F : Type} (ops : Float64Ops F) (val : F → Option ℚ)
    (laws : Float64Laws ops val) (t : WAV) (d : F) (A : ℚ) (n : Int)
    (hlen : t.data.length = t.NumSamples) (hss : 2 ≤ t.SampleSize)
    (hfr : ∀ f ∈ t.data, 2 ≤ f.length) (hns : peakOf t.data ≠ 0)
    (hA : val (amplitude ops t d) = some A) (hn : 1 ≤ n) (hn2 : n ≤ 32767)
    (hA1 : (n : ℚ) * (1 + 1 / 2 ^ 51) ≤ A) (hA2 : A ≤ ((n : ℚ) + 1) * (1 - 1 / 2 ^ 51)) :
    ∃ fs, normalize ops t d = Except.ok { t with data := fs }
      ∧ fs.length = t.data.length
      ∧ (∀ g ∈ fs, ∃ y : Int, |y| ≤ n ∧ g = storedFrame t.SampleSize (low16 y))
      ∧ peakOf fs = n := by
  obtain ⟨pk, hpk, hnorm⟩ := normalize_map ops t d hlen hss hfr
  have hpv := peak_val ops val laws t.data pk hfr hpk
  have hP1 : 1 ≤ peakOf t.data := by
    have := peakOf_nonneg t.data
    omega
  have hP2 : peakOf t.data ≤ 32768 :=
    peakOf_le t.data 32768 (by norm_num) (fun f _ => sampleOf_abs_le f)
  obtain ⟨hb1, hb2, hb3⟩ := between_bounds n A hn hA1 hA2
  have hnq : (n : ℚ) ≤ 32767 := by exact_mod_cast hn2
  have hA3 : A ≤ 32768 := by
    norm_num at hb3
    linarith
  obtain ⟨g, hgv, hg0, hgu, hgl, hg1, hg2⟩ := gain_round ops val laws _ pk A (peakOf t.data)
    hA hpv hP1 hP2 hb1 hA3
  have key : ∀ f ∈ t.data, ∃ y : Int, |y| ≤ n
      ∧ storedFrame t.SampleSize (ops.toUint16
          (ops.mul (ops.ofInt ((sampleOf f).getD 0)) (ops.div (amplitude ops t d) pk)) % 2 ^ 16)
        = storedFrame t.SampleSize (low16 y)
      ∧ (|(sampleOf f).getD 0| = peakOf t.data → n ≤ |y|) := by
    intro f hf
    obtain ⟨r, hrv, hr⟩ := mul_sample_round ops val laws ((sampleOf f).getD 0) _ g
      (sampleOf_abs_le f) hgv hg1 hg2
    have hle := scaled_le (peakOf t.data) _ g r _ (le_peakOf t.data f hf) hg0 hgu hr
    have hlt : |r| < (n : ℚ) + 1 := lt_of_le_of_lt hle hb3
    have hst := laws.toUint16_val _ r hrv (lt_trans hlt (by linarith))
    refine ⟨truncQ r, truncQ_abs_le r n hlt, by rw [hst], ?_⟩
    intro hpeak
    have hge := scaled_ge (peakOf t.data) _ g r _ hpeak hg0 hgl hr
    exact truncQ_abs_ge r n (le_trans hb2 hge)
  refine ⟨_, hnorm, List.length_map _ _, ?_, ?_⟩
  · intro g hg
    obtain ⟨f, hf, rfl⟩ := List.mem_map.mp hg
    obtain ⟨y, hy, he, _⟩ := key f hf
    exact ⟨y, hy, he⟩
  · apply le_antisymm
    · apply peakOf_le _ n (by omega)
      intro g hg
      obtain ⟨f, hf, rfl⟩ := List.mem_map.mp hg
      obtain ⟨y, hy, he, _⟩ := key f hf
      rw [he, sampleOf_stored_low16 _ y (by omega)]
      exact hy
    · obtain ⟨f, hf, hfe⟩ := peakOf_attained t.data hns
      obtain ⟨y, hy, he, hpk2⟩ := key f hf
      refine le_trans (hpk2 hfe) ?_
      have := le_peakOf _ _ (List.mem_map_of_mem (fun f => storedFrame t.SampleSize (ops.toUint16
          (ops.mul (ops.ofInt ((sampleOf f).getD 0)) (ops.div (amplitude ops t d) pk)) % 2 ^ 16))
          hf)
      beta_reduce at this
      rw [he, sampleOf_stored_low16 _ y (by omega)] at this
      exact this

theorem normalize_fixed_between {F : Type} (ops : Float64Ops F) (val : F → Option ℚ)
    (laws : Float64Laws ops val) (w : WAV) (d : F) (A : ℚ) (n : Int)
    (hlen : w.data.length = w.NumSamples) (hss : 2 ≤ w.SampleSize)
    (hfr : ∀ g ∈ w.data, ∃ y : Int, |y| ≤ n ∧ g = storedFrame w.SampleSize (low16 y))
    (hpeak : peakOf w.data = n)
    (hA : val (amplitude ops w d) = some A) (hn : 1 ≤ n) (hn2 : n ≤ 32767)
    (hA1 : (n : ℚ) * (1 + 1 / 2 ^ 51) ≤ A) (hA2 : A ≤ ((n : ℚ) + 1) * (1 - 1 / 2 ^ 51)) :
    normalize ops w d = Except.ok w := by
  have hfr2 : ∀ f ∈ w.data, 2 ≤ f.length := by
    intro f hf
    obtain ⟨y, _, rfl⟩ := hfr f hf
    rw [storedFrame_length _ _ hss]
    exact hss
  obtain ⟨pk, hpk, hnorm⟩ := normalize_map ops w d hlen hss hfr2
  have hpv := peak_val ops val laws w.data pk hfr2 hpk
  rw [hpeak] at hpv
  obtain ⟨hb1, hb2, hb3⟩ := between_bounds n A hn hA1 hA2
  have hnq : (n : ℚ) ≤ 32767 := by exact_mod_cast hn2
  have hA3 : A ≤ 32768 := by
    norm_num at hb3
    linarith
  obtain ⟨g, hgv, hg0, hgu, hgl, hg1, hg2⟩ := gain_round ops val laws _ pk A n
    hA hpv hn (by omega) hb1 hA3
  rw [hnorm]
  have hmap : w.data.map (fun f => storedFrame w.SampleSize (ops.toUint16
      (ops.mul (ops.ofInt ((sampleOf f).getD 0)) (ops.div (amplitude ops w d) pk)) % 2 ^ 16))
      = w.data := by
    have hid : w.data.map (fun f => f) = w.data := List.map_id _
    conv_rhs => rw [← hid]
    apply List.map_congr_left
    intro f hf
    obtain ⟨y, hy, rfl⟩ := hfr f hf
    rw [sampleOf_stored_low16 _ y (by omega), Option.getD_some]
    obtain ⟨r, hrv, hr⟩ := mul_sample_round ops val laws y _ g (by omega) hgv hg1 hg2
    have htr := rescaled_trunc n y A g r hn hy hg0 hgu hgl hA1 hA2 hr
    have hrabs : |r| < 2 ^ 31 := by
      have hle := scaled_le n y g r _ hy hg0 hgu hr
      have : |r| < (n : ℚ) + 1 := lt_of_le_of_lt hle hb3
      exact lt_trans this (by linarith)
    rw [laws.toUint16_val _ r hrv hrabs, htr]
  rw [hmap]

/-! ## IEEE-754 rounding: `ieeeOps` obeys `Float64Laws` -/

theorem log2Fuel_spec (fuel n : Nat) (hn : 1 ≤ n) (hf : n ≤ fuel) :
    2 ^ log2Fuel fuel n ≤ n ∧ n < 2 ^ (log2Fuel fuel n + 1) := by
  induction fuel generalizing n with
  | zero => omega
  | succ fuel ih =>
    unfold log2Fuel
    by_cases h2 : n < 2
    · rw [if_pos h2]
      constructor <;> simp <;> omega
    · rw [if_neg h2]
      obtain ⟨h1, h3⟩ := ih (n / 2) (by omega) (by omega)
      have e1 : 2 ^ (1 + log2Fuel fuel (n / 2)) = 2 * 2 ^ log2Fuel fuel (n / 2) := by
        rw [Nat.add_comm, pow_succ]
        ring
      have e2 : 2 ^ (1 + log2Fuel fuel (n / 2) + 1) = 2 * 2 ^ (log2Fuel fuel (n / 2) + 1) := by
        rw [pow_succ, pow_succ, Nat.add_comm 1, pow_succ]
        ring
      rw [e1, e2]
      constructor <;> omega

theorem zpow_split (k : Int) : (2 : ℚ) ^ k = (2 : ℚ) ^ k.toNat / (2 : ℚ) ^ (-k).toNat := by
  rcases le_or_lt 0 k with h | h
  · have h1 : (-k).toNat = 0 := by omega
    rw [h1, pow_zero, div_one]
    conv_lhs => rw [← Int.toNat_of_nonneg h]
    rw [zpow_natCast]
  · have h1 : k.toNat = 0 := by omega
    rw [h1, pow_zero]
    have h2 : k = -(((-k).toNat : Nat) : Int) := by omega
    conv_lhs => rw [h2]
    rw [zpow_neg, zpow_natCast, one_div]

theorem scaled_quotient (n d : Nat) (hd : 1 ≤ d) (s : Int) :
    ((n * 2 ^ s.toNat : Nat) : ℚ) / ((d * 2 ^ (-s).toNat : Nat) : ℚ)
      = (n : ℚ) / (d : ℚ) * (2 : ℚ) ^ s := by
  rw [zpow_split s]
  push_cast
  have hd0 : (d : ℚ) ≠ 0 := by
    have : (0 : ℚ) < d := by exact_mod_cast hd
    exact ne_of_gt this
  field_simp

theorem scaled_le_iff (n d : Nat) (hd : 1 ≤ d) (k : Int) :
    d * 2 ^ k.toNat ≤ n * 2 ^ (-k).toNat ↔ (2 : ℚ) ^ k ≤ (n : ℚ) / (d : ℚ) := by
  have hd0 : (0 : ℚ) < d := by exact_mod_cast hd
  rw [zpow_split k, le_div_iff₀ hd0, div_mul_eq_mul_div, div_le_iff₀ (by positivity)]
  constructor
  · intro h
    have : ((d * 2 ^ k.toNat : Nat) : ℚ) ≤ ((n * 2 ^ (-k).toNat : Nat) : ℚ) := by exact_mod_cast h
    push_cast at this
    linarith
  · intro h
    have : ((d * 2 ^ k.toNat : Nat) : ℚ) ≤ ((n * 2 ^ (-k).toNat : Nat) : ℚ) := by
      push_cast
      linarith
    exact_mod_cast this

theorem binExp_bracket (n d : Nat) (hn : 1 ≤ n) (hd : 1 ≤ d) :
    (2 : ℚ) ^ (if d * 2 ^ ((log2Fuel n n : Int) - (log2Fuel d d : Int)).toNat
          ≤ n * 2 ^ (-((log2Fuel n n : Int) - (log2Fuel d d : Int))).toNat
        then (log2Fuel n n : Int) - (log2Fuel d d : Int)
        else (log2Fuel n n : Int) - (log2Fuel d d : Int) - 1) ≤ (n : ℚ) / (d : ℚ)
      ∧ (n : ℚ) / (d : ℚ)
        < (2 : ℚ) ^ ((if d * 2 ^ ((log2Fuel n n : Int) - (log2Fuel d d : Int)).toNat
          ≤ n * 2 ^ (-((log2Fuel n n : Int) - (log2Fuel d d : Int))).toNat
        then (log2Fuel n n : Int) - (log2Fuel d d : Int)
        else (log2Fuel n n : Int) - (log2Fuel d d : Int) - 1) + 1) := by
  obtain ⟨hn1, hn2⟩ := log2Fuel_spec n n hn (le_refl n)
  obtain ⟨hd1, hd2⟩ := log2Fuel_spec d d hd (le_refl d)
  generalize log2Fuel n n = ln at *
  generalize log2Fuel d d = ld at *
  have hd0 : (0 : ℚ) < d := by exact_mod_cast hd
  have hn1q : (2 : ℚ) ^ ln ≤ n := by exact_mod_cast hn1
  have hn2q : (n : ℚ) < 2 ^ (ln + 1) := by exact_mod_cast hn2
  have hd1q : (2 : ℚ) ^ ld ≤ d := by exact_mod_cast hd1
  have hd2q : (d : ℚ) < 2 ^ (ld + 1) := by exact_mod_cast hd2
  have two0 : (2 : ℚ) ≠ 0 := by norm_num
  have hup : (n : ℚ) / (d : ℚ) < (2 : ℚ) ^ ((ln : Int) - (ld : Int) + 1) := by
    have e : (2 : ℚ) ^ ((ln : Int) - (ld : Int) + 1) = (2 : ℚ) ^ (ln + 1) / (2 : ℚ) ^ ld := by
      rw [show (ln : Int) - (ld : Int) + 1 = ((ln + 1 : Nat) : Int) - ((ld : Nat) : Int) by
        push_cast; ring]
      rw [zpow_sub₀ two0, zpow_natCast, zpow_natCast]
    rw [e, div_lt_div_iff₀ hd0 (by positivity)]
    calc (n : ℚ) * 2 ^ ld ≤ (n : ℚ) * d := mul_le_mul_of_nonneg_left hd1q (by positivity)
      _ < 2 ^ (ln + 1) * d := mul_lt_mul_of_pos_right hn2q hd0
  have hlo : (2 : ℚ) ^ ((ln : Int) - (ld : Int) - 1) ≤ (n : ℚ) / (d : ℚ) := by
    have e : (2 : ℚ) ^ ((ln : Int) - (ld : Int) - 1) = (2 : ℚ) ^ ln / (2 : ℚ) ^ (ld + 1) := by
      rw [show (ln : Int) - (ld : Int) - 1 = ((ln : Nat) : Int) - ((ld + 1 : Nat) : Int) by
        push_cast; ring]
      rw [zpow_sub₀ two0, zpow_natCast, zpow_natCast]
    rw [e, div_le_div_iff₀ (by positivity) hd0]
    calc (2 : ℚ) ^ ln * d ≤ (n : ℚ) * d := mul_le_mul_of_nonneg_right hn1q (le_of_lt hd0)
      _ ≤ (n : ℚ) * 2 ^ (ld + 1) := mul_le_mul_of_nonneg_left (le_of_lt hd2q) (by positivity)
  by_cases hc : d * 2 ^ ((ln : Int) - (ld : Int)).toNat
      ≤ n * 2 ^ (-((ln : Int) - (ld : Int))).toNat
  · rw [if_pos hc]
    exact ⟨(scaled_le_iff n d hd _).mp hc, hup⟩
  · rw [if_neg hc]
    refine ⟨hlo, ?_⟩
    rw [show (ln : Int) - (ld : Int) - 1 + 1 = (ln : Int) - (ld : Int) by ring]
    exact lt_of_not_le (fun h => hc ((scaled_le_iff n d hd _).mpr h))

theorem nearest_spec (top bot : Nat) (hb : 0 < bot) :
    |(((if 2 * (top % bot) < bot then top / bot
          else if bot < 2 * (top % bot) then top / bot + 1
          else if (top / bot) % 2 = 0 then top / bot else top / bot + 1 : Nat) : ℚ))
        - (top : ℚ) / (bot : ℚ)| ≤ 1 / 2 := by
  have hb0 : (0 : ℚ) < bot := by exact_mod_cast hb
  have hdm : (top : ℚ) = (bot : ℚ) * ((top / bot : Nat) : ℚ) + ((top % bot : Nat) : ℚ) := by
    exact_mod_cast (Nat.div_add_mod top bot).symm
  have hr : ((top % bot : Nat) : ℚ) < bot := by exact_mod_cast Nat.mod_lt top hb
  have hr0 : (0 : ℚ) ≤ ((top % bot : Nat) : ℚ) := by positivity
  have key : ∀ m : ℚ, |m * bot - top| ≤ bot / 2 → |m - (top : ℚ) / (bot : ℚ)| ≤ 1 / 2 := by
    intro m hm
    have e : m - (top : ℚ) / (bot : ℚ) = (m * bot - top) / bot := by
      field_simp
    rw [e, abs_div, abs_of_pos hb0, div_le_iff₀ hb0]
    linarith
  apply key
  rw [abs_le]
  by_cases h1 : 2 * (top % bot) < bot
  · rw [if_pos h1]
    have h1q : 2 * ((top % bot : Nat) : ℚ) < bot := by exact_mod_cast h1
    constructor <;> nlinarith
  · rw [if_neg h1]
    by_cases h2 : bot < 2 * (top % bot)
    · rw [if_pos h2]
      have h2q : (bot : ℚ) < 2 * ((top % bot : Nat) : ℚ) := by exact_mod_cast h2
      push_cast
      constructor <;> nlinarith
    · rw [if_neg h2]
      have h3 : 2 * (top % bot) = bot := by omega
      have h3q : 2 * ((top % bot : Nat) : ℚ) = bot := by exact_mod_cast h3
      by_cases h4 : (top / bot) % 2 = 0
      · rw [if_pos h4]
        constructor <;> nlinarith
      · rw [if_neg h4]
        push_cast
        constructor <;> nlinarith

theorem nearest_bounds (top bot : Nat) (hb : 0 < bot) :
    top / bot ≤ (if 2 * (top % bot) < bot then top / bot
          else if bot < 2 * (top % bot) then top / bot + 1
          else if (top / bot) % 2 = 0 then top / bot else top / bot + 1)
      ∧ (if 2 * (top % bot) < bot then top / bot
          else if bot < 2 * (top % bot) then top / bot + 1
          else if (top / bot) % 2 = 0 then top / bot else top / bot + 1) ≤ top / bot + 1 := by
  split
  · omega
  · split
    · omega
    · split <;> omega

theorem quotient_bounds (top bot : Nat) (hb : 0 < bot)
    (h1 : (2 : ℚ) ^ 52 ≤ (top : ℚ) / (bot : ℚ)) (h2 : (top : ℚ) / (bot : ℚ) < 2 ^ 53) :
    2 ^ 52 ≤ top / bot ∧ top / bot < 2 ^ 53 := by
  have hb0 : (0 : ℚ) < bot := by exact_mod_cast hb
  rw [le_div_iff₀ hb0] at h1
  rw [div_lt_iff₀ hb0] at h2
  constructor
  · rw [Nat.le_div_iff_mul_le hb]
    exact_mod_cast h1
  · rw [Nat.div_lt_iff_lt_mul hb]
    exact_mod_cast h2

theorem round_spec (a : Frac) (hn : a.num ≠ 0) (hd : a.den ≠ 0) :
    ∃ (s : Int) (m : Nat), (Frac.round a).den ≠ 0
      ∧ (Frac.round a).val = (if a.num < 0 then -1 else 1) * ((m : ℚ) * (2 : ℚ) ^ (-s))
      ∧ 2 ^ 52 ≤ m ∧ m ≤ 2 ^ 53
      ∧ (2 : ℚ) ^ 52 ≤ (a.num.natAbs : ℚ) / (a.den : ℚ) * (2 : ℚ) ^ s
      ∧ (a.num.natAbs : ℚ) / (a.den : ℚ) * (2 : ℚ) ^ s < 2 ^ 53
      ∧ |(m : ℚ) - (a.num.natAbs : ℚ) / (a.den : ℚ) * (2 : ℚ) ^ s| ≤ 1 / 2 := by
  have hn1 : 1 ≤ a.num.natAbs := by omega
  have hd1 : 1 ≤ a.den := by omega
  have hbr := binExp_bracket a.num.natAbs a.den hn1 hd1
  unfold Frac.round Frac.val
  rw [if_neg (not_or.mpr ⟨hn, hd⟩)]
  simp only []
  generalize (if a.den * 2 ^ ((log2Fuel a.num.natAbs a.num.natAbs : Int)
        - (log2Fuel a.den a.den : Int)).toNat
      ≤ a.num.natAbs * 2 ^ (-((log2Fuel a.num.natAbs a.num.natAbs : Int)
        - (log2Fuel a.den a.den : Int))).toNat
      then (log2Fuel a.num.natAbs a.num.natAbs : Int) - (log2Fuel a.den a.den : Int)
      else (log2Fuel a.num.natAbs a.num.natAbs : Int) - (log2Fuel a.den a.den : Int) - 1) = e
    at hbr ⊢
  obtain ⟨s, hs⟩ : ∃ s, s = 52 - e := ⟨_, rfl⟩
  rw [← hs]
  have he : e = 52 - s := by omega
  subst he
  have hq := scaled_quotient a.num.natAbs a.den hd1 s
  have hbot : 0 < a.den * 2 ^ (-s).toNat := by positivity
  have hnear := nearest_spec (a.num.natAbs * 2 ^ s.toNat) (a.den * 2 ^ (-s).toNat) hbot
  have hnb := nearest_bounds (a.num.natAbs * 2 ^ s.toNat) (a.den * 2 ^ (-s).toNat) hbot
  have two0 : (2 : ℚ) ≠ 0 := by norm_num
  have hspos : (0 : ℚ) < (2 : ℚ) ^ s := by positivity
  have h52 : (2 : ℚ) ^ (52 - s) * (2 : ℚ) ^ s = 2 ^ 52 := by
    rw [← zpow_add₀ two0]
    norm_num
  have h53 : (2 : ℚ) ^ (52 - s + 1) * (2 : ℚ) ^ s = 2 ^ 53 := by
    rw [← zpow_add₀ two0]
    rw [show 52 - s + 1 + s = (53 : Int) by ring]
    norm_num
  have hb1 : (2 : ℚ) ^ 52 ≤ (a.num.natAbs : ℚ) / (a.den : ℚ) * (2 : ℚ) ^ s := by
    rw [← h52]
    exact mul_le_mul_of_nonneg_right hbr.1 (le_of_lt hspos)
  have hb2 : (a.num.natAbs : ℚ) / (a.den : ℚ) * (2 : ℚ) ^ s < 2 ^ 53 := by
    rw [← h53]
    exact mul_lt_mul_of_pos_right hbr.2 hspos
  have hqb := quotient_bounds (a.num.natAbs * 2 ^ s.toNat) (a.den * 2 ^ (-s).toNat) hbot
    (by rw [hq]; exact hb1) (by rw [hq]; exact hb2)
  rw [hq] at hnear
  generalize (if 2 * (a.num.natAbs * 2 ^ s.toNat % (a.den * 2 ^ (-s).toNat))
        < a.den * 2 ^ (-s).toNat
      then a.num.natAbs * 2 ^ s.toNat / (a.den * 2 ^ (-s).toNat)
      else if a.den * 2 ^ (-s).toNat
          < 2 * (a.num.natAbs * 2 ^ s.toNat % (a.den * 2 ^ (-s).toNat))
        then a.num.natAbs * 2 ^ s.toNat / (a.den * 2 ^ (-s).toNat) + 1
        else if a.num.natAbs * 2 ^ s.toNat / (a.den * 2 ^ (-s).toNat) % 2 = 0
          then a.num.natAbs * 2 ^ s.toNat / (a.den * 2 ^ (-s).toNat)
          else a.num.natAbs * 2 ^ s.toNat / (a.den * 2 ^ (-s).toNat) + 1) = m
    at hnear hnb ⊢
  refine ⟨s, m, by positivity, ?_, by omega, by omega, hb1, hb2, hnear⟩
  have hz := zpow_split (-s)
  rw [neg_neg] at hz
  rw [hz]
  push_cast
  ring

theorem val_sign (a : Frac) :
    a.val = (if a.num < 0 then -1 else 1) * ((a.num.natAbs : ℚ) / (a.den : ℚ)) := by
  unfold Frac.val
  split
  · rename_i h
    have : (a.num : ℚ) = -((a.num.natAbs : Int) : ℚ) := by
      rw [← Int.cast_neg]
      congr 1
      omega
    rw [this, Int.cast_natCast]
    ring
  · rename_i h
    have : (a.num : ℚ) = ((a.num.natAbs : Int) : ℚ) := by
      congr 1
      omega
    rw [this, Int.cast_natCast]
    ring

theorem val_abs (a : Frac) : |a.val| = (a.num.natAbs : ℚ) / (a.den : ℚ) := by
  rw [val_sign]
  have h0 : (0 : ℚ) ≤ (a.num.natAbs : ℚ) / (a.den : ℚ) := by positivity
  split
  · rw [abs_mul, abs_neg, abs_one, one_mul, abs_of_nonneg h0]
  · rw [one_mul, abs_of_nonneg h0]

theorem round_zero (a : Frac) (h : a.num = 0) : Frac.round a = ⟨0, 1⟩ := by
  unfold Frac.round
  rw [if_pos (Or.inl h)]

theorem round_den (a : Frac) (hd : a.den ≠ 0) : (Frac.round a).den ≠ 0 := by
  by_cases hn : a.num = 0
  · rw [round_zero a hn]
    decide
  · obtain ⟨s, m, h, _⟩ := round_spec a hn hd
    exact h

theorem round_error (a : Frac) (hd : a.den ≠ 0) :
    |(Frac.round a).val - a.val| ≤ |a.val| / 2 ^ 53 := by
  by_cases hn : a.num = 0
  · rw [round_zero a hn]
    simp [Frac.val, hn]
  · obtain ⟨s, m, _, hv, _, _, hb1, _, hnear⟩ := round_spec a hn hd
    rw [val_abs, hv, val_sign a]
    have hspos : (0 : ℚ) < (2 : ℚ) ^ s := by positivity
    have two0 : (2 : ℚ) ≠ 0 := by norm_num
    have hinv : (2 : ℚ) ^ (-s) * (2 : ℚ) ^ s = 1 := by
      rw [← zpow_add₀ two0]
      simp
    have hipos : (0 : ℚ) < (2 : ℚ) ^ (-s) := by positivity
    have e : (if a.num < 0 then (-1 : ℚ) else 1) * ((m : ℚ) * (2 : ℚ) ^ (-s))
        - (if a.num < 0 then (-1 : ℚ) else 1) * ((a.num.natAbs : ℚ) / (a.den : ℚ))
        = (if a.num < 0 then (-1 : ℚ) else 1) * ((2 : ℚ) ^ (-s)
          * ((m : ℚ) - (a.num.natAbs : ℚ) / (a.den : ℚ) * (2 : ℚ) ^ s)) := by
      have : (a.num.natAbs : ℚ) / (a.den : ℚ)
          = (a.num.natAbs : ℚ) / (a.den : ℚ) * ((2 : ℚ) ^ (-s) * (2 : ℚ) ^ s) := by
        rw [hinv, mul_one]
      conv_lhs => rw [this]
      ring
    have hsg : |(if a.num < 0 then (-1 : ℚ) else 1)| = 1 := by
      split <;> simp
    rw [e, abs_mul, hsg, one_mul, abs_mul, abs_of_pos hipos]
    have h1 : (2 : ℚ) ^ (-s) * |(m : ℚ) - (a.num.natAbs : ℚ) / (a.den : ℚ) * (2 : ℚ) ^ s|
        ≤ (2 : ℚ) ^ (-s) * (1 / 2) := mul_le_mul_of_nonneg_left hnear (le_of_lt hipos)
    have h2 : (2 : ℚ) ^ (-s) * 2 ^ 52 ≤ (a.num.natAbs : ℚ) / (a.den : ℚ) := by
      have := mul_le_mul_of_nonneg_left hb1 (le_of_lt hipos)
      have e2 : (2 : ℚ) ^ (-s) * ((a.num.natAbs : ℚ) / (a.den : ℚ) * (2 : ℚ) ^ s)
          = (a.num.natAbs : ℚ) / (a.den : ℚ) := by
        rw [mul_comm ((a.num.natAbs : ℚ) / (a.den : ℚ)), ← mul_assoc, hinv, one_mul]
      rw [e2] at this
      exact this
    rw [le_div_iff₀ (by positivity)]
    norm_num at h1 h2 ⊢
    linarith

theorem carry_only (M p : ℚ) (h1 : 2 ^ 52 * p ≤ M) (h2 : M ≤ 2 ^ 53) (h3 : 2 ≤ p) :
    M = 2 ^ 53 ∧ p = 2 := by
  norm_num at h1 h2 ⊢
  constructor <;> linarith

theorem round_exact (a : Frac) (hd : a.den ≠ 0) (M : Nat) (j : Int) (hM : M ≤ 2 ^ 53)
    (hrep : |a.val| = (M : ℚ) * (2 : ℚ) ^ j) : (Frac.round a).val = a.val := by
  by_cases hn : a.num = 0
  · rw [round_zero a hn]
    simp [Frac.val, hn]
  · obtain ⟨s, m, _, hv, hm1, hm2, hb1, hb2, hnear⟩ := round_spec a hn hd
    rw [val_abs] at hrep
    have two0 : (2 : ℚ) ≠ 0 := by norm_num
    have hu : (a.num.natAbs : ℚ) / (a.den : ℚ) * (2 : ℚ) ^ s = (M : ℚ) * (2 : ℚ) ^ (j + s) := by
      rw [hrep, zpow_add₀ two0]
      ring
    have hN : ∃ N : Nat, (M : ℚ) * (2 : ℚ) ^ (j + s) = (N : ℚ) := by
      rcases le_or_lt 0 (j + s) with hk | hk
      · refine ⟨M * 2 ^ (j + s).toNat, ?_⟩
        push_cast
        congr 1
        conv_lhs => rw [← Int.toNat_of_nonneg hk]
        rw [zpow_natCast]
      · refine ⟨2 ^ 52, ?_⟩
        have hz := zpow_split (j + s)
        have h0 : (j + s).toNat = 0 := by omega
        rw [h0, pow_zero] at hz
        rw [hu, hz] at hb1
        have hpos : (0 : ℚ) < (2 : ℚ) ^ (-(j + s)).toNat := by positivity
        rw [mul_one_div, le_div_iff₀ hpos] at hb1
        have hk1 : 1 ≤ (-(j + s)).toNat := by omega
        have hp2 : (2 : ℚ) ≤ (2 : ℚ) ^ (-(j + s)).toNat := by
          calc (2 : ℚ) = 2 ^ 1 := by norm_num
            _ ≤ 2 ^ (-(j + s)).toNat := pow_le_pow_right₀ (by norm_num) hk1
        have hMq : (M : ℚ) ≤ 2 ^ 53 := by exact_mod_cast hM
        obtain ⟨hMeq, hpeq⟩ := carry_only _ _ hb1 hMq hp2
        rw [hz, hpeq, hMeq]
        norm_num
    obtain ⟨N, hN⟩ := hN
    rw [hu, hN] at hnear
    have hmN : m = N := by
      have h1 : |((m : Int) : ℚ) - ((N : Int) : ℚ)| ≤ 1 / 2 := by
        push_cast
        exact hnear
      rw [← Int.cast_sub, ← Int.cast_abs] at h1
      have h2 : ((|(m : Int) - (N : Int)| : Int) : ℚ) < 1 := lt_of_le_of_lt h1 (by norm_num)
      have h3 : |(m : Int) - (N : Int)| < 1 := by exact_mod_cast h2
      have h4 := abs_lt.mp h3
      omega
    rw [hv, val_sign a, hmN, ← hN, ← hu]
    have hinv : (2 : ℚ) ^ s * (2 : ℚ) ^ (-s) = 1 := by
      rw [← zpow_add₀ two0]
      simp
    rw [mul_assoc, hinv, mul_one]

theorem round_rep (a : Frac) (hd : a.den ≠ 0) :
    ∃ (M : Nat) (j : Int), M ≤ 2 ^ 53 ∧ |(Frac.round a).val| = (M : ℚ) * (2 : ℚ) ^ j := by
  by_cases hn : a.num = 0
  · refine ⟨0, 0, by norm_num, ?_⟩
    rw [round_zero a hn]
    simp [Frac.val]
  · obtain ⟨s, m, _, hv, _, hm2, _, _, _⟩ := round_spec a hn hd
    refine ⟨m, -s, hm2, ?_⟩
    rw [hv]
    have h0 : (0 : ℚ) ≤ (m : ℚ) * (2 : ℚ) ^ (-s) := by positivity
    split
    · rw [abs_mul, abs_neg, abs_one, one_mul, abs_of_nonneg h0]
    · rw [one_mul, abs_of_nonneg h0]

theorem ieeeVal_some (x : Option Frac) (a : ℚ) (h : ieeeVal x = some a) :
    ∃ fa, x = some fa ∧ fa.den ≠ 0 ∧ (Frac.round fa).val = fa.val ∧ fa.val = a := by
  match x, h with
  | some fa, h =>
    have h : (if fa.den ≠ 0 ∧ (Frac.round fa).val = fa.val then some fa.val else none)
        = some a := h
    by_cases hc : fa.den ≠ 0 ∧ (Frac.round fa).val = fa.val
    · rw [if_pos hc] at h
      exact ⟨fa, rfl, hc.1, hc.2, Option.some.inj h⟩
    · rw [if_neg hc] at h
      cases h

theorem ieeeVal_rep (fa : Frac) (hd : fa.den ≠ 0) (hr : (Frac.round fa).val = fa.val) :
    ∃ (M : Nat) (j : Int), M ≤ 2 ^ 53 ∧ |fa.val| = (M : ℚ) * (2 : ℚ) ^ j := by
  rw [← hr]
  exact round_rep fa hd

theorem ieeeVal_of (fa : Frac) (hd : fa.den ≠ 0) (M : Nat) (j : Int) (hM : M ≤ 2 ^ 53)
    (hrep : |fa.val| = (M : ℚ) * (2 : ℚ) ^ j) : ieeeVal (some fa) = some fa.val := by
  show (if fa.den ≠ 0 ∧ (Frac.round fa).val = fa.val then some fa.val else none) = some fa.val
  rw [if_pos ⟨hd, round_exact fa hd M j hM hrep⟩]

theorem ieeeVal_round (a : Frac) (hd : a.den ≠ 0) :
    ieeeVal (some (Frac.round a)) = some (Frac.round a).val := by
  obtain ⟨M, j, hM, hrep⟩ := round_rep a hd
  exact ieeeVal_of _ (round_den a hd) M j hM hrep

theorem ieeeVal_round_exact (a : Frac) (hd : a.den ≠ 0) (M : Nat) (j : Int) (hM : M ≤ 2 ^ 53)
    (hrep : |a.val| = (M : ℚ) * (2 : ℚ) ^ j) : ieeeVal (some (Frac.round a)) = some a.val := by
  rw [ieeeVal_round a hd, round_exact a hd M j hM hrep]

theorem ieeeVal_round_int (a : Frac) (hd : a.den ≠ 0) (n : Int) (hn : |n| ≤ 2 ^ 53)
    (hv : a.val = (n : ℚ)) : ieeeVal (some (Frac.round a)) = some (n : ℚ) := by
  rw [← hv]
  refine ieeeVal_round_exact a hd n.natAbs 0 ?_ ?_
  · have := abs_le.mp hn
    omega
  · rw [hv, zpow_zero, mul_one, ← Int.cast_abs, Int.abs_eq_natAbs, Int.cast_natCast]

theorem val_mk (n : Int) (d : Nat) : (Frac.mk n d).val = (n : ℚ) / (d : ℚ) := rfl

theorem val_eq_zero (a : Frac) (hd : a.den ≠ 0) (h : a.val = 0) : a.num = 0 := by
  unfold Frac.val at h
  have hd0 : (a.den : ℚ) ≠ 0 := by exact_mod_cast hd
  rcases div_eq_zero_iff.mp h with h1 | h1
  · exact_mod_cast h1
  · exact absurd h1 hd0

theorem val_int (a : Frac) (hd : a.den ≠ 0) (k : Int) (h : a.val = (k : ℚ)) :
    a.num = k * (a.den : Int) := by
  unfold Frac.val at h
  have hd0 : (a.den : ℚ) ≠ 0 := by exact_mod_cast hd
  rw [div_eq_iff hd0] at h
  exact_mod_cast h

theorem tdiv_truncQ (num : Int) (den : Nat) (hd : den ≠ 0) :
    Int.tdiv num (den : Int) = truncQ ((num : ℚ) / (den : ℚ)) := by
  have hd0 : (0 : ℚ) < (den : ℚ) := by
    have : 0 < den := Nat.pos_of_ne_zero hd
    exact_mod_cast this
  rcases le_or_lt 0 num with h | h
  · have hq : (0 : ℚ) ≤ (num : ℚ) / (den : ℚ) := div_nonneg (by exact_mod_cast h) (le_of_lt hd0)
    unfold truncQ
    rw [if_pos hq, Rat.floor_intCast_div_natCast, Int.tdiv_eq_ediv h (by omega)]
  · have hq : (num : ℚ) / (den : ℚ) < 0 := div_neg_of_neg_of_pos (by exact_mod_cast h) hd0
    unfold truncQ
    rw [if_neg (not_le.mpr hq)]
    have e : -((num : ℚ) / (den : ℚ)) = ((-num : Int) : ℚ) / (den : ℚ) := by
      push_cast
      ring
    rw [e, Rat.floor_intCast_div_natCast]
    have h2 : num = -(-num) := by ring
    rw [h2, Int.neg_tdiv, Int.tdiv_eq_ediv (by omega : 0 ≤ -num) (by omega), neg_neg]

theorem val_lt_iff (fa fb : Frac) (ha : fa.den ≠ 0) (hb : fb.den ≠ 0) :
    fa.num * (fb.den : Int) < fb.num * (fa.den : Int) ↔ fa.val < fb.val := by
  unfold Frac.val
  have ha0 : (0 : ℚ) < (fa.den : ℚ) := by
    have : 0 < fa.den := Nat.pos_of_ne_zero ha
    exact_mod_cast this
  have hb0 : (0 : ℚ) < (fb.den : ℚ) := by
    have : 0 < fb.den := Nat.pos_of_ne_zero hb
    exact_mod_cast this
  rw [div_lt_div_iff₀ ha0 hb0]
  constructor
  · intro h
    exact_mod_cast h
  · intro h
    exact_mod_cast h

theorem val_eq_iff (fa fb : Frac) (ha : fa.den ≠ 0) (hb : fb.den ≠ 0) :
    fa.num * (fb.den : Int) = fb.num * (fa.den : Int) ↔ fa.val = fb.val := by
  unfold Frac.val
  have ha0 : (fa.den : ℚ) ≠ 0 := by exact_mod_cast ha
  have hb0 : (fb.den : ℚ) ≠ 0 := by exact_mod_cast hb
  rw [div_eq_div_iff ha0 hb0]
  constructor
  · intro h
    exact_mod_cast h
  · intro h
    exact_mod_cast h

theorem val_mul (fa fb : Frac) :
    (Frac.mk (fa.num * fb.num) (fa.den * fb.den)).val = fa.val * fb.val := by
  unfold Frac.val
  push_cast
  rw [mul_div_mul_comm]

theorem val_div (fa fb : Frac) (hb : fb.num ≠ 0) :
    (Frac.mk (fa.num * (fb.den : Int) * (if fb.num < 0 then -1 else 1))
      (fa.den * fb.num.natAbs)).val = fa.val / fb.val := by
  unfold Frac.val
  have hn : (fb.num : ℚ) ≠ 0 := by exact_mod_cast hb
  have hnat : ((fb.num.natAbs : Nat) : ℚ) = |(fb.num : ℚ)| := by
    rw [← Int.cast_natCast, Int.natCast_natAbs, Int.cast_abs]
  rw [div_div_eq_mul_div]
  push_cast
  rw [hnat]
  split
  · rename_i h
    have h2 : (fb.num : ℚ) < 0 := by exact_mod_cast h
    rw [abs_of_neg h2]
    field_simp
  · rename_i h
    have h2 : (0 : ℚ) ≤ (fb.num : ℚ) := by exact_mod_cast (not_lt.mp h)
    rw [abs_of_nonneg h2]
    field_simp

theorem ieeeOps_laws : Float64Laws ieeeOps ieeeVal := by
  constructor
  · -- ofInt_val
    intro n hn
    exact ieeeVal_round_int ⟨n, 1⟩ Nat.one_ne_zero n hn (by simp [Frac.val])
  · -- abs_val
    intro x a hx
    obtain ⟨fa, rfl, hd, hr, rfl⟩ := ieeeVal_some x a hx
    obtain ⟨M, j, hM, hrep⟩ := ieeeVal_rep fa hd hr
    have hv : (Frac.mk (fa.num.natAbs : Int) fa.den).val = |fa.val| := by
      rw [val_abs, val_mk, Int.cast_natCast]
    have := ieeeVal_of ⟨(fa.num.natAbs : Int), fa.den⟩ hd M j hM
      (by rw [hv, abs_abs]; exact hrep)
    rw [hv] at this
    exact this
  · -- lt_iff
    intro x y a b hx hy
    obtain ⟨fa, rfl, hda, _, rfl⟩ := ieeeVal_some x a hx
    obtain ⟨fb, rfl, hdb, _, rfl⟩ := ieeeVal_some y b hy
    show decide (fa.num * (fb.den : Int) < fb.num * (fa.den : Int)) = true ↔ _
    rw [decide_eq_true_iff]
    exact val_lt_iff fa fb hda hdb
  · -- ne_iff
    intro x y a b hx hy
    obtain ⟨fa, rfl, hda, _, rfl⟩ := ieeeVal_some x a hx
    obtain ⟨fb, rfl, hdb, _, rfl⟩ := ieeeVal_some y b hy
    show decide (fa.num * (fb.den : Int) ≠ fb.num * (fa.den : Int)) = true ↔ _
    rw [decide_eq_true_iff]
    exact not_congr (val_eq_iff fa fb hda hdb)
  · -- mul_neg_one
    intro x a hx
    obtain ⟨fa, rfl, hd, hr, rfl⟩ := ieeeVal_some x a hx
    obtain ⟨M, j, hM, hrep⟩ := ieeeVal_rep fa hd hr
    have hc : (Frac.round ⟨-1, 1⟩).val = -1 := by
      have := round_exact ⟨-1, 1⟩ (by decide) 1 0 (by norm_num) (by simp [Frac.val])
      rw [this]
      simp [Frac.val]
    have hcd := round_den ⟨-1, 1⟩ (by decide)
    have hv := val_mul fa (Frac.round ⟨-1, 1⟩)
    rw [hc] at hv
    have := ieeeVal_round_exact ⟨fa.num * (Frac.round ⟨-1, 1⟩).num,
      fa.den * (Frac.round ⟨-1, 1⟩).den⟩ (Nat.mul_ne_zero hd hcd) M j hM
      (by rw [hv, mul_neg_one, abs_neg]; exact hrep)
    rw [hv, mul_neg_one] at this
    exact this
  · -- mul_exact
    intro x y a b n hx hy hab hn
    obtain ⟨fa, rfl, hda, _, rfl⟩ := ieeeVal_some x a hx
    obtain ⟨fb, rfl, hdb, _, rfl⟩ := ieeeVal_some y b hy
    exact ieeeVal_round_int ⟨fa.num * fb.num, fa.den * fb.den⟩ (Nat.mul_ne_zero hda hdb) n hn
      (by rw [val_mul]; exact hab)
  · -- div_exact
    intro x y a b n hx hy hb hab hn
    obtain ⟨fa, rfl, hda, _, rfl⟩ := ieeeVal_some x a hx
    obtain ⟨fb, rfl, hdb, _, rfl⟩ := ieeeVal_some y b hy
    have hbn : fb.num ≠ 0 := by
      intro h0
      apply hb
      simp [Frac.val, h0]
    show ieeeVal (if fb.num = 0 then none else some (Frac.round
      ⟨fa.num * (fb.den : Int) * (if fb.num < 0 then -1 else 1), fa.den * fb.num.natAbs⟩)) = _
    rw [if_neg hbn]
    exact ieeeVal_round_int _ (Nat.mul_ne_zero hda (by omega)) n hn
      (by rw [val_div fa fb hbn]; exact hab)
  · -- mul_round
    intro x y a b hx hy _ _
    obtain ⟨fa, rfl, hda, _, rfl⟩ := ieeeVal_some x a hx
    obtain ⟨fb, rfl, hdb, _, rfl⟩ := ieeeVal_some y b hy
    refine ⟨_, ieeeVal_round ⟨fa.num * fb.num, fa.den * fb.den⟩ (Nat.mul_ne_zero hda hdb), ?_⟩
    have := round_error ⟨fa.num * fb.num, fa.den * fb.den⟩ (Nat.mul_ne_zero hda hdb)
    rw [val_mul] at this
    exact this
  · -- div_round
    intro x y a b hx hy hb _ _
    obtain ⟨fa, rfl, hda, _, rfl⟩ := ieeeVal_some x a hx
    obtain ⟨fb, rfl, hdb, _, rfl⟩ := ieeeVal_some y b hy
    have hbn : fb.num ≠ 0 := by
      intro h0
      apply hb
      simp [Frac.val, h0]
    have hden : fa.den * fb.num.natAbs ≠ 0 := Nat.mul_ne_zero hda (by omega)
    refine ⟨(Frac.round ⟨fa.num * (fb.den : Int) * (if fb.num < 0 then -1 else 1),
      fa.den * fb.num.natAbs⟩).val, ?_, ?_⟩
    · show ieeeVal (if fb.num = 0 then none else some (Frac.round
        ⟨fa.num * (fb.den : Int) * (if fb.num < 0 then -1 else 1), fa.den * fb.num.natAbs⟩)) = _
      rw [if_neg hbn]
      exact ieeeVal_round _ hden
    · have := round_error ⟨fa.num * (fb.den : Int) * (if fb.num < 0 then -1 else 1),
        fa.den * fb.num.natAbs⟩ hden
      rw [val_div fa fb hbn] at this
      exact this
  · -- pow_two
    intro n hn
    have hAv : (Frac.round ⟨2, 1⟩).val = 2 := by
      have := round_exact ⟨2, 1⟩ Nat.one_ne_zero 2 0 (by norm_num) (by simp [Frac.val])
      rw [this]
      simp [Frac.val]
    have hAd := round_den ⟨2, 1⟩ Nat.one_ne_zero
    have hBv : (Frac.round ⟨(n : Int), 1⟩).val = ((n : Int) : ℚ) := by
      have := round_exact ⟨(n : Int), 1⟩ Nat.one_ne_zero n 0
        (le_trans hn (by norm_num)) (by simp [Frac.val])
      rw [this]
      simp [Frac.val]
    have hBd := round_den ⟨(n : Int), 1⟩ Nat.one_ne_zero
    have hBn := val_int _ hBd (n : Int) hBv
    have hBpos : (0 : Int) < ((Frac.round ⟨(n : Int), 1⟩).den : Int) := by omega
    have h1 : (Frac.round ⟨(n : Int), 1⟩).num % ((Frac.round ⟨(n : Int), 1⟩).den : Int) = 0 := by
      rw [hBn]
      exact Int.mul_emod_left _ _
    have h2 : 0 ≤ (Frac.round ⟨(n : Int), 1⟩).num := by
      rw [hBn]
      positivity
    have h3 : ((Frac.round ⟨(n : Int), 1⟩).num
        / ((Frac.round ⟨(n : Int), 1⟩).den : Int)).toNat = n := by
      rw [hBn, Int.mul_ediv_cancel _ (ne_of_gt hBpos)]
      exact Int.toNat_natCast n
    show ieeeVal (if (Frac.round ⟨(n : Int), 1⟩).num
        % ((Frac.round ⟨(n : Int), 1⟩).den : Int) = 0 then
      if 0 ≤ (Frac.round ⟨(n : Int), 1⟩).num then
        some (Frac.round ⟨(Frac.round ⟨2, 1⟩).num
            ^ ((Frac.round ⟨(n : Int), 1⟩).num / ((Frac.round ⟨(n : Int), 1⟩).den : Int)).toNat,
          (Frac.round ⟨2, 1⟩).den
            ^ ((Frac.round ⟨(n : Int), 1⟩).num / ((Frac.round ⟨(n : Int), 1⟩).den : Int)).toNat⟩)
      else if (Frac.round ⟨2, 1⟩).num = 0 then none
      else some (Frac.round
        ⟨(if (Frac.round ⟨2, 1⟩).num < 0 then -1 else 1)
            ^ (-((Frac.round ⟨(n : Int), 1⟩).num
              / ((Frac.round ⟨(n : Int), 1⟩).den : Int))).toNat
            * (((Frac.round ⟨2, 1⟩).den
              ^ (-((Frac.round ⟨(n : Int), 1⟩).num
                / ((Frac.round ⟨(n : Int), 1⟩).den : Int))).toNat : Nat) : Int),
          (Frac.round ⟨2, 1⟩).num.natAbs
            ^ (-((Frac.round ⟨(n : Int), 1⟩).num
              / ((Frac.round ⟨(n : Int), 1⟩).den : Int))).toNat⟩)
      else none) = _
    rw [if_pos h1, if_pos h2, h3]
    have hv : (Frac.mk ((Frac.round ⟨2, 1⟩).num ^ n) ((Frac.round ⟨2, 1⟩).den ^ n)).val
        = (2 : ℚ) ^ n := by
      rw [val_mk]
      push_cast
      rw [← div_pow]
      have : ((Frac.round ⟨2, 1⟩).num : ℚ) / ((Frac.round ⟨2, 1⟩).den : ℚ) = 2 := hAv
      rw [this]
    have := ieeeVal_round_exact ⟨(Frac.round ⟨2, 1⟩).num ^ n, (Frac.round ⟨2, 1⟩).den ^ n⟩
      (pow_ne_zero n hAd) 1 (n : Int) (by norm_num)
      (by rw [hv, abs_of_pos (by positivity), Nat.cast_one, one_mul, zpow_natCast])
    rw [hv] at this
    exact this
  · -- pow_zero
    intro x y a hx hy
    obtain ⟨fa, rfl, hda, _, rfl⟩ := ieeeVal_some x a hx
    obtain ⟨fb, rfl, hdb, _, hb0⟩ := ieeeVal_some y 0 hy
    have hnum := val_eq_zero fb hdb hb0
    show ieeeVal (if fb.num % (fb.den : Int) = 0 then
      if 0 ≤ fb.num then
        some (Frac.round ⟨fa.num ^ (fb.num / (fb.den : Int)).toNat,
          fa.den ^ (fb.num / (fb.den : Int)).toNat⟩)
      else if fa.num = 0 then none
      else some (Frac.round
        ⟨(if fa.num < 0 then -1 else 1) ^ (-(fb.num / (fb.den : Int))).toNat
            * ((fa.den ^ (-(fb.num / (fb.den : Int))).toNat : Nat) : Int),
          fa.num.natAbs ^ (-(fb.num / (fb.den : Int))).toNat⟩)
      else none) = _
    rw [hnum]
    simp only [Int.zero_emod, if_true, le_refl, Int.zero_ediv, Int.toNat_zero, pow_zero]
    simpa using ieeeVal_round_int ⟨1, 1⟩ Nat.one_ne_zero 1 (by norm_num) (by simp [Frac.val])
  · -- toUint16_val
    intro x a hx ha
    obtain ⟨fa, rfl, hd, _, rfl⟩ := ieeeVal_some x a hx
    show (if (Int.tdiv fa.num (fa.den : Int)).natAbs < 2147483648
      then low16 (Int.tdiv fa.num (fa.den : Int)) else 0) % 2 ^ 16 = _
    rw [tdiv_truncQ fa.num fa.den hd]
    have hv : (fa.num : ℚ) / (fa.den : ℚ) = fa.val := rfl
    rw [hv]
    have ht : |truncQ fa.val| ≤ 2147483647 :=
      truncQ_abs_le fa.val 2147483647 (by norm_num at ha ⊢; exact ha)
    have ht2 := abs_le.mp ht
    rw [if_pos (by omega)]
    unfold low16
    omega

/-! ## The soft knee under rounding: `Float64KneeLaws` -/

theorem val_add (fa fb : Frac) (ha : fa.den ≠ 0) (hb : fb.den ≠ 0) :
    (Frac.mk (fa.num * (fb.den : Int) + fb.num * (fa.den : Int)) (fa.den * fb.den)).val
      = fa.val + fb.val := by
  unfold Frac.val
  have ha0 : (fa.den : ℚ) ≠ 0 := by exact_mod_cast ha
  have hb0 : (fb.den : ℚ) ≠ 0 := by exact_mod_cast hb
  push_cast
  field_simp

theorem val_sub (fa fb : Frac) (ha : fa.den ≠ 0) (hb : fb.den ≠ 0) :
    (Frac.mk (fa.num * (fb.den : Int) - fb.num * (fa.den : Int)) (fa.den * fb.den)).val
      = fa.val - fb.val := by
  unfold Frac.val
  have ha0 : (fa.den : ℚ) ≠ 0 := by exact_mod_cast ha
  have hb0 : (fb.den : ℚ) ≠ 0 := by exact_mod_cast hb
  push_cast
  field_simp
  ring

theorem val_le_iff (fa fb : Frac) (ha : fa.den ≠ 0) (hb : fb.den ≠ 0) :
    fa.num * (fb.den : Int) ≤ fb.num * (fa.den : Int) ↔ fa.val ≤ fb.val := by
  unfold Frac.val
  have ha0 : (0 : ℚ) < (fa.den : ℚ) := by
    have : 0 < fa.den := Nat.pos_of_ne_zero ha
    exact_mod_cast this
  have hb0 : (0 : ℚ) < (fb.den : ℚ) := by
    have : 0 < fb.den := Nat.pos_of_ne_zero hb
    exact_mod_cast this
  rw [div_le_div_iff₀ ha0 hb0]
  constructor
  · intro h
    exact_mod_cast h
  · intro h
    exact_mod_cast h

theorem error_weaken (c x : ℚ) (h : |c - x| ≤ |x| / 2 ^ 53) :
    |c - x| ≤ |x| / 2 ^ 53 + 1 / 2 ^ 200 := by
  have h0 : (0 : ℚ) ≤ 1 / 2 ^ 200 := by positivity
  linarith

theorem round_error_of (a : Frac) (hd : a.den ≠ 0) (x : ℚ) (hx : a.val = x) :
    |(Frac.round a).val - x| ≤ |x| / 2 ^ 53 := by
  subst hx
  exact round_error a hd

theorem ieeeOps_kneeLaws : Float64KneeLaws ieeeOps ieeeVal := by
  constructor
  · exact ieeeOps_laws
  · -- ofInt_round
    intro n _
    refine ⟨_, ieeeVal_round ⟨n, 1⟩ Nat.one_ne_zero, ?_⟩
    have := round_error ⟨n, 1⟩ Nat.one_ne_zero
    simpa [Frac.val] using this
  · -- neg_val
    intro x a hx
    obtain ⟨fa, rfl, hd, hr, rfl⟩ := ieeeVal_some x a hx
    obtain ⟨M, j, hM, hrep⟩ := ieeeVal_rep fa hd hr
    have hv : (Frac.mk (-fa.num) fa.den).val = -fa.val := by
      unfold Frac.val
      push_cast
      ring
    have := ieeeVal_of ⟨-fa.num, fa.den⟩ hd M j hM (by rw [hv, abs_neg]; exact hrep)
    rw [hv] at this
    exact this
  · -- le_iff
    intro x y a b hx hy
    obtain ⟨fa, rfl, hda, _, rfl⟩ := ieeeVal_some x a hx
    obtain ⟨fb, rfl, hdb, _, rfl⟩ := ieeeVal_some y b hy
    show decide (fa.num * (fb.den : Int) ≤ fb.num * (fa.den : Int)) = true ↔ _
    rw [decide_eq_true_iff]
    exact val_le_iff fa fb hda hdb
  · -- mul_two
    intro x a hx _
    obtain ⟨fa, rfl, hd, hr, rfl⟩ := ieeeVal_some x a hx
    obtain ⟨M, j, hM, hrep⟩ := ieeeVal_rep fa hd hr
    have hc : (Frac.round ⟨2, 1⟩).val = 2 := by
      have := round_exact ⟨2, 1⟩ Nat.one_ne_zero 2 0 (by norm_num) (by simp [Frac.val])
      rw [this]
      simp [Frac.val]
    have hcd := round_den ⟨2, 1⟩ Nat.one_ne_zero
    have hv := val_mul fa (Frac.round ⟨2, 1⟩)
    rw [hc] at hv
    have := ieeeVal_round_exact ⟨fa.num * (Frac.round ⟨2, 1⟩).num,
      fa.den * (Frac.round ⟨2, 1⟩).den⟩ (Nat.mul_ne_zero hd hcd) M (j + 1) hM
      (by
        rw [hv, abs_mul, hrep, zpow_add₀ (by norm_num : (2 : ℚ) ≠ 0)]
        norm_num
        ring)
    rw [hv] at this
    exact this
  · -- add_round
    intro x y a b hx hy _ _
    obtain ⟨fa, rfl, hda, _, rfl⟩ := ieeeVal_some x a hx
    obtain ⟨fb, rfl, hdb, _, rfl⟩ := ieeeVal_some y b hy
    refine ⟨_, ieeeVal_round ⟨fa.num * (fb.den : Int) + fb.num * (fa.den : Int),
      fa.den * fb.den⟩ (Nat.mul_ne_zero hda hdb), ?_⟩
    have := round_error ⟨fa.num * (fb.den : Int) + fb.num * (fa.den : Int), fa.den * fb.den⟩
      (Nat.mul_ne_zero hda hdb)
    rw [val_add fa fb hda hdb] at this
    exact this
  · -- sub_round
    intro x y a b hx hy _ _
    obtain ⟨fa, rfl, hda, _, rfl⟩ := ieeeVal_some x a hx
    obtain ⟨fb, rfl, hdb, _, rfl⟩ := ieeeVal_some y b hy
    refine ⟨_, ieeeVal_round ⟨fa.num * (fb.den : Int) - fb.num * (fa.den : Int),
      fa.den * fb.den⟩ (Nat.mul_ne_zero hda hdb), ?_⟩
    have := round_error ⟨fa.num * (fb.den : Int) - fb.num * (fa.den : Int), fa.den * fb.den⟩
      (Nat.mul_ne_zero hda hdb)
    rw [val_sub fa fb hda hdb] at this
    exact this
  · -- mul_under
    intro x y a b hx hy _ _
    obtain ⟨fa, rfl, hda, _, rfl⟩ := ieeeVal_some x a hx
    obtain ⟨fb, rfl, hdb, _, rfl⟩ := ieeeVal_some y b hy
    refine ⟨_, ieeeVal_round ⟨fa.num * fb.num, fa.den * fb.den⟩ (Nat.mul_ne_zero hda hdb), ?_⟩
    have := round_error ⟨fa.num * fb.num, fa.den * fb.den⟩ (Nat.mul_ne_zero hda hdb)
    rw [val_mul] at this
    exact error_weaken _ _ this
  · -- div_under
    intro x y a b hx hy _ hb
    obtain ⟨fa, rfl, hda, _, rfl⟩ := ieeeVal_some x a hx
    obtain ⟨fb, rfl, hdb, _, rfl⟩ := ieeeVal_some y b hy
    have hbn : fb.num ≠ 0 := by
      intro h0
      have : fb.val = 0 := by simp [Frac.val, h0]
      rw [this, abs_zero] at hb
      have : (0 : ℚ) < 1 / 2 ^ 200 := by positivity
      linarith
    have hden : fa.den * fb.num.natAbs ≠ 0 := Nat.mul_ne_zero hda (by omega)
    refine ⟨(Frac.round ⟨fa.num * (fb.den : Int) * (if fb.num < 0 then -1 else 1),
      fa.den * fb.num.natAbs⟩).val, ?_, ?_⟩
    · show ieeeVal (if fb.num = 0 then none else some (Frac.round
        ⟨fa.num * (fb.den : Int) * (if fb.num < 0 then -1 else 1), fa.den * fb.num.natAbs⟩)) = _
      rw [if_neg hbn]
      exact ieeeVal_round _ hden
    · have := round_error ⟨fa.num * (fb.den : Int) * (if fb.num < 0 then -1 else 1),
        fa.den * fb.num.natAbs⟩ hden
      rw [val_div fa fb hbn] at this
      exact error_weaken _ _ this
  · -- sq_under
    intro x a hx _
    obtain ⟨fa, rfl, hda, _, rfl⟩ := ieeeVal_some x a hx
    have hBv : (Frac.round ⟨2, 1⟩).val = ((2 : Int) : ℚ) := by
      have := round_exact ⟨2, 1⟩ Nat.one_ne_zero 2 0 (by norm_num) (by simp [Frac.val])
      rw [this]
      simp [Frac.val]
    have hBd := round_den ⟨2, 1⟩ Nat.one_ne_zero
    have hBn := val_int _ hBd 2 hBv
    have hBpos : (0 : Int) < ((Frac.round ⟨2, 1⟩).den : Int) := by omega
    have h1 : (Frac.round ⟨2, 1⟩).num % ((Frac.round ⟨2, 1⟩).den : Int) = 0 := by
      rw [hBn]
      exact Int.mul_emod_left _ _
    have h2 : 0 ≤ (Frac.round ⟨2, 1⟩).num := by
      rw [hBn]
      positivity
    have h3 : ((Frac.round ⟨2, 1⟩).num / ((Frac.round ⟨2, 1⟩).den : Int)).toNat = 2 := by
      rw [hBn, Int.mul_ediv_cancel _ (ne_of_gt hBpos)]
      rfl
    show ∃ c, ieeeVal (if (Frac.round ⟨2, 1⟩).num % ((Frac.round ⟨2, 1⟩).den : Int) = 0 then
      if 0 ≤ (Frac.round ⟨2, 1⟩).num then
        some (Frac.round ⟨fa.num
            ^ ((Frac.round ⟨2, 1⟩).num / ((Frac.round ⟨2, 1⟩).den : Int)).toNat,
          fa.den ^ ((Frac.round ⟨2, 1⟩).num / ((Frac.round ⟨2, 1⟩).den : Int)).toNat⟩)
      else if fa.num = 0 then none
      else some (Frac.round
        ⟨(if fa.num < 0 then -1 else 1)
            ^ (-((Frac.round ⟨2, 1⟩).num / ((Frac.round ⟨2, 1⟩).den : Int))).toNat
            * ((fa.den ^ (-((Frac.round ⟨2, 1⟩).num
                / ((Frac.round ⟨2, 1⟩).den : Int))).toNat : Nat) : Int),
          fa.num.natAbs ^ (-((Frac.round ⟨2, 1⟩).num
            / ((Frac.round ⟨2, 1⟩).den : Int))).toNat⟩)
      else none) = some c ∧ _
    rw [if_pos h1, if_pos h2, h3]
    have hv : (Frac.mk (fa.num ^ 2) (fa.den ^ 2)).val = fa.val ^ 2 := by
      unfold Frac.val
      push_cast
      rw [div_pow]
    refine ⟨_, ieeeVal_round ⟨fa.num ^ 2, fa.den ^ 2⟩ (pow_ne_zero 2 hda), ?_⟩
    have := round_error_of ⟨fa.num ^ 2, fa.den ^ 2⟩ (pow_ne_zero 2 hda) _ hv
    rw [abs_of_nonneg (sq_nonneg fa.val)] at this
    have h0 : (0 : ℚ) ≤ 1 / 2 ^ 200 := by positivity
    linarith

theorem zero_error (c : ℚ) (r : ℚ) (hr : 0 ≤ r) : |c - c| ≤ r := by
  rw [sub_self, abs_zero]
  exact hr

theorem exactOps_kneeLaws : Float64KneeLaws exactOps id := by
  have h53 : ∀ z : ℚ, 0 ≤ |z| / 2 ^ 53 := fun z =>
    div_nonneg (abs_nonneg _) (pow_nonneg (by norm_num) 53)
  have h200 : (0 : ℚ) ≤ 1 / 2 ^ 200 := by norm_num
  refine ⟨exactOps_laws, ?_, ?_, ?_, ?_, ?_, ?_, ?_, ?_, ?_⟩
  · intro n _
    exact ⟨(n : ℚ), rfl, zero_error _ _ (h53 _)⟩
  · intro x a hx
    simp only [id] at hx
    subst hx
    rfl
  · intro x y a b hx hy
    simp only [id] at hx hy
    subst hx hy
    simp [exactOps]
  · intro x a hx _
    simp only [id] at hx
    subst hx
    simp [exactOps]
  · intro x y a b hx hy _ _
    simp only [id] at hx hy
    subst hx hy
    exact ⟨a + b, rfl, zero_error _ _ (h53 _)⟩
  · intro x y a b hx hy _ _
    simp only [id] at hx hy
    subst hx hy
    exact ⟨a - b, rfl, zero_error _ _ (h53 _)⟩
  · intro x y a b hx hy _ _
    simp only [id] at hx hy
    subst hx hy
    exact ⟨a * b, rfl, zero_error _ _ (add_nonneg (h53 _) h200)⟩
  · intro x y a b hx hy _ hb
    simp only [id] at hx hy
    subst hx hy
    have hb0 : b ≠ 0 := by
      intro h
      rw [h, abs_zero] at hb
      norm_num at hb
    exact ⟨a / b, by simp [exactOps, hb0], zero_error _ _ (add_nonneg (h53 _) h200)⟩
  · intro x a hx _
    simp only [id] at hx
    subst hx
    refine ⟨a ^ 2, by simp [exactOps], zero_error _ _ (add_nonneg ?_ h200)⟩
    exact div_nonneg (sq_nonneg a) (pow_nonneg (by norm_num) 53)

theorem err_two_sided (x c r : ℚ) (h : |c - x| ≤ r) : x - r ≤ c ∧ c ≤ x + r := by
  have h1 := abs_le.mp h
  constructor <;> linarith [h1.1, h1.2]

theorem err_abs (x c r : ℚ) (h : |c - x| ≤ r) : |c| ≤ |x| + r ∧ |x| - r ≤ |c| := by
  have h1 := abs_sub_abs_le_abs_sub c x
  have h2 := abs_sub_abs_le_abs_sub x c
  rw [abs_sub_comm] at h2
  constructor <;> linarith

/-- The sum `d + h` of the knee, squared, against the magnitude. -/
theorem knee_sum (m a b d h : ℚ) (hm : 0 ≤ m) (hb : 0 < b) (hba : b ≤ 2 * a)
    (hb1 : 1 / 2 ^ 64 ≤ b) (hb2 : b ≤ 2 ^ 65)
    (hd : |d - (m - a)| ≤ |m - a| / 2 ^ 53)
    (hh : |h - b / 2| ≤ |b / 2| / 2 ^ 53 + 1 / 2 ^ 200)
    (hbr : |d| ≤ h) :
    (d + h) ^ 2 ≤ b * (m * (1 + 1 / 2 ^ 49) + 1 / 2 ^ 34) ∧ |d + h| ≤ 2 * b := by
  have hb0 : |b / 2| = b / 2 := abs_of_pos (by linarith)
  rw [hb0] at hh
  obtain ⟨hh1, hh2⟩ := err_two_sided _ _ _ hh
  obtain ⟨hd1, hd2⟩ := err_two_sided _ _ _ hd
  obtain ⟨hd3, hd4⟩ := err_abs _ _ _ hd
  have hη : (1 : ℚ) / 2 ^ 200 ≤ b / 2 ^ 54 := by
    have : (1 : ℚ) / 2 ^ 200 ≤ 1 / 2 ^ 64 / 2 ^ 54 := by norm_num
    have h2 : (1 : ℚ) / 2 ^ 64 / 2 ^ 54 ≤ b / 2 ^ 54 :=
      div_le_div_of_nonneg_right hb1 (by positivity)
    linarith
  have hD0 := abs_nonneg (m - a)
  -- the exact difference is at most about half the knee
  have hD : |m - a| ≤ b / 2 + b / 2 ^ 51 := by
    norm_num at hd4 hh2 hη ⊢
    linarith
  have hDb := abs_le.mp hD
  -- the error of the sum
  have hδ1 : d + h - (m - a + b / 2) ≤ b / 2 ^ 52 := by
    norm_num at hd1 hd2 hh1 hh2 hη hD ⊢
    linarith
  have hδ2 : -(b / 2 ^ 52) ≤ d + h - (m - a + b / 2) := by
    norm_num at hd1 hd2 hh1 hh2 hη hD ⊢
    linarith
  have hu1 : m - a + b / 2 ≤ m := by linarith
  have hu2 : -(b / 2 ^ 51) ≤ m - a + b / 2 := by linarith [hDb.1]
  have hu3 : m - a + b / 2 ≤ b + b / 2 ^ 51 := by linarith [hDb.2]
  generalize m - a + b / 2 = u at hδ1 hδ2 hu1 hu2 hu3
  generalize d + h = s at hδ1 hδ2 ⊢
  constructor
  · rcases le_or_lt 0 u with h0 | h0
    · -- s = u + δ with 0 ≤ u ≤ m and u ≤ b (1 + 2^-51)
      have hs1 : s ≤ u + b / 2 ^ 52 := by linarith
      have hs2 : u - b / 2 ^ 52 ≤ s := by linarith
      have hsq : s ^ 2 ≤ (u + b / 2 ^ 52) ^ 2 := by
        apply sq_le_sq'
        · nlinarith
        · exact hs1
      have hu_sq : u * u ≤ m * (b + b / 2 ^ 51) := by
        calc u * u ≤ m * u := mul_le_mul_of_nonneg_right hu1 h0
          _ ≤ m * (b + b / 2 ^ 51) := mul_le_mul_of_nonneg_left hu3 hm
      have hub : u * b ≤ m * b := mul_le_mul_of_nonneg_right hu1 (le_of_lt hb)
      have hbb : b * b ≤ 2 ^ 65 * b := mul_le_mul_of_nonneg_right hb2 (le_of_lt hb)
      have hmb : 0 ≤ m * b := mul_nonneg hm (le_of_lt hb)
      have e : (u + b / 2 ^ 52) ^ 2 = u * u + 2 * (u * b) / 2 ^ 52 + b * b / 2 ^ 104 := by ring
      rw [e] at hsq
      have e2 : b * (m * (1 + 1 / 2 ^ 49) + 1 / 2 ^ 34)
          = m * b + m * b / 2 ^ 49 + b / 2 ^ 34 := by ring
      have e3 : m * (b + b / 2 ^ 51) = m * b + m * b / 2 ^ 51 := by ring
      rw [e2]
      rw [e3] at hu_sq
      norm_num at hsq hu_sq hub hbb ⊢
      linarith
    · -- u < 0: the sum is within rounding of zero
      have hs1 : s ≤ b / 2 ^ 50 := by
        norm_num at hδ1 hu2 ⊢
        linarith
      have hs2 : -(b / 2 ^ 50) ≤ s := by
        norm_num at hδ2 hu2 ⊢
        linarith
      have hsq : s ^ 2 ≤ (b / 2 ^ 50) ^ 2 := sq_le_sq' hs2 hs1
      have hbb : b * b ≤ 2 ^ 65 * b := mul_le_mul_of_nonneg_right hb2 (le_of_lt hb)
      have hmb : 0 ≤ m * b := mul_nonneg hm (le_of_lt hb)
      have e : (b / 2 ^ 50) ^ 2 = b * b / 2 ^ 100 := by ring
      rw [e] at hsq
      have e2 : b * (m * (1 + 1 / 2 ^ 49) + 1 / 2 ^ 34)
          = m * b + m * b / 2 ^ 49 + b / 2 ^ 34 := by ring
      rw [e2]
      norm_num at hsq hbb ⊢
      linarith
  · rw [abs_le]
    constructor
    · norm_num at hδ2 hu2 ⊢
      linarith
    · norm_num at hδ1 hu3 ⊢
      linarith

/-- The rounded sum of the knee and its rounded square. -/
theorem knee_square (s0 sv pv X : ℚ) (hs : |sv - s0| ≤ |s0| / 2 ^ 53)
    (hp : |pv - sv ^ 2| ≤ sv ^ 2 / 2 ^ 53 + 1 / 2 ^ 200) (hX : s0 ^ 2 ≤ X) :
    -(1 / 2 ^ 200) ≤ pv ∧ pv ≤ X * (1 + 1 / 2 ^ 50) + 1 / 2 ^ 200 ∧ |sv| ≤ 2 * |s0| := by
  obtain ⟨hs1, hs2⟩ := err_abs _ _ _ hs
  obtain ⟨hp1, hp2⟩ := err_two_sided _ _ _ hp
  have hs0 := abs_nonneg s0
  have hv : |sv| ≤ |s0| * (1 + 1 / 2 ^ 53) := by linarith
  have hsq : sv ^ 2 ≤ (|s0| * (1 + 1 / 2 ^ 53)) ^ 2 := by
    rw [← sq_abs sv]
    exact pow_le_pow_left₀ (abs_nonneg _) hv 2
  rw [mul_pow, sq_abs] at hsq
  have h0 : 0 ≤ s0 ^ 2 := sq_nonneg _
  have h1 : 0 ≤ sv ^ 2 := sq_nonneg _
  have hc : ((1 : ℚ) + 1 / 2 ^ 53) ^ 2 ≤ 1 + 1 / 2 ^ 51 := by norm_num
  have hsq2 : sv ^ 2 ≤ s0 ^ 2 * (1 + 1 / 2 ^ 51) :=
    le_trans hsq (mul_le_mul_of_nonneg_left hc h0)
  refine ⟨?_, ?_, ?_⟩
  · norm_num at hp1 ⊢
    linarith
  · norm_num at hp2 hsq2 ⊢
    linarith
  · norm_num at hv ⊢
    linarith

/-- The converted ratio is at least one half. -/
theorem ratio_range (R : Int) (rv : ℚ) (hR : 1 ≤ R) (hR2 : R ≤ 2 ^ 63)
    (hr : |rv - (R : ℚ)| ≤ |(R : ℚ)| / 2 ^ 53) :
    1 - 1 / 2 ^ 53 ≤ rv ∧ rv ≤ 2 ^ 64 := by
  have hRq : (1 : ℚ) ≤ (R : ℚ) := by exact_mod_cast hR
  have hRq2 : (R : ℚ) ≤ 2 ^ 63 := by exact_mod_cast hR2
  rw [abs_of_pos (by linarith : (0 : ℚ) < (R : ℚ))] at hr
  obtain ⟨h1, h2⟩ := err_two_sided _ _ _ hr
  constructor
  · norm_num at h1 ⊢
    linarith
  · norm_num at h2 hRq2 ⊢
    linarith

/-- The quotient `1 / R` as computed lies between 0 and 1, up to rounding. -/
theorem ratio_inv (rv iv : ℚ) (hr : 1 - 1 / 2 ^ 53 ≤ rv)
    (hi : |iv - 1 / rv| ≤ |1 / rv| / 2 ^ 53 + 1 / 2 ^ 200) :
    -(1 / 2 ^ 200) ≤ iv ∧ iv ≤ 2 := by
  have hr0 : (0 : ℚ) < rv := by
    norm_num at hr
    linarith
  have hw0 : 0 < 1 / rv := one_div_pos.mpr hr0
  have hw1 : 1 / rv ≤ 1 / (1 - 1 / 2 ^ 53) :=
    one_div_le_one_div_of_le (by norm_num) hr
  have hw2 : (1 : ℚ) / (1 - 1 / 2 ^ 53) ≤ 1 + 1 / 2 ^ 52 := by norm_num
  rw [abs_of_pos hw0] at hi
  obtain ⟨hi1, hi2⟩ := err_two_sided _ _ _ hi
  generalize 1 / rv = w at hw0 hw1 hi1 hi2
  constructor
  · norm_num at hi1 ⊢
    linarith
  · norm_num at hi2 hw1 hw2 ⊢
    linarith

/-- The coefficient `1/R - 1` as computed lies between -1 and 0, up to rounding. -/
theorem ratio_coeff (rv iv cv : ℚ) (hr : 1 - 1 / 2 ^ 53 ≤ rv)
    (hi : |iv - 1 / rv| ≤ |1 / rv| / 2 ^ 53 + 1 / 2 ^ 200)
    (hc : |cv - (iv - 1)| ≤ |iv - 1| / 2 ^ 53) :
    -(1 + 1 / 2 ^ 50) ≤ cv ∧ cv ≤ 1 / 2 ^ 50 := by
  have hr0 : (0 : ℚ) < rv := by
    norm_num at hr
    linarith
  have hw0 : 0 < 1 / rv := one_div_pos.mpr hr0
  have hw1 : 1 / rv ≤ 1 / (1 - 1 / 2 ^ 53) :=
    one_div_le_one_div_of_le (by norm_num) hr
  have hw2 : (1 : ℚ) / (1 - 1 / 2 ^ 53) ≤ 1 + 1 / 2 ^ 52 := by norm_num
  rw [abs_of_pos hw0] at hi
  obtain ⟨hi1, hi2⟩ := err_two_sided _ _ _ hi
  generalize 1 / rv = w at hw0 hw1 hi1 hi2
  have hiv1 : -(1 / 2 ^ 200) ≤ iv := by
    norm_num at hi1 ⊢
    linarith
  have hiv2 : iv ≤ 1 + 1 / 2 ^ 51 := by
    norm_num at hi2 hw1 hw2 ⊢
    linarith
  have hx : |iv - 1| ≤ 1 + 1 / 2 ^ 200 := by
    rw [abs_le]
    constructor
    · norm_num at hiv1 ⊢
      linarith
    · norm_num at hiv2 ⊢
      linarith
  obtain ⟨hc1, hc2⟩ := err_two_sided _ _ _ hc
  constructor
  · norm_num at hc1 hx hiv1 ⊢
    linarith
  · norm_num at hc2 hx hiv2 ⊢
    linarith

/-- The rounded product of the coefficient and the square. -/
theorem knee_product (cv pv ev P : ℚ) (hc1 : -(1 + 1 / 2 ^ 50) ≤ cv) (hc2 : cv ≤ 1 / 2 ^ 50)
    (hp1 : -(1 / 2 ^ 200) ≤ pv) (hp2 : pv ≤ P) (hP : 0 ≤ P)
    (he : |ev - cv * pv| ≤ |cv * pv| / 2 ^ 53 + 1 / 2 ^ 200) :
    -((1 + 1 / 2 ^ 49) * P) - 1 / 2 ^ 197 ≤ ev ∧ ev ≤ P / 2 ^ 49 + 1 / 2 ^ 197 := by
  have hlo : -((1 + 1 / 2 ^ 50) * P) - 2 / 2 ^ 200 ≤ cv * pv := by
    rcases le_or_lt 0 pv with h0 | h0
    · have := mul_le_mul_of_nonneg_right hc1 h0
      have h2 : (1 + 1 / 2 ^ 50) * pv ≤ (1 + 1 / 2 ^ 50) * P :=
        mul_le_mul_of_nonneg_left hp2 (by norm_num)
      norm_num at this h2 ⊢
      linarith
    · have := mul_le_mul_of_nonpos_right hc2 (le_of_lt h0)
      norm_num at this hp1 ⊢
      linarith
  have hhi : cv * pv ≤ P / 2 ^ 50 + 2 / 2 ^ 200 := by
    rcases le_or_lt 0 pv with h0 | h0
    · have := mul_le_mul_of_nonneg_right hc2 h0
      norm_num at this ⊢
      linarith
    · have := mul_le_mul_of_nonpos_right hc1 (le_of_lt h0)
      norm_num at this hp1 ⊢
      linarith
  have habs : |cv * pv| ≤ (1 + 1 / 2 ^ 50) * P + 2 / 2 ^ 200 := by
    rw [abs_le]
    constructor
    · linarith
    · norm_num at hhi ⊢
      linarith
  obtain ⟨he1, he2⟩ := err_two_sided _ _ _ he
  generalize cv * pv = z at hlo hhi habs he1 he2
  generalize |z| = az at habs he1 he2
  constructor
  · norm_num at he1 hlo habs ⊢
    linarith
  · norm_num at he2 hhi habs ⊢
    linarith

/-- The rounded quotient by `2 W`: the correction the knee adds to the magnitude. -/
theorem knee_quotient (m b ev tv : ℚ) (hm : 0 ≤ m) (hm2 : m ≤ 32768) (hb : 0 < b)
    (hb1 : 1 / 2 ^ 64 ≤ b)
    (he1 : -((1 + 1 / 2 ^ 49)
        * (b * (m * (1 + 1 / 2 ^ 49) + 1 / 2 ^ 34) * (1 + 1 / 2 ^ 50) + 1 / 2 ^ 200))
        - 1 / 2 ^ 197 ≤ ev)
    (he2 : ev ≤ (b * (m * (1 + 1 / 2 ^ 49) + 1 / 2 ^ 34) * (1 + 1 / 2 ^ 50) + 1 / 2 ^ 200)
        / 2 ^ 49 + 1 / 2 ^ 197)
    (ht : |tv - ev / (b * 2)| ≤ |ev / (b * 2)| / 2 ^ 53 + 1 / 2 ^ 200) :
    -(m / 2) - 1 / 4 ≤ tv ∧ tv ≤ 1 / 4 := by
  have hmb : 0 ≤ b * m := mul_nonneg (le_of_lt hb) hm
  have hmb2 : b * m ≤ b * 32768 := mul_le_mul_of_nonneg_left hm2 (le_of_lt hb)
  have h2b : 0 < b * 2 := by linarith
  have hg1 : -(m / 2) - 1 / 2 ^ 30 ≤ ev / (b * 2) := by
    rw [le_div_iff₀ h2b]
    have e : (-(m / 2) - 1 / 2 ^ 30) * (b * 2) = -(b * m) - b / 2 ^ 29 := by ring
    have e2 : b * (m * (1 + 1 / 2 ^ 49) + 1 / 2 ^ 34) * (1 + 1 / 2 ^ 50)
        = b * m * ((1 + 1 / 2 ^ 49) * (1 + 1 / 2 ^ 50)) + b * ((1 + 1 / 2 ^ 50) / 2 ^ 34) := by
      ring
    rw [e]
    rw [e2] at he1
    norm_num at he1 hb1 hmb2 ⊢
    linarith
  have hg2 : ev / (b * 2) ≤ 1 / 2 ^ 30 := by
    rw [div_le_iff₀ h2b]
    have e2 : b * (m * (1 + 1 / 2 ^ 49) + 1 / 2 ^ 34) * (1 + 1 / 2 ^ 50)
        = b * m * ((1 + 1 / 2 ^ 49) * (1 + 1 / 2 ^ 50)) + b * ((1 + 1 / 2 ^ 50) / 2 ^ 34) := by
      ring
    rw [e2] at he2
    norm_num at he2 hb1 hmb2 ⊢
    linarith
  have habs : |ev / (b * 2)| ≤ 16385 := by
    rw [abs_le]
    constructor
    · norm_num at hg1 ⊢
      linarith
    · norm_num at hg2 ⊢
      linarith
  obtain ⟨ht1, ht2⟩ := err_two_sided _ _ _ ht
  generalize ev / (b * 2) = g at hg1 hg2 habs ht1 ht2
  generalize |g| = ag at habs ht1 ht2
  constructor
  · norm_num at ht1 hg1 habs ⊢
    linarith
  · norm_num at ht2 hg2 habs ⊢
    linarith

/-- The rounded sum of the magnitude and the correction. -/
theorem knee_result (m tv q : ℚ) (hm : 0 ≤ m) (hm2 : m ≤ 32768)
    (ht1 : -(m / 2) - 1 / 4 ≤ tv) (ht2 : tv ≤ 1 / 4)
    (hq : |q - (m + tv)| ≤ |m + tv| / 2 ^ 53) :
    -1 < q ∧ q < m + 1 := by
  have habs : |m + tv| ≤ 32769 := by
    rw [abs_le]
    constructor <;> linarith
  obtain ⟨hq1, hq2⟩ := err_two_sided _ _ _ hq
  generalize |m + tv| = az at habs hq1 hq2
  constructor
  · norm_num at hq1 habs ⊢
    linarith
  · norm_num at hq2 habs ⊢
    linarith

/-- Above the knee: the quotient `(x - T) / R` as computed. -/
theorem above_quot (m a b dv hv rv fv : ℚ) (hm : 0 ≤ m) (hb : 0 < b) (hb1 : 1 / 2 ^ 64 ≤ b)
    (hd : |dv - (m - a)| ≤ |m - a| / 2 ^ 53)
    (hh : |hv - b / 2| ≤ |b / 2| / 2 ^ 53 + 1 / 2 ^ 200)
    (hbr : hv < dv) (hr : 1 - 1 / 2 ^ 53 ≤ rv)
    (hf : |fv - dv / rv| ≤ |dv / rv| / 2 ^ 53 + 1 / 2 ^ 200) :
    a < m ∧ -(1 / 2 ^ 200) ≤ fv ∧ fv ≤ (m - a) * (1 + 1 / 2 ^ 50) + 1 / 2 ^ 200 := by
  have hb0 : |b / 2| = b / 2 := abs_of_pos (by linarith)
  rw [hb0] at hh
  obtain ⟨hh1, hh2⟩ := err_two_sided _ _ _ hh
  obtain ⟨hd1, hd2⟩ := err_two_sided _ _ _ hd
  have hdv : 0 < dv := by
    norm_num at hh1 hb1 ⊢
    linarith
  have hD : 0 < m - a := by
    by_contra hc
    have hc2 : m - a ≤ 0 := not_lt.mp hc
    rw [abs_of_nonpos hc2] at hd2
    norm_num at hd2
    linarith
  rw [abs_of_pos hD] at hd2
  have hr0 : (0 : ℚ) < rv := by
    norm_num at hr
    linarith
  have hg0 : 0 < dv / rv := div_pos hdv hr0
  have hg1 : dv / rv * rv = dv := div_mul_cancel₀ dv (ne_of_gt hr0)
  have hg2 : dv / rv * (1 - 1 / 2 ^ 53) ≤ dv / rv * rv :=
    mul_le_mul_of_nonneg_left hr (le_of_lt hg0)
  rw [hg1] at hg2
  rw [abs_of_pos hg0] at hf
  obtain ⟨hf1, hf2⟩ := err_two_sided _ _ _ hf
  generalize dv / rv = g at hg0 hg2 hf1 hf2
  refine ⟨by linarith, ?_, ?_⟩
  · norm_num at hf1 ⊢
    linarith
  · norm_num at hf2 hg2 hd2 ⊢
    linarith

/-- Above the knee: the sum `T + (x - T) / R` as computed. -/
theorem above_result (m a fv q : ℚ) (hm2 : m ≤ 32768) (ha : 1 / 2 ^ 65 ≤ a) (ham : a < m)
    (hf1 : -(1 / 2 ^ 200) ≤ fv) (hf2 : fv ≤ (m - a) * (1 + 1 / 2 ^ 50) + 1 / 2 ^ 200)
    (hq : |q - (a + fv)| ≤ |a + fv| / 2 ^ 53) :
    -1 < q ∧ q < m + 1 := by
  have h0 : 0 ≤ a + fv := by
    norm_num at hf1 ha ⊢
    linarith
  rw [abs_of_nonneg h0] at hq
  obtain ⟨hq1, hq2⟩ := err_two_sided _ _ _ hq
  constructor
  · norm_num at hq1 ⊢
    linarith
  · norm_num at hq2 hf2 ⊢
    linarith

/-- The bound of the square of the knee stays far inside the float range. -/
theorem knee_bound_range (m b : ℚ) (hm : 0 ≤ m) (hm2 : m ≤ 32768) (hb : 0 < b)
    (hb2 : b ≤ 2 ^ 65) :
    0 ≤ b * (m * (1 + 1 / 2 ^ 49) + 1 / 2 ^ 34) * (1 + 1 / 2 ^ 50) + 1 / 2 ^ 200
      ∧ b * (m * (1 + 1 / 2 ^ 49) + 1 / 2 ^ 34) * (1 + 1 / 2 ^ 50) + 1 / 2 ^ 200 ≤ 2 ^ 90 := by
  have hmb : 0 ≤ b * m := mul_nonneg (le_of_lt hb) hm
  have hmb2 : b * m ≤ 2 ^ 65 * 32768 := mul_le_mul hb2 hm2 hm (by norm_num)
  have e2 : b * (m * (1 + 1 / 2 ^ 49) + 1 / 2 ^ 34) * (1 + 1 / 2 ^ 50)
      = b * m * ((1 + 1 / 2 ^ 49) * (1 + 1 / 2 ^ 50)) + b * ((1 + 1 / 2 ^ 50) / 2 ^ 34) := by
    ring
  rw [e2]
  constructor
  · norm_num
    linarith
  · norm_num at hmb2 hb2 ⊢
    linarith

theorem abs_le_big (x c : ℚ) (h1 : -c ≤ x) (h2 : x ≤ c) (hc : c ≤ 2 ^ 100) :
    |x| ≤ 2 ^ 200 := by
  have e : (2 : ℚ) ^ 100 ≤ 2 ^ 200 := by norm_num
  rw [abs_le]
  constructor <;> linarith

/-- The soft-knee curve as computed, for a knee that does not reach below
magnitude zero (`W ≤ 2 T`) and a ratio of at least 1: the result is a number
less than one away from the interval from 0 to the magnitude. -/
theorem smoothPeak_near {F : Type} (ops : Float64Ops F) (val : F → Option ℚ)
    (laws : Float64KneeLaws ops val) (T W X : F) (R : Int) (a b m : ℚ)
    (hT : val T = some a) (hW : val W = some b) (hX : val X = some m)
    (hm : 0 ≤ m) (hm2 : m ≤ 32768) (hR : 1 ≤ R) (hR2 : R ≤ 2 ^ 63)
    (hknee : b ≤ 2 * a) (hb1 : 1 / 2 ^ 64 ≤ b) (ha2 : a ≤ 2 ^ 64) :
    ∃ q, val (smoothPeak ops T W R X) = some q ∧ -1 < q ∧ q < m + 1 := by
  have hb : 0 < b := lt_of_lt_of_le (by norm_num) hb1
  have ha : 0 < a := by linarith
  have hb2 : b ≤ 2 ^ 65 := by
    norm_num at ha2 ⊢
    linarith
  have ha1 : 1 / 2 ^ 65 ≤ a := by
    norm_num at hb1 ⊢
    linarith
  have h2 : val (ops.ofInt 2) = some (2 : ℚ) := by
    have := laws.base.ofInt_val 2 (by norm_num)
    simpa using this
  have h1 : val (ops.ofInt 1) = some (1 : ℚ) := by
    have := laws.base.ofInt_val 1 (by norm_num)
    simpa using this
  have e65 : (2 : ℚ) ^ 65 ≤ 2 ^ 100 := by norm_num
  have e64 : (2 : ℚ) ^ 64 ≤ 2 ^ 100 := by norm_num
  have e15 : (32768 : ℚ) ≤ 2 ^ 100 := by norm_num
  have hm200 : |m| ≤ 2 ^ 200 := abs_le_big m 32768 (by linarith) hm2 e15
  have ha200 : |a| ≤ 2 ^ 200 := abs_le_big a (2 ^ 64) (by linarith) ha2 e64
  have hb200 : |b| ≤ 2 ^ 200 := abs_le_big b (2 ^ 65) (by linarith) hb2 e65
  have hnb200 : |(-b)| ≤ 2 ^ 200 := by
    rw [abs_neg]
    exact hb200
  have h1200 : |(1 : ℚ)| ≤ 2 ^ 200 := abs_le_big 1 1 (by norm_num) (le_refl 1) (by norm_num)
  have h2200 : (1 : ℚ) / 2 ^ 200 ≤ |(2 : ℚ)| := by
    rw [abs_of_pos (by norm_num : (0 : ℚ) < 2)]
    norm_num
  obtain ⟨dv, hdv, hd⟩ := laws.sub_round X T m a hX hT hm200 ha200
  have hdv200 : |dv| ≤ 2 ^ 200 := by
    have h3 := (err_abs _ _ _ hd).1
    have h4 : |m - a| ≤ 2 ^ 65 := by
      rw [abs_le]
      constructor
      · norm_num at ha2 ⊢
        linarith
      · norm_num
        linarith
    have h5 := abs_nonneg dv
    refine abs_le_big dv (2 ^ 66) ?_ ?_ (by norm_num)
    · have := neg_abs_le dv
      norm_num at h3 h4 this ⊢
      linarith
    · have := le_abs_self dv
      norm_num at h3 h4 this ⊢
      linarith
  obtain ⟨hv, hhv, hh⟩ := laws.div_under W (ops.ofInt 2) b 2 hW h2 hb200 h2200
  have hhv200 : |hv| ≤ 2 ^ 200 := by
    have h3 := (err_abs _ _ _ hh).1
    rw [abs_of_pos (by linarith : 0 < b / 2)] at h3
    refine abs_le_big hv (2 ^ 66) ?_ ?_ (by norm_num)
    · have := neg_abs_le hv
      norm_num at h3 hb2 this ⊢
      linarith
    · have := le_abs_self hv
      norm_num at h3 hb2 this ⊢
      linarith
  obtain ⟨rv, hrv, hr⟩ := laws.ofInt_round R (by
    rw [abs_of_nonneg (by omega)]
    exact hR2)
  obtain ⟨hr1, hr2⟩ := ratio_range R rv hR hR2 hr
  have hrv0 : (1 : ℚ) / 2 ^ 200 ≤ |rv| := by
    rw [abs_of_pos (by norm_num at hr1 ⊢; linarith)]
    norm_num at hr1 ⊢
    linarith
  unfold smoothPeak
  by_cases c1 : ops.lt (ops.sub X T) (ops.div (ops.neg W) (ops.ofInt 2)) = true
  · rw [if_pos c1]
    exact ⟨m, hX, by linarith, by linarith⟩
  rw [if_neg c1]
  by_cases c2 : ops.le (ops.abs (ops.sub X T)) (ops.div W (ops.ofInt 2)) = true
  · rw [if_pos c2]
    have hbr : |dv| ≤ hv := (laws.le_iff _ _ _ _ (laws.base.abs_val _ _ hdv) hhv).mp c2
    obtain ⟨hsum, hsabs⟩ := knee_sum m a b dv hv hm hb hknee hb1 hb2 hd hh hbr
    obtain ⟨sv, hsv, hs⟩ := laws.add_round _ _ dv hv hdv hhv hdv200 hhv200
    have hsv200 : |sv| ≤ 2 ^ 200 := by
      have h3 := (err_abs _ _ _ hs).1
      have h5 := abs_nonneg (dv + hv)
      refine abs_le_big sv (2 ^ 67) ?_ ?_ (by norm_num)
      · have := neg_abs_le sv
        norm_num at h3 hb2 this ⊢
        linarith
      · have := le_abs_self sv
        norm_num at h3 hb2 this ⊢
        linarith
    obtain ⟨pv, hpv, hp⟩ := laws.sq_under _ sv hsv hsv200
    obtain ⟨hp1, hp2, -⟩ := knee_square (dv + hv) sv pv _ hs hp hsum
    obtain ⟨hP0, hP1⟩ := knee_bound_range m b hm hm2 hb hb2
    have hpv200 : |pv| ≤ 2 ^ 200 :=
      abs_le_big pv (2 ^ 90) (by norm_num at hp1 ⊢; linarith) (by linarith) (by norm_num)
    obtain ⟨iv, hiv, hi⟩ := laws.div_under (ops.ofInt 1) (ops.ofInt R) 1 rv h1 hrv h1200 hrv0
    obtain ⟨hi1, hi2⟩ := ratio_inv rv iv hr1 hi
    have hiv200 : |iv| ≤ 2 ^ 200 :=
      abs_le_big iv 2 (by norm_num at hi1 ⊢; linarith) hi2 (by norm_num)
    obtain ⟨cv, hcv, hc⟩ := laws.sub_round _ _ iv 1 hiv h1 hiv200 h1200
    obtain ⟨hc1, hc2⟩ := ratio_coeff rv iv cv hr1 hi hc
    have hcv200 : |cv| ≤ 2 ^ 200 :=
      abs_le_big cv 2 (by norm_num at hc1 ⊢; linarith) (by norm_num at hc2 ⊢; linarith)
        (by norm_num)
    obtain ⟨ev, hev, he⟩ := laws.mul_under _ _ cv pv hcv hpv hcv200 hpv200
    obtain ⟨he1, he2⟩ := knee_product cv pv ev _ hc1 hc2 hp1 hp2 hP0 he
    have hev200 : |ev| ≤ 2 ^ 200 := by
      refine abs_le_big ev (2 ^ 91) ?_ ?_ (by norm_num)
      · norm_num at he1 hP1 ⊢
        linarith
      · norm_num at he2 hP1 hP0 ⊢
        linarith
    have hw2 := laws.mul_two W b hW hb200
    have hw0 : (1 : ℚ) / 2 ^ 200 ≤ |b * 2| := by
      rw [abs_of_pos (by linarith)]
      norm_num at hb1 ⊢
      linarith
    obtain ⟨tv, htv, ht⟩ := laws.div_under _ _ ev (b * 2) hev hw2 hev200 hw0
    obtain ⟨ht1, ht2⟩ := knee_quotient m b ev tv hm hm2 hb hb1 he1 he2 ht
    have htv200 : |tv| ≤ 2 ^ 200 :=
      abs_le_big tv 32768 (by linarith) (by linarith) e15
    obtain ⟨q, hq, hqe⟩ := laws.add_round X _ m tv hX htv hm200 htv200
    exact ⟨q, hq, knee_result m tv q hm hm2 ht1 ht2 hqe⟩
  rw [if_neg c2]
  by_cases c3 : ops.lt (ops.div W (ops.ofInt 2)) (ops.sub X T) = true
  · rw [if_pos c3]
    have hbr : hv < dv := (laws.base.lt_iff _ _ _ _ hhv hdv).mp c3
    obtain ⟨fv, hfv, hf⟩ := laws.div_under _ (ops.ofInt R) dv rv hdv hrv hdv200 hrv0
    obtain ⟨ham, hf1, hf2⟩ := above_quot m a b dv hv rv fv hm hb hb1 hd hh hbr hr1 hf
    have hfv200 : |fv| ≤ 2 ^ 200 := by
      refine abs_le_big fv (2 ^ 17) ?_ ?_ (by norm_num)
      · norm_num at hf1 ⊢
        linarith
      · norm_num at hf2 ⊢
        linarith
    obtain ⟨q, hq, hqe⟩ := laws.add_round T _ a fv hT hfv ha200 hfv200
    exact ⟨q, hq, above_result m a fv q hm2 ha1 ham hf1 hf2 hqe⟩
  · rw [if_neg c3]
    exact ⟨m, hX, by linarith, by linarith⟩

theorem int16_range (v : Nat) : -32768 ≤ int16 v ∧ int16 v ≤ 32767 := by
  unfold int16
  split <;> omega

theorem truncQ_near_nonneg (q : ℚ) (h : -1 < q) : 0 ≤ truncQ q := by
  rcases le_or_lt 0 q with h0 | h0
  · exact truncQ_nonneg q h0
  · have h1 : |q| < ((0 : Int) : ℚ) + 1 := by
      rw [abs_of_neg h0]
      norm_num
      linarith
    have := truncQ_abs_le q 0 h1
    have h2 := abs_nonneg (truncQ q)
    have h3 : |truncQ q| = 0 := le_antisymm this h2
    rw [abs_eq_zero] at h3
    omega

theorem compress_sign {F : Type} (ops : Float64Ops F) (val : F → Option ℚ)
    (laws : Float64KneeLaws ops val) (t : WAV) (thresh kneeWidth : F) (R : Int) (T W : ℚ)
    (ht : Decoded t) (hss : 2 ≤ t.SampleSize)
    (hT : val (amplitude ops t thresh) = some T) (hW : val (amplitude ops t kneeWidth) = some W)
    (hR : 1 ≤ R) (hR2 : R ≤ 2 ^ 63) (hknee : W ≤ 2 * T) (hW1 : 1 / 2 ^ 64 ≤ W)
    (hT2 : T ≤ 2 ^ 64) :
    ∃ w, compress ops t thresh R (ops.ofInt 1) kneeWidth = Except.ok w
      ∧ w.data.length = t.data.length
      ∧ ∀ (j : Nat) (f g : Frame), t.data[j]? = some f → w.data[j]? = some g →
          ∃ x y, sampleOf f = some x ∧ sampleOf g = some y
            ∧ (0 ≤ x → 0 ≤ y) ∧ (x < 0 → y ≤ 0) := by
  have hfr := decoded_frames_ge t ht hss
  refine ⟨_, compress_map ops t thresh R (ops.ofInt 1) kneeWidth
    (ne_one_false ops val laws.base) ht.data_length hss hfr, List.length_map _ _, ?_⟩
  intro j f g hf hg
  simp only [List.getElem?_map, hf, Option.map, Option.some.injEq] at hg
  have hmem : f ∈ t.data := by
    obtain ⟨hj, hjf⟩ := List.getElem?_eq_some.mp hf
    rw [← hjf]
    exact List.getElem_mem hj
  have hx := sampleOf_abs_le f
  obtain ⟨v, hv⟩ := sample_int16 f
  obtain ⟨hv1, hv2⟩ := int16_range v
  rw [← hv] at hv1 hv2
  generalize hxe : (sampleOf f).getD 0 = x at hx hv1 hv2 hg
  have hmq : ((|x| : Int) : ℚ) ≤ 32768 := by exact_mod_cast hx
  have hm0 : (0 : ℚ) ≤ ((|x| : Int) : ℚ) := by exact_mod_cast abs_nonneg x
  obtain ⟨q, hq, hq1, hq2⟩ := smoothPeak_near ops val laws (amplitude ops t thresh)
    (amplitude ops t kneeWidth) (magnitude ops x) R T W ((|x| : Int) : ℚ) hT hW
    (magnitude_val ops val laws.base x hx) hm0 hmq hR hR2 hknee hW1 hT2
  have hval := compressSample_val ops val laws.base (amplitude ops t thresh)
    (amplitude ops t kneeWidth) R x hx q hq
  have hqa : |q| < 32769 := by
    rw [abs_lt]
    constructor <;> linarith
  have habs : |(if x < 0 then -q else q)| < 2 ^ 31 := by
    have e : (32769 : ℚ) < 2 ^ 31 := by norm_num
    split
    · rw [abs_neg]
      linarith
    · linarith
  have hst := laws.base.toUint16_val _ _ hval habs
  have htq0 := truncQ_near_nonneg q hq1
  have htq1 : |truncQ q| ≤ |x| := truncQ_abs_le q |x| (by
    rw [abs_lt]
    constructor <;> linarith)
  rw [abs_of_nonneg htq0] at htq1
  refine ⟨x, truncQ (if x < 0 then -q else q), ?_, ?_, ?_, ?_⟩
  · rw [← hxe]
    exact sampleOf_getD f (hfr f hmem)
  · rw [← hg, sampleOf_storedFrame, hst]
    split
    · rename_i hneg
      rw [truncQ_neg]
      rw [abs_of_neg hneg] at htq1
      exact congrArg some (int16_low16 _ (by omega) (by omega))
    · rename_i hpos
      rw [abs_of_nonneg (by omega)] at htq1
      exact congrArg some (int16_low16 _ (by omega) (by omega))
  · intro h0
    rw [if_neg (by omega)]
    exact htq0
  · intro h0
    rw [if_pos h0, truncQ_neg]
    omega

/-! ## The normalizer and the compressor: the properties -/

/-- C11. Peak of `normalize` at 0 dB: in every `float64` arithmetic that
obeys `Float64Laws`, for every decoded 16-bit track with a frame whose
leading sample is not zero, `normalize` with the target `float64(0)` returns,
and the largest absolute value among the leading samples of the result
differs from 32767 by at most 1. -/
theorem normalize_peak {F : Type} (ops : Float64Ops F) (val : F → Option ℚ)
    (laws : Float64Laws ops val) (s : Reader) (t : WAV)
    (ht : read NewWAV s = Except.ok t) (h16 : t.bitsPerSample = 16)
    (hns : ∃ f ∈ t.data, (sampleOf f).getD 0 ≠ 0) :
    ∃ w, normalize ops t (ops.ofInt 0) = Except.ok w ∧ |peakOf w.data - 32767| ≤ 1 := by
  obtain ⟨w, hw, h1, h2⟩ := normalize_full_scale_peak ops val laws t (read_decoded s t ht) h16
    (peakOf_ne_zero t.data hns)
  refine ⟨w, hw, ?_⟩
  rw [abs_le]
  omega

set_option maxRecDepth 100000 in
/-- C11, at the one-frame track with sample -49, in IEEE-754 arithmetic. -/
theorem normalize_peak_witness :
    ∃ w, normalize ieeeOps (pcmTrack 1 44100 16 2 [[0xcf, 0xff]]) (ieeeOps.ofInt 0)
        = Except.ok w
      ∧ |peakOf w.data - 32767| ≤ 1 :=
  normalize_peak ieeeOps ieeeVal ieeeOps_laws (pcmStream 1 44100 16 2 [0xcf, 0xff])
    (pcmTrack 1 44100 16 2 [[0xcf, 0xff]]) (by decide) (by decide)
    ⟨[0xcf, 0xff], by decide, by decide⟩

set_option maxRecDepth 100000 in
/-- C12, refuted as stated: the one-frame track with sample -49 and the
target 0 dB, in IEEE-754 arithmetic.  `normalize` makes the sample -32767
(`-49 * (32768 / 49)` rounds to a number above -32768, which the conversion
truncates), and `normalize` of that result with the same target makes it
-32768: the second pass changes the sample. -/
theorem normalize_not_idempotent :
    read NewWAV (pcmStream 1 44100 16 2 [0xcf, 0xff])
        = Except.ok (pcmTrack 1 44100 16 2 [[0xcf, 0xff]])
      ∧ sampleOf [0xcf, 0xff] = some (-49)
      ∧ normalize ieeeOps (pcmTrack 1 44100 16 2 [[0xcf, 0xff]]) (ieeeOps.ofInt 0)
        = Except.ok (pcmTrack 1 44100 16 2 [[0x01, 0x80]])
      ∧ normalize ieeeOps (pcmTrack 1 44100 16 2 [[0x01, 0x80]]) (ieeeOps.ofInt 0)
        = Except.ok (pcmTrack 1 44100 16 2 [[0, 0x80]])
      ∧ sampleOf [0x01, 0x80] = some (-32767) ∧ sampleOf [0, 0x80] = some (-32768) := by
  decide

/-- C12, amended: in every `float64` arithmetic that obeys `Float64Laws`,
for every decoded track `t` with frames of at least two bytes and a leading
sample that is not zero, and every target `d` whose amplitude
`A = 2^(bitsPerSample-1) * 10^(d/20)`, as `normalize` computes it, either is
the largest absolute sample of `normalize(t, d)`, or lies between two
consecutive integers `n` and `n + 1` with `1 ≤ n ≤ 32767`, at a relative
distance of `2^-51` from both: `normalize` of the result `w` of
`normalize(t, d)` with the same target returns `w`, no frame changes. -/
theorem normalize_idempotent {F : Type} (ops : Float64Ops F) (val : F → Option ℚ)
    (laws : Float64Laws ops val) (s : Reader) (t w : WAV) (d : F) (A : ℚ)
    (ht : read NewWAV s = Except.ok t) (hss : 2 ≤ t.SampleSize)
    (hns : ∃ f ∈ t.data, (sampleOf f).getD 0 ≠ 0)
    (hw : normalize ops t d = Except.ok w)
    (hA : val (amplitude ops t d) = some A)
    (hcase : (0 < A ∧ A = ((peakOf w.data : Int) : ℚ))
      ∨ ∃ n : Int, 1 ≤ n ∧ n ≤ 32767 ∧ (n : ℚ) * (1 + 1 / 2 ^ 51) ≤ A
          ∧ A ≤ ((n : ℚ) + 1) * (1 - 1 / 2 ^ 51)) :
    normalize ops w d = Except.ok w := by
  have htd := read_decoded s t ht
  have hfr := decoded_frames_ge t htd hss
  rcases hcase with ⟨hA0, hAp⟩ | ⟨n, hn, hn2, hA1, hA2⟩
  · obtain ⟨pk, hpk, hnorm⟩ := normalize_map ops t d htd.data_length hss hfr
    rw [hnorm] at hw
    cases hw
    refine normalize_fixed ops val laws _ d ?_ hss ?_ ?_ ?_
    · simp only [List.length_map]
      exact htd.data_length
    · intro f hf
      obtain ⟨f0, _, rfl⟩ := List.mem_map.mp hf
      exact ⟨_, rfl⟩
    · intro h0
      rw [h0] at hAp
      rw [hAp] at hA0
      simp at hA0
    · rw [← hAp]
      exact hA
  · obtain ⟨fs, hfs, hlen, hst, hpk⟩ := normalize_between ops val laws t d A n htd.data_length
      hss hfr (peakOf_ne_zero t.data hns) hA hn hn2 hA1 hA2
    rw [hfs] at hw
    cases hw
    exact normalize_fixed_between ops val laws _ d A n (by rw [← htd.data_length]; exact hlen)
      hss hst hpk hA hn hn2 hA1 hA2

set_option maxRecDepth 100000 in
/-- C12 amended, at the one-frame track with sample -16384 and the target
-20 dB, in IEEE-754 arithmetic: the amplitude is the binary64 number next to
3276.8, between 3276 and 3277; the first pass makes the sample -3276, and the
second pass changes nothing. -/
theorem normalize_idempotent_witness :
    normalize ieeeOps (pcmTrack 1 44100 16 2 [[0, 0xc0]]) (ieeeOps.ofInt (-20))
        = Except.ok (pcmTrack 1 44100 16 2 [[0x34, 0xf3]])
      ∧ normalize ieeeOps (pcmTrack 1 44100 16 2 [[0x34, 0xf3]]) (ieeeOps.ofInt (-20))
        = Except.ok (pcmTrack 1 44100 16 2 [[0x34, 0xf3]]) := by
  have hw : normalize ieeeOps (pcmTrack 1 44100 16 2 [[0, 0xc0]]) (ieeeOps.ofInt (-20))
      = Except.ok (pcmTrack 1 44100 16 2 [[0x34, 0xf3]]) := by decide
  have hamp : amplitude ieeeOps (pcmTrack 1 44100 16 2 [[0, 0xc0]]) (ieeeOps.ofInt (-20))
      = some ⟨7205759403792794, 2199023255552⟩ := by decide
  exact ⟨hw, normalize_idempotent ieeeOps ieeeVal ieeeOps_laws
    (pcmStream 1 44100 16 2 [0, 0xc0]) (pcmTrack 1 44100 16 2 [[0, 0xc0]])
    (pcmTrack 1 44100 16 2 [[0x34, 0xf3]]) (ieeeOps.ofInt (-20))
    (Frac.val ⟨7205759403792794, 2199023255552⟩)
    (by decide) (by decide) ⟨[0, 0xc0], by decide, by decide⟩ hw
    (by
      rw [hamp]
      exact ieeeVal_of ⟨7205759403792794, 2199023255552⟩ (by decide) 7205759403792794 (-41)
        (by norm_num) (by norm_num [Frac.val]))
    (Or.inr ⟨3276, by norm_num, by norm_num, by norm_num [Frac.val], by norm_num [Frac.val]⟩)⟩

set_option maxRecDepth 100000 in
/-- C13, refuted as stated: the one-frame track with sample 32767, the
threshold 0 dB, the knee width 0 dB, the ratio 2 and the makeup 1.0, in
IEEE-754 arithmetic.  `T = 32768` is above the magnitude of the sample, but
the sample lies in the knee (`|32767 - T| ≤ W/2 = 16384`) and `compress`
makes it 30719. -/
theorem compress_changes_sample_below_threshold :
    read NewWAV (pcmStream 1 44100 16 2 [0xff, 0x7f])
        = Except.ok (pcmTrack 1 44100 16 2 [[0xff, 0x7f]])
      ∧ sampleOf [0xff, 0x7f] = some 32767
      ∧ ieeeOps.lt (magnitude ieeeOps 32767)
          (amplitude ieeeOps (pcmTrack 1 44100 16 2 [[0xff, 0x7f]]) (ieeeOps.ofInt 0)) = true
      ∧ compress ieeeOps (pcmTrack 1 44100 16 2 [[0xff, 0x7f]]) (ieeeOps.ofInt 0) 2
          (ieeeOps.ofInt 1) (ieeeOps.ofInt 0)
        = Except.ok (pcmTrack 1 44100 16 2 [[0xff, 0x77]])
      ∧ sampleOf [0xff, 0x77] = some 30719 := by
  decide

/-- C13, amended: in every `float64` arithmetic that obeys `Float64Laws`,
for every decoded track with frames of at least two bytes, every threshold,
knee width and ratio such that every leading sample lies below the knee,
that is, its magnitude `m` passes the test `m - T < -W/2` of line 214 with
`T` and `W` the amplitudes of the threshold and of the knee width,
`compress` with the makeup `float64(1)` returns and leaves every leading
sample unchanged. -/
theorem compress_identity_below_knee {F : Type} (ops : Float64Ops F) (val : F → Option ℚ)
    (laws : Float64Laws ops val) (s : Reader) (t : WAV) (thresh kneeWidth : F) (R : Int)
    (ht : read NewWAV s = Except.ok t) (hss : 2 ≤ t.SampleSize)
    (hbelow : ∀ f ∈ t.data,
      ops.lt (ops.sub (magnitude ops ((sampleOf f).getD 0)) (amplitude ops t thresh))
        (ops.div (ops.neg (amplitude ops t kneeWidth)) (ops.ofInt 2)) = true) :
    ∃ w, compress ops t thresh R (ops.ofInt 1) kneeWidth = Except.ok w
      ∧ w.data.map sampleOf = t.data.map sampleOf :=
  compress_below_knee ops val laws t thresh kneeWidth R (read_decoded s t ht) hss hbelow

set_option maxRecDepth 100000 in
/-- C13 amended, at the one-frame track with sample 100, the threshold
0 dB, the knee width 0 dB and the ratio 2, in IEEE-754 arithmetic:
`100 - 32768 < -16384`. -/
theorem compress_identity_below_knee_witness :
    ∃ w, compress ieeeOps (pcmTrack 1 44100 16 2 [[100, 0]]) (ieeeOps.ofInt 0) 2
        (ieeeOps.ofInt 1) (ieeeOps.ofInt 0) = Except.ok w
      ∧ w.data.map sampleOf = (pcmTrack 1 44100 16 2 [[100, 0]]).data.map sampleOf :=
  compress_identity_below_knee ieeeOps ieeeVal ieeeOps_laws (pcmStream 1 44100 16 2 [100, 0])
    (pcmTrack 1 44100 16 2 [[100, 0]]) (ieeeOps.ofInt 0) (ieeeOps.ofInt 0) 2
    (by decide) (by decide) (by decide)

/-- C14. Continuity of the knee, in exact arithmetic: for every `T`, every
`W > 0` and every ratio `R ≥ 1`, the curve of lines 214-219 is the identity
for `x - T < -W/2`, `x + ((1/R - 1) * (x - T + W/2)^2) / (W*2)` for
`|x - T| ≤ W/2` and `T + (x - T)/R` for `x - T > W/2`; at `x = T - W/2` the
knee formula yields `x`, the value of the identity; at `x = T + W/2` the knee
formula and the formula above the knee both yield `T + W/(2R)`; and the curve
is a continuous function of `x`. -/
theorem smoothPeak_continuous (T W : ℚ) (R : Int) (hW : 0 < W) (hR : 1 ≤ R) :
    (∀ x : ℚ, x - T < -W / 2 → smoothPeak exactOps (some T) (some W) R (some x) = some x)
      ∧ (∀ x : ℚ, |x - T| ≤ W / 2 → smoothPeak exactOps (some T) (some W) R (some x)
          = some (x + ((1 / (R : ℚ) - 1) * (x - T + W / 2) ^ 2) / (W * 2)))
      ∧ (∀ x : ℚ, W / 2 < x - T → smoothPeak exactOps (some T) (some W) R (some x)
          = some (T + (x - T) / (R : ℚ)))
      ∧ smoothPeak exactOps (some T) (some W) R (some (T - W / 2)) = some (T - W / 2)
      ∧ smoothPeak exactOps (some T) (some W) R (some (T + W / 2))
          = some (T + W / (2 * (R : ℚ)))
      ∧ T + ((T + W / 2) - T) / (R : ℚ) = T + W / (2 * (R : ℚ))
      ∧ Continuous (fun x : ℚ => (smoothPeak exactOps (some T) (some W) R (some x)).getD 0) := by
  have hR0 : (R : ℚ) ≠ 0 := by
    have : (0 : ℚ) < R := by exact_mod_cast (show (0 : Int) < R by omega)
    exact ne_of_gt this
  have hW0 : W ≠ 0 := ne_of_gt hW
  refine ⟨fun x h => smoothPeak_below T W R x h, fun x h => smoothPeak_knee T W R x hW hR h,
    fun x h => smoothPeak_above T W R x hW hR h, ?_, ?_, ?_,
    smoothPeak_continuous_aux T W R hW hR⟩
  · rw [smoothPeak_knee T W R _ hW hR (by
      rw [show T - W / 2 - T = -(W / 2) by ring, abs_neg, abs_of_pos (by linarith)])]
    congr 1
    field_simp
    ring
  · rw [smoothPeak_knee T W R _ hW hR (by
      rw [show T + W / 2 - T = W / 2 by ring, abs_of_pos (by linarith)])]
    congr 1
    field_simp
    ring
  · field_simp
    ring

/-- C14, at `T = W = 32768` and `R = 2`: the curve is 16384 at the lower
end of the knee and `32768 + 32768 / 4` at its upper end. -/
theorem smoothPeak_continuous_witness :
    smoothPeak exactOps (some 32768) (some 32768) 2 (some (32768 - 32768 / 2))
        = some (32768 - 32768 / 2)
      ∧ smoothPeak exactOps (some 32768) (some 32768) 2 (some (32768 + 32768 / 2))
        = some (32768 + 32768 / (2 * ((2 : Int) : ℚ))) :=
  ⟨(smoothPeak_continuous 32768 32768 2 (by norm_num) (by norm_num)).2.2.2.1,
    (smoothPeak_continuous 32768 32768 2 (by norm_num) (by norm_num)).2.2.2.2.1⟩

set_option maxRecDepth 100000 in
/-- C18, the code at a failing input: the two-frame track with samples
16384 and -5 and the target 0 dB, in IEEE-754 arithmetic.  The gain is
`32768 / 16384 = 2`; the sample -5 becomes -10, but the sample 16384 becomes
-32768, not `trunc(16384 * 2) = 32768`: the positive peak comes out
negative. -/
theorem normalize_flips_positive_peak :
    read NewWAV (pcmStream 1 44100 16 4 [0, 0x40, 0xfb, 0xff])
        = Except.ok (pcmTrack 1 44100 16 4 [[0, 0x40], [0xfb, 0xff]])
      ∧ sampleOf [0, 0x40] = some 16384 ∧ sampleOf [0xfb, 0xff] = some (-5)
      ∧ normalize ieeeOps (pcmTrack 1 44100 16 4 [[0, 0x40], [0xfb, 0xff]]) (ieeeOps.ofInt 0)
        = Except.ok (pcmTrack 1 44100 16 4 [[0, 0x80], [0xf6, 0xff]])
      ∧ sampleOf [0, 0x80] = some (-32768) ∧ sampleOf [0xf6, 0xff] = some (-10) := by
  decide

set_option maxRecDepth 100000 in
/-- C19, refuted as stated: the one-frame track with sample -3, the
threshold 0 dB, the knee width 20 dB, the ratio 2 and the makeup 1.0, in
IEEE-754 arithmetic.  `T = 32768` and `W = 327680`, the knee reaches below
magnitude zero, the compressed magnitude of 3 is negative (about -13104.8),
and the output sample is 13104: positive for a negative input. -/
theorem compress_flips_sign :
    read NewWAV (pcmStream 1 44100 16 2 [0xfd, 0xff])
        = Except.ok (pcmTrack 1 44100 16 2 [[0xfd, 0xff]])
      ∧ sampleOf [0xfd, 0xff] = some (-3)
      ∧ ieeeOps.lt (smoothPeak ieeeOps
            (amplitude ieeeOps (pcmTrack 1 44100 16 2 [[0xfd, 0xff]]) (ieeeOps.ofInt 0))
            (amplitude ieeeOps (pcmTrack 1 44100 16 2 [[0xfd, 0xff]]) (ieeeOps.ofInt 20))
            2 (magnitude ieeeOps (-3)))
          (ieeeOps.ofInt 0) = true
      ∧ compress ieeeOps (pcmTrack 1 44100 16 2 [[0xfd, 0xff]]) (ieeeOps.ofInt 0) 2
          (ieeeOps.ofInt 1) (ieeeOps.ofInt 20)
        = Except.ok (pcmTrack 1 44100 16 2 [[0x30, 0x33]])
      ∧ sampleOf [0x30, 0x33] = some 13104 := by
  decide

/-- C19, amended: in every `float64` arithmetic that obeys `Float64KneeLaws`,
for every decoded track with frames of at least two bytes, every threshold
and knee width whose amplitudes `T` and `W` of lines 179-180 are numbers with
`W ≤ 2 T` (the knee, which starts at `T - W/2`, does not reach below
magnitude zero), `2^-64 ≤ W` and `T ≤ 2^64`, and every ratio `R ≥ 1` of a Go
`int`, `compress` with the makeup `float64(1)` returns a track of as many
frames, and each output sample is non-negative when the input sample is
non-negative and non-positive when the input sample is negative. -/
theorem compress_keeps_sign {F : Type} (ops : Float64Ops F) (val : F → Option ℚ)
    (laws : Float64KneeLaws ops val) (s : Reader) (t : WAV) (thresh kneeWidth : F) (R : Int)
    (T W : ℚ) (ht : read NewWAV s = Except.ok t) (hss : 2 ≤ t.SampleSize)
    (hT : val (amplitude ops t thresh) = some T) (hW : val (amplitude ops t kneeWidth) = some W)
    (hR : 1 ≤ R) (hR2 : R ≤ 2 ^ 63) (hknee : W ≤ 2 * T) (hW1 : 1 / 2 ^ 64 ≤ W)
    (hT2 : T ≤ 2 ^ 64) :
    ∃ w, compress ops t thresh R (ops.ofInt 1) kneeWidth = Except.ok w
      ∧ w.data.length = t.data.length
      ∧ ∀ (j : Nat) (f g : Frame), t.data[j]? = some f → w.data[j]? = some g →
          ∃ x y, sampleOf f = some x ∧ sampleOf g = some y
            ∧ (0 ≤ x → 0 ≤ y) ∧ (x < 0 → y ≤ 0) :=
  compress_sign ops val laws t thresh kneeWidth R T W (read_decoded s t ht) hss hT hW
    hR hR2 hknee hW1 hT2

set_option maxRecDepth 100000 in
/-- C19 amended, at the one-frame track with sample -30000, the threshold
0 dB, the knee width 0 dB and the ratio 2, in IEEE-754 arithmetic: `T = W =
32768`, the magnitude 30000 lies inside the knee, which spans the magnitudes
from 16384 to 49152, the curve takes it to about 28585.5, and the output
sample is -28585. -/
theorem compress_keeps_sign_witness :
    sampleOf [0xd0, 0x8a] = some (-30000)
      ∧ ieeeOps.le
          (ieeeOps.abs (ieeeOps.sub (magnitude ieeeOps (-30000))
            (amplitude ieeeOps (pcmTrack 1 44100 16 2 [[0xd0, 0x8a]]) (ieeeOps.ofInt 0))))
          (ieeeOps.div
            (amplitude ieeeOps (pcmTrack 1 44100 16 2 [[0xd0, 0x8a]]) (ieeeOps.ofInt 0))
            (ieeeOps.ofInt 2)) = true
      ∧ compress ieeeOps (pcmTrack 1 44100 16 2 [[0xd0, 0x8a]]) (ieeeOps.ofInt 0) 2
          (ieeeOps.ofInt 1) (ieeeOps.ofInt 0)
        = Except.ok (pcmTrack 1 44100 16 2 [[0x57, 0x90]])
      ∧ sampleOf [0x57, 0x90] = some (-28585)
      ∧ ∃ w, compress ieeeOps (pcmTrack 1 44100 16 2 [[0xd0, 0x8a]]) (ieeeOps.ofInt 0) 2
          (ieeeOps.ofInt 1) (ieeeOps.ofInt 0) = Except.ok w
        ∧ w.data.length = (pcmTrack 1 44100 16 2 [[0xd0, 0x8a]]).data.length
        ∧ ∀ (j : Nat) (f g : Frame),
            (pcmTrack 1 44100 16 2 [[0xd0, 0x8a]]).data[j]? = some f → w.data[j]? = some g →
            ∃ x y, sampleOf f = some x ∧ sampleOf g = some y
              ∧ (0 ≤ x → 0 ≤ y) ∧ (x < 0 → y ≤ 0) :=
  ⟨by decide, by decide, by decide, by decide,
    compress_keeps_sign ieeeOps ieeeVal ieeeOps_kneeLaws (pcmStream 1 44100 16 2 [0xd0, 0x8a])
      (pcmTrack 1 44100 16 2 [[0xd0, 0x8a]]) (ieeeOps.ofInt 0) (ieeeOps.ofInt 0) 2 32768 32768
      (by decide) (by decide)
      (amplitude_full_scale ieeeOps ieeeVal ieeeOps_laws _ (by decide))
      (amplitude_full_scale ieeeOps ieeeVal ieeeOps_laws _ (by decide))
      (by norm_num) (by norm_num) (by norm_num) (by norm_num) (by norm_num)⟩

end GoMixer
